import Mathlib

/-!
Verification of the Gallatin allocator's free-index machinery.

This file shallowly embeds, in Lean, the bitmap `layer` and Van Emde Boas
`veb_tree` structures of the allocator, together with the parts of the
segment table (`alloc_table`) and top-level allocator loops that the
specification speaks about.  Device words (`uint64_t`) are modelled as `Nat`
with an explicit `< 2^64` bound; atomics become sequential state updates;
out-of-bounds accesses and exhausted fuel are modelled by `Option`.
-/

namespace Gallatin

/-- The modulus of a 64-bit machine word. -/
def U64 : Nat := 2 ^ 64

/-- C macro `SET_BIT_MASK(index) = (1ULL << index)`. -/
def SET_BIT_MASK (i : Nat) : Nat := 1 <<< i

/-- C macro `BITMASK(nbits)`: all-ones when `nbits = 64`, else `(1 << nbits) - 1`. -/
def BITMASK (n : Nat) : Nat := if n = 64 then U64 - 1 else (1 <<< n) - 1

/-- Bitwise complement of a 64-bit word, `~x`. -/
def compl64 (x : Nat) : Nat := x ^^^ (U64 - 1)

/-- Scan for the least set bit of `x` at positions `start, start+1, ...`,
examining at most `fuel` positions. -/
def firstSetAux (x : Nat) : Nat → Nat → Option Nat
  | _, 0 => none
  | start, fuel+1 => if x.testBit start then some start else firstSetAux x (start+1) fuel

/-- CUDA `__ffsll`: one plus the index of the least significant set bit, `0` if none. -/
def ffsll (x : Nat) : Nat :=
  match firstSetAux x 0 64 with
  | some i => i + 1
  | none => 0

/-- CUDA `__popcll`: the number of set bits of a 64-bit word. -/
def popcll (x : Nat) : Nat := (List.range 64).countP (fun i => x.testBit i)

/-- Gallatin's `__cfcll`: the number of contiguous set bits at the low end of
a word, computed as `popc*(popc_valid) + (__ffsll(~bits)-1)*(!popc_valid)`. -/
def cfcll (x : Nat) : Nat :=
  if popcll x = 0 ∨ popcll x = 64 then popcll x else ffsll (compl64 x) - 1

theorem two_pow_64_pos : 0 < U64 := Nat.pos_pow_of_pos 64 (by decide)

theorem testBit_ones64 (i : Nat) : (U64 - 1).testBit i = decide (i < 64) := by
  have h : U64 - 1 = 2 ^ 64 - 1 := rfl
  rw [h, Nat.testBit_two_pow_sub_one]

theorem testBit_of_lt_u64 {x i : Nat} (hx : x < U64) (hi : 64 ≤ i) :
    x.testBit i = false := by
  apply Nat.testBit_lt_two_pow
  exact lt_of_lt_of_le hx (Nat.pow_le_pow_right (by decide) hi)

theorem testBit_compl64 {x : Nat} (hx : x < U64) (i : Nat) :
    (compl64 x).testBit i = (decide (i < 64) && !(x.testBit i)) := by
  rw [compl64, Nat.testBit_xor, testBit_ones64]
  by_cases h : i < 64
  · simp [h]
  · simp [h, testBit_of_lt_u64 hx (le_of_not_lt h)]

theorem compl64_lt {x : Nat} (hx : x < U64) : compl64 x < U64 :=
  Nat.xor_lt_two_pow hx (by decide)

theorem firstSetAux_eq_none {x : Nat} :
    ∀ fuel start, firstSetAux x start fuel = none ↔
      ∀ j, start ≤ j → j < start + fuel → x.testBit j = false := by
  intro fuel
  induction fuel with
  | zero => intro start; simp [firstSetAux]; omega
  | succ f ih =>
    intro start
    rw [firstSetAux]
    by_cases h : x.testBit start = true
    · rw [if_pos h]
      constructor
      · intro hcon; exact absurd hcon (by simp)
      · intro hall
        have := hall start (le_refl _) (by omega)
        rw [h] at this; exact absurd this (by simp)
    · rw [if_neg h, ih]
      constructor
      · intro hall j hj1 hj2
        rcases Nat.eq_or_lt_of_le hj1 with heq | hlt
        · subst heq; exact Bool.eq_false_iff.mpr h
        · exact hall j hlt (by omega)
      · intro hall j hj1 hj2
        exact hall j (by omega) (by omega)

theorem firstSetAux_eq_some {x : Nat} :
    ∀ fuel start i, firstSetAux x start fuel = some i →
      x.testBit i = true ∧ start ≤ i ∧ i < start + fuel ∧
        ∀ j, start ≤ j → j < i → x.testBit j = false := by
  intro fuel
  induction fuel with
  | zero => intro start i h; exact absurd h (by simp [firstSetAux])
  | succ f ih =>
    intro start i h
    rw [firstSetAux] at h
    by_cases hb : x.testBit start = true
    · rw [if_pos hb] at h
      cases h
      exact ⟨hb, le_refl _, by omega, fun j hj1 hj2 => by omega⟩
    · rw [if_neg hb] at h
      obtain ⟨h1, h2, h3, h4⟩ := ih (start+1) i h
      refine ⟨h1, by omega, by omega, ?_⟩
      intro j hj1 hj2
      rcases Nat.eq_or_lt_of_le hj1 with heq | hlt
      · subst heq; exact Bool.eq_false_iff.mpr hb
      · exact h4 j hlt hj2

theorem ffsll_eq_zero_iff {x : Nat} (hx : x < U64) : ffsll x = 0 ↔ x = 0 := by
  rw [ffsll]
  constructor
  · intro h
    cases hcase : firstSetAux x 0 64 with
    | some i => rw [hcase] at h; exact absurd h (by simp)
    | none =>
      rw [firstSetAux_eq_none] at hcase
      apply Nat.eq_of_testBit_eq
      intro i
      simp only [Nat.zero_testBit]
      by_cases hi : i < 64
      · exact hcase i (Nat.zero_le _) (by omega)
      · exact testBit_of_lt_u64 hx (le_of_not_lt hi)
  · intro h
    subst h
    have : firstSetAux 0 0 64 = none := by
      rw [firstSetAux_eq_none]; intro j _ _; exact Nat.zero_testBit j
    rw [this]

theorem ffsll_spec {x : Nat} (hx : x < U64) (hne : x ≠ 0) :
    ∃ i, ffsll x = i + 1 ∧ x.testBit i = true ∧ i < 64 ∧
      ∀ j, j < i → x.testBit j = false := by
  cases hcase : firstSetAux x 0 64 with
  | none =>
    exfalso
    rw [firstSetAux_eq_none] at hcase
    apply hne
    apply Nat.eq_of_testBit_eq
    intro i
    simp only [Nat.zero_testBit]
    by_cases hi : i < 64
    · exact hcase i (Nat.zero_le _) (by omega)
    · exact testBit_of_lt_u64 hx (le_of_not_lt hi)
  | some i =>
    obtain ⟨h1, _, h3, h4⟩ := firstSetAux_eq_some 64 0 i hcase
    refine ⟨i, ?_, h1, by omega, fun j hj => h4 j (Nat.zero_le _) hj⟩
    rw [ffsll, hcase]

theorem popcll_eq_zero_iff {x : Nat} (hx : x < U64) : popcll x = 0 ↔ x = 0 := by
  rw [popcll, List.countP_eq_zero]
  constructor
  · intro h
    apply Nat.eq_of_testBit_eq
    intro i
    simp only [Nat.zero_testBit]
    by_cases hi : i < 64
    · have := h i (List.mem_range.mpr hi)
      simpa using this
    · exact testBit_of_lt_u64 hx (le_of_not_lt hi)
  · intro h; subst h; intro a _; simp

theorem popcll_eq_64_iff {x : Nat} (hx : x < U64) : popcll x = 64 ↔ x = U64 - 1 := by
  have hlen : (List.range 64).length = 64 := List.length_range 64
  constructor
  · intro h
    have hall : ∀ a ∈ List.range 64, x.testBit a = true :=
      List.countP_eq_length.mp (by rw [hlen]; exact h)
    apply Nat.eq_of_testBit_eq
    intro i
    rw [testBit_ones64]
    by_cases hi : i < 64
    · have := hall i (List.mem_range.mpr hi)
      simp [hi, this]
    · simp [hi, testBit_of_lt_u64 hx (le_of_not_lt hi)]
  · intro h; subst h
    rw [popcll, ← hlen]
    apply List.countP_eq_length.mpr
    intro i hi
    rw [testBit_ones64]
    simpa using List.mem_range.mp hi

theorem countP_antitone_of_eq {α : Type} :
    ∀ l : List α, ∀ p q : α → Bool, (∀ a ∈ l, p a = true → q a = true) →
      l.countP p = l.countP q → ∀ a ∈ l, q a = true → p a = true := by
  intro l
  induction l with
  | nil => intro p q _ _ a ha; exact absurd ha (List.not_mem_nil a)
  | cons b l ih =>
    intro p q hmono hc a ha hqa
    have hle : l.countP p ≤ l.countP q :=
      List.countP_mono_left (fun x hx => by
        intro hpx; exact hmono x (List.mem_cons_of_mem _ hx) hpx)
    have hmono2 : ∀ x ∈ l, p x = true → q x = true :=
      fun x hx => hmono x (List.mem_cons_of_mem _ hx)
    rw [List.countP_cons, List.countP_cons] at hc
    by_cases hpb : p b = true
    · have hqb : q b = true := hmono b (List.mem_cons_self _ _) hpb
      rw [if_pos hpb, if_pos hqb] at hc
      have hc2 : l.countP p = l.countP q := by omega
      rcases List.mem_cons.mp ha with rfl | hmem
      · exact hpb
      · exact ih p q hmono2 hc2 a hmem hqa
    · by_cases hqb : q b = true
      · exfalso
        rw [if_neg hpb, if_pos hqb] at hc
        omega
      · rw [if_neg hpb, if_neg hqb] at hc
        have hc2 : l.countP p = l.countP q := by omega
        rcases List.mem_cons.mp ha with rfl | hmem
        · exact absurd hqa hqb
        · exact ih p q hmono2 hc2 a hmem hqa

theorem and_eq_self_of_popcll_eq {x m : Nat} (hm : m < U64)
    (h : popcll (x &&& m) = popcll m) : x &&& m = m := by
  apply Nat.eq_of_testBit_eq
  intro i
  by_cases hi : i < 64
  · have hmono : ∀ a ∈ List.range 64, (x &&& m).testBit a = true → m.testBit a = true := by
      intro a _ ha
      rw [Nat.testBit_and] at ha
      have hsplit : x.testBit a = true ∧ m.testBit a = true := by simpa using ha
      exact hsplit.2
    have hback := countP_antitone_of_eq (List.range 64) _ _ hmono h i (List.mem_range.mpr hi)
    by_cases hmb : m.testBit i = true
    · rw [hmb, hback hmb]
    · rw [Bool.not_eq_true] at hmb
      rw [hmb, Nat.testBit_and, hmb, Bool.and_false]
  · have hx64 : 64 ≤ i := le_of_not_lt hi
    rw [Nat.testBit_and, testBit_of_lt_u64 hm hx64, Bool.and_false]

theorem countP_range_interval :
    ∀ N k n : Nat, k + n ≤ N →
      (List.range N).countP (fun i => decide (k ≤ i ∧ i < k + n)) = n := by
  intro N
  induction N with
  | zero =>
    intro k n h
    have hn : n = 0 := by omega
    subst hn
    simp
  | succ N ih =>
    intro k n h
    rw [List.range_succ, List.countP_append]
    by_cases hend : k + n ≤ N
    · have hz : (List.countP (fun i => decide (k ≤ i ∧ i < k + n)) [N]) = 0 := by
        simp only [List.countP_cons, List.countP_nil]
        have hno : ¬(k ≤ N ∧ N < k + n) := by omega
        simp [hno]
      rw [hz, ih k n hend, Nat.add_zero]
    · have heq : k + n = N + 1 := by omega
      rcases Nat.eq_zero_or_pos n with rfl | hn
      · have hA : (List.range N).countP (fun i => decide (k ≤ i ∧ i < k + 0)) = 0 := by
          rw [List.countP_eq_zero]
          intro a ha
          have := List.mem_range.mp ha
          simp only [decide_eq_true_eq]
          omega
        have hB : (List.countP (fun i => decide (k ≤ i ∧ i < k + 0)) [N]) = 0 := by
          simp only [List.countP_cons, List.countP_nil]
          have hno : ¬(k ≤ N ∧ N < k + 0) := by omega
          simp [hno]
        rw [hA, hB]
      · have h1 : (List.countP (fun i => decide (k ≤ i ∧ i < k + n)) [N]) = 1 := by
          simp only [List.countP_cons, List.countP_nil]
          have hyes : k ≤ N ∧ N < k + n := by omega
          simp [hyes]
        have h2 : (List.range N).countP (fun i => decide (k ≤ i ∧ i < k + n)) =
            (List.range N).countP (fun i => decide (k ≤ i ∧ i < k + (n-1))) := by
          apply List.countP_congr
          intro a ha
          have haN : a < N := List.mem_range.mp ha
          simp only [decide_eq_true_eq]
          constructor <;> (intro hh; exact ⟨hh.1, by omega⟩)
        rw [h1, h2, ih k (n-1) (by omega)]
        omega

theorem testBit_BITMASK {n : Nat} (hn : n ≤ 64) (i : Nat) :
    (BITMASK n).testBit i = decide (i < n) := by
  rw [BITMASK]
  by_cases h : n = 64
  · subst h
    rw [if_pos rfl, testBit_ones64]
  · rw [if_neg h]
    have : (1 <<< n) - 1 = 2 ^ n - 1 := by rw [Nat.shiftLeft_eq, one_mul]
    rw [this, Nat.testBit_two_pow_sub_one]

theorem BITMASK_lt {n : Nat} (hn : n ≤ 64) : BITMASK n < U64 := by
  rw [BITMASK]
  by_cases h : n = 64
  · rw [if_pos h]; exact Nat.sub_lt two_pow_64_pos (by decide)
  · rw [if_neg h, Nat.shiftLeft_eq, one_mul]
    calc 2 ^ n - 1 < 2 ^ n := Nat.sub_lt (Nat.pos_pow_of_pos n (by decide)) (by decide)
    _ ≤ 2 ^ 64 := Nat.pow_le_pow_right (by decide) hn

theorem testBit_BITMASK_shift {n k : Nat} (hn : n ≤ 64) (i : Nat) :
    (BITMASK n <<< k).testBit i = decide (k ≤ i ∧ i < k + n) := by
  rw [Nat.testBit_shiftLeft, testBit_BITMASK hn]
  by_cases h1 : k ≤ i
  · by_cases h2 : i - k < n
    · have h3 : k ≤ i ∧ i < k + n := ⟨h1, by omega⟩
      simp [h1, h2, h3]
    · have h3 : ¬(k ≤ i ∧ i < k + n) := by omega
      simp [h1, h2, h3]
      omega
  · have h3 : ¬(k ≤ i ∧ i < k + n) := by omega
    simp [h1, h3]

theorem BITMASK_lt_pow {n : Nat} : BITMASK n < 2 ^ n := by
  rw [BITMASK]
  by_cases h : n = 64
  · subst h
    rw [if_pos rfl]
    exact Nat.sub_lt (Nat.pos_pow_of_pos 64 (by decide)) (by decide)
  · rw [if_neg h, Nat.shiftLeft_eq, one_mul]
    exact Nat.sub_lt (Nat.pos_pow_of_pos n (by decide)) (by decide)

theorem BITMASK_shift_lt {n k : Nat} (h : k + n ≤ 64) : BITMASK n <<< k < U64 := by
  rw [Nat.shiftLeft_eq, U64]
  calc BITMASK n * 2 ^ k < 2 ^ n * 2 ^ k :=
        Nat.mul_lt_mul_of_lt_of_le BITMASK_lt_pow (le_refl _)
          (Nat.pos_pow_of_pos k (by decide))
    _ = 2 ^ (n + k) := by rw [Nat.pow_add]
    _ ≤ 2 ^ 64 := Nat.pow_le_pow_right (by decide) (by omega)

theorem popcll_BITMASK_shift {n k : Nat} (h : k + n ≤ 64) :
    popcll (BITMASK n <<< k) = n := by
  rw [popcll]
  have hc : ∀ a ∈ List.range 64, ((BITMASK n <<< k).testBit a = true ↔
      decide (k ≤ a ∧ a < k + n) = true) := by
    intro a _
    rw [testBit_BITMASK_shift (by omega) a]
  rw [List.countP_congr hc]
  exact countP_range_interval 64 k n h

theorem and_compl_restore {x m : Nat} (hx : x < U64) (hm : m < U64) :
    (x &&& compl64 m) ||| (m &&& x) = x := by
  apply Nat.eq_of_testBit_eq
  intro i
  rw [Nat.testBit_or, Nat.testBit_and, Nat.testBit_and, testBit_compl64 hm]
  by_cases hi : i < 64
  · simp only [hi, decide_True, Bool.true_and]
    cases hxb : x.testBit i <;> cases hmb : m.testBit i <;> simp
  · rw [testBit_of_lt_u64 hx (le_of_not_lt hi)]
    simp

theorem or_subset_restore {x m : Nat} (hx : x < U64) (hm : m < U64)
    (hsub : x &&& m = m) : (x &&& compl64 m) ||| m = x := by
  apply Nat.eq_of_testBit_eq
  intro i
  have hbit := congrArg (fun y => y.testBit i) hsub
  simp only [Nat.testBit_and] at hbit
  rw [Nat.testBit_or, Nat.testBit_and, testBit_compl64 hm]
  by_cases hi : i < 64
  · simp only [hi, decide_True, Bool.true_and]
    cases hxb : x.testBit i <;> cases hmb : m.testBit i <;>
      simp_all
  · rw [testBit_of_lt_u64 hx (le_of_not_lt hi),
      testBit_of_lt_u64 hm (le_of_not_lt hi)]
    simp

theorem cfcll_spec {x : Nat} (hx : x < U64) :
    cfcll x ≤ 64 ∧ (∀ i, i < cfcll x → x.testBit i = true) ∧
      (cfcll x < 64 → x.testBit (cfcll x) = false) := by
  rw [cfcll]
  by_cases hpc : popcll x = 0 ∨ popcll x = 64
  · rw [if_pos hpc]
    rcases hpc with h0 | h64
    · have hx0 : x = 0 := (popcll_eq_zero_iff hx).mp h0
      subst hx0
      rw [h0]
      exact ⟨by omega, fun i hi => absurd hi (by omega), fun _ => Nat.zero_testBit 0⟩
    · have hxf : x = U64 - 1 := (popcll_eq_64_iff hx).mp h64
      rw [h64]
      refine ⟨le_refl 64, ?_, fun hcon => absurd hcon (by omega)⟩
      intro i hi
      rw [hxf, testBit_ones64]
      simp [hi]
  · rw [if_neg hpc]
    push_neg at hpc
    obtain ⟨hp0, hp64⟩ := hpc
    have hcne : compl64 x ≠ 0 := by
      intro hzero
      apply hp64
      rw [popcll_eq_64_iff hx]
      apply Nat.eq_of_testBit_eq
      intro i
      have hzi := congrArg (fun y => y.testBit i) hzero
      simp only [Nat.zero_testBit] at hzi
      rw [testBit_compl64 hx] at hzi
      rw [testBit_ones64]
      by_cases hi : i < 64
      · simp only [hi, decide_True, Bool.true_and] at hzi ⊢
        cases hb : x.testBit i
        · rw [hb] at hzi; simp at hzi
        · rfl
      · simp only [hi, decide_False]
        exact testBit_of_lt_u64 hx (le_of_not_lt hi)
    obtain ⟨i, hffs, hbit, hi64, hmin⟩ := ffsll_spec (compl64_lt hx) hcne
    rw [hffs]
    simp only [Nat.add_sub_cancel]
    rw [testBit_compl64 hx] at hbit
    have hbit2 : x.testBit i = false := by
      by_cases hi : i < 64
      · simp only [hi, decide_True, Bool.true_and] at hbit
        cases hxb : x.testBit i
        · rfl
        · rw [hxb] at hbit; simp at hbit
      · exact testBit_of_lt_u64 hx (le_of_not_lt hi)
    refine ⟨by omega, ?_, fun _ => hbit2⟩
    intro j hj
    have hmj := hmin j hj
    rw [testBit_compl64 hx] at hmj
    have hjlt : j < 64 := by omega
    simp only [hjlt, decide_True, Bool.true_and] at hmj
    cases hxb : x.testBit j
    · rw [hxb] at hmj; simp at hmj
    · rfl

/-- A bitmap layer: `universe_size` items tracked in 64-bit words (`bits`),
bit `= 1` meaning available.  `num_blocks` is the stored word count, as in the
source structure.  Words are `Nat`s kept below `2^64` by well-formedness. -/
structure layer where
  universe_size : Nat
  num_blocks : Nat
  bits : List Nat
  deriving Repr, DecidableEq

/-- Source `layer::insert(high, low)`: atomic OR of `SET_BIT_MASK(low)` into
word `high`, returning the previous word value.  An index outside the stored
words is an out-of-bounds access, modelled as `none`. -/
def layer.insert (L : layer) (high low : Nat) : Option (Nat × layer) :=
  match L.bits.get? high with
  | none => none
  | some old =>
      some (old, ⟨L.universe_size, L.num_blocks, L.bits.set high (old ||| SET_BIT_MASK low)⟩)

/-- Source `layer::remove(high, low)`: atomic AND with `~SET_BIT_MASK(low)`,
returning the previous word value. -/
def layer.remove (L : layer) (high low : Nat) : Option (Nat × layer) :=
  match L.bits.get? high with
  | none => none
  | some old =>
      some (old, ⟨L.universe_size, L.num_blocks,
        L.bits.set high (old &&& compl64 (SET_BIT_MASK low))⟩)

/-- Source `layer::find_next(high, low)`: `-1` when `high >= universe_size`;
otherwise the lowest set bit of word `high` strictly above `low` (all bits when
`low = -1`), `-1` when none, via `__ffsll`. -/
def layer.find_next (L : layer) (high : Nat) (low : Int) : Option Int :=
  if L.universe_size ≤ high then some (-1)
  else
    match L.bits.get? high with
    | none => none
    | some w =>
        if low = -1 then some ((ffsll w : Int) - 1)
        else some ((ffsll (w &&& compl64 (BITMASK (low.toNat + 1))) : Int) - 1)

/-- Source `layer::query(high, low)`: test bit `low` of word `high`. -/
def layer.query (L : layer) (high low : Nat) : Option Bool :=
  match L.bits.get? high with
  | none => none
  | some w => some (w &&& SET_BIT_MASK low ≠ 0)

/-- The Van Emde Boas tree: a stack of layers, index `0` the top (root) layer
and index `num_layers - 1` the leaf layer, exactly as the `layers` array of the
source.  The hash `seed` only feeds the randomized start position of
`malloc`/`find_random_valid_index`, which we model through oracles, so it is
omitted. -/
structure veb_tree where
  total_universe : Nat
  layers : List layer
  deriving Repr, DecidableEq

/-- Number of layers, `num_layers` in the source. -/
def veb_tree.num_layers (t : veb_tree) : Nat := t.layers.length

/-- Source `veb_tree::fail()`, the sentinel `~0ULL`. -/
def vebFail : Nat := U64 - 1

/-- Perform `layers[l]->insert(high, low)` inside the tree. -/
def layerInsertAt (t : veb_tree) (l high low : Nat) : Option (Nat × veb_tree) :=
  match t.layers.get? l with
  | none => none
  | some L =>
      match L.insert high low with
      | none => none
      | some (old, L2) => some (old, ⟨t.total_universe, t.layers.set l L2⟩)

/-- Perform `layers[l]->remove(high, low)` inside the tree. -/
def layerRemoveAt (t : veb_tree) (l high low : Nat) : Option (Nat × veb_tree) :=
  match t.layers.get? l with
  | none => none
  | some L =>
      match L.remove high low with
      | none => none
      | some (old, L2) => some (old, ⟨t.total_universe, t.layers.set l L2⟩)

/-- Perform `layers[l]->find_next(high, low)` inside the tree. -/
def findNextAt (t : veb_tree) (l high : Nat) (low : Int) : Option Int :=
  match t.layers.get? l with
  | none => none
  | some L => L.find_next high low

/-- The upward propagation loop shared by the `veb_tree` insert and remove
variants: `while (__popcll(old) == cutoff && float_up(layer, high, low)) old =
layers[layer]->op(high, low);`.  The first argument selects the layer
operation, the second the popcount cutoff (`30` for `insert`, `0` for
`insert_force_update`, `1` for `remove`).  Recursion is on the current layer
index: `float_up` fails exactly when the index would drop below zero. -/
def vebPropagate (op : veb_tree → Nat → Nat → Nat → Option (Nat × veb_tree))
    (cutoff : Nat) : Nat → veb_tree → Nat → Nat → Option veb_tree
  | 0, t, _, _ => some t
  | l+1, t, high, old =>
      if popcll old = cutoff then
        match op t l (high >>> 6) (high &&& BITMASK 6) with
        | none => none
        | some (old2, t2) => vebPropagate op cutoff l t2 (high >>> 6) old2
      else some t

/-- Source `veb_tree::insert(insert_val)`: set the leaf bit and float the
insert upward while the previous word's popcount equals `VEB_RESTART_CUTOFF`
(30).  Returns whether the leaf bit was newly set. -/
def veb_tree.insert (t : veb_tree) (insert_val : Nat) : Option (Bool × veb_tree) :=
  let high := insert_val >>> 6
  let low := insert_val &&& BITMASK 6
  match layerInsertAt t (t.num_layers - 1) high low with
  | none => none
  | some (old, t1) =>
      if old &&& SET_BIT_MASK low ≠ 0 then some (false, t1)
      else
        match vebPropagate layerInsertAt 30 (t.num_layers - 1) t1 high old with
        | none => none
        | some t2 => some (true, t2)

/-- Source `veb_tree::insert_force_update(insert_val)`: set the leaf bit and
float the insert upward while the previous word was all-zero. -/
def veb_tree.insert_force_update (t : veb_tree) (insert_val : Nat) :
    Option (Bool × veb_tree) :=
  let high := insert_val >>> 6
  let low := insert_val &&& BITMASK 6
  match layerInsertAt t (t.num_layers - 1) high low with
  | none => none
  | some (old, t1) =>
      if old &&& SET_BIT_MASK low ≠ 0 then some (false, t1)
      else
        match vebPropagate layerInsertAt 0 (t.num_layers - 1) t1 high old with
        | none => none
        | some t2 => some (true, t2)

/-- Source `veb_tree::remove(delete_val)`: clear the leaf bit and float the
remove upward while the previous word's popcount was `1`.  Returns whether the
leaf bit was previously set. -/
def veb_tree.remove (t : veb_tree) (delete_val : Nat) : Option (Bool × veb_tree) :=
  let high := delete_val >>> 6
  let low := delete_val &&& BITMASK 6
  match layerRemoveAt t (t.num_layers - 1) high low with
  | none => none
  | some (old, t1) =>
      if old &&& SET_BIT_MASK low = 0 then some (false, t1)
      else
        match vebPropagate layerRemoveAt 1 (t.num_layers - 1) t1 high old with
        | none => none
        | some t2 => some (true, t2)

/-- Source `veb_tree::query(query_val)`: test the leaf bit. -/
def veb_tree.query (t : veb_tree) (query_val : Nat) : Option Bool :=
  match t.layers.get? (t.num_layers - 1) with
  | none => none
  | some L => L.query (query_val >>> 6) (query_val &&& BITMASK 6)

/-- Ascent phase of `veb_tree::successor`: repeat `find_next` and `float_up`
until a word with a candidate is found (`some (some coords)`) or the root
rejects (`some none`, the source's `if (layer == 0) return fail()` case, here
split on the layer index so that the recursion is structural). -/
def vebAscend (t : veb_tree) : Nat → Nat → Int → Option (Option (Nat × Nat × Int))
  | 0, high, low =>
      match findNextAt t 0 high low with
      | none => none
      | some r => if r = -1 then some none else some (some (0, high, low))
  | l+1, high, low =>
      match findNextAt t (l+1) high low with
      | none => none
      | some r =>
          if r = -1 then vebAscend t l (high >>> 6) ((high &&& BITMASK 6 : Nat) : Int)
          else some (some (l+1, high, low))

/-- Descent phase of `veb_tree::successor`: `while (layer != num_layers - 1)`
float down through the found positions, then read the leaf word.  `fuel`
bounds the loop; `num_layers` always suffices. -/
def vebDescend (t : veb_tree) : Nat → Nat → Nat → Int → Option Nat
  | 0, _, _, _ => none
  | fuel+1, l, high, low =>
      if l = t.num_layers - 1 then
        match findNextAt t l high low with
        | none => none
        | some r => if r = -1 then some vebFail else some ((high <<< 6) + r.toNat)
      else
        match findNextAt t l high low with
        | none => none
        | some r =>
            if r = -1 then some vebFail
            else vebDescend t fuel (l+1) ((high <<< 6) + r.toNat) (-1)

/-- Source `veb_tree::successor(query_val)`: one float-up pass followed by one
float-down pass. -/
def veb_tree.successor (t : veb_tree) (query_val : Nat) : Option Nat :=
  match vebAscend t (t.num_layers - 1) (query_val >>> 6)
      ((query_val &&& BITMASK 6 : Nat) : Int) with
  | none => none
  | some none => some vebFail
  | some (some (l, h, lo)) => vebDescend t t.num_layers l h lo

/-- Descent loop of `veb_tree::successor_thorough`: floats down but `break`s
(leaving `low = -1`) instead of failing on a dead end, returning the final
`(layer, high, low)` triple. -/
def vebThoroughDown (t : veb_tree) : Nat → Nat → Nat → Int → Option (Nat × Nat × Int)
  | 0, _, _, _ => none
  | fuel+1, l, high, low =>
      if l = t.num_layers - 1 then some (l, high, low)
      else
        match findNextAt t l high low with
        | none => none
        | some r =>
            if r = -1 then some (l, high, (-1 : Int))
            else vebThoroughDown t fuel (l+1) ((high <<< 6) + r.toNat) (-1)

/-- Source `veb_tree::successor_thorough(query_val)`: like `successor` but the
outer loop restarts from the current coordinates on a dead end.  The outer
restarts are fuelled. -/
def vebThorough (t : veb_tree) : Nat → Nat → Nat → Int → Option Nat
  | 0, _, _, _ => none
  | fuel+1, l, high, low =>
      match vebAscend t l high low with
      | none => none
      | some none => some vebFail
      | some (some (l1, h1, lo1)) =>
          match vebThoroughDown t t.num_layers l1 h1 lo1 with
          | none => none
          | some (l2, h2, lo2) =>
              match findNextAt t l2 h2 lo2 with
              | none => none
              | some r =>
                  if r ≠ -1 then some ((h2 <<< 6) + r.toNat)
                  else vebThorough t fuel l2 h2 (-1)

/-- Source `veb_tree::successor_thorough` entry point. -/
def veb_tree.successor_thorough (t : veb_tree) (fuel query_val : Nat) : Option Nat :=
  vebThorough t fuel (t.num_layers - 1) (query_val >>> 6)
    ((query_val &&& BITMASK 6 : Nat) : Int)

/-- Source `veb_tree::find_first_valid_index()`: `query(0)` short-circuit,
otherwise `successor_thorough(0)`. -/
def veb_tree.find_first_valid_index (t : veb_tree) (fuel : Nat) : Option Nat :=
  match t.query 0 with
  | none => none
  | some true => some 0
  | some false => t.successor_thorough fuel 0

/-- Source `layer::get_num_blocks`: `(items_in_universe - 1) / 64 + 1`. -/
def layerNumBlocks (u : Nat) : Nat := (u - 1) / 64 + 1

/-- Word `i` of a layer (`0` beyond the stored words). -/
def layer.word (L : layer) (i : Nat) : Nat := L.bits.getD i 0

/-- Bit `pos` of a layer viewed as a flat bitvector. -/
def layer.tbit (L : layer) (pos : Nat) : Bool := (L.word (pos / 64)).testBit (pos % 64)

/-- Well-formedness of a single layer: the stored word count matches the
universe geometry, words are 64-bit values, and no bit at or beyond
`universe_size` is set (the init code masks the excess high bits off). -/
def layer.WF (L : layer) : Prop :=
  L.num_blocks = layerNumBlocks L.universe_size ∧
  L.bits.length = L.num_blocks ∧
  (∀ i, i < L.bits.length → L.word i < U64) ∧
  (∀ pos, pos < 64 * L.bits.length → L.universe_size ≤ pos → L.tbit pos = false)

/-- Default layer used by the total accessor `layerD`. -/
def dfltLayer : layer := ⟨0, 0, []⟩

/-- Total accessor for the layer at index `l`. -/
def veb_tree.layerD (t : veb_tree) (l : Nat) : layer := t.layers.getD l dfltLayer

/-- The leaf layer of the tree. -/
def veb_tree.bottom (t : veb_tree) : layer := t.layerD (t.num_layers - 1)

/-- Well-formedness of a `veb_tree` as produced by `generate_on_device`:
nonempty layer stack, leaf universe equal to `total_universe`, root universe
inside a single word, every layer well formed, each layer's universe equal to
the word count of the layer below, and the summary invariant: a bit of layer
`l` is set iff the corresponding word of layer `l+1` is non-zero. -/
def veb_tree.WF (t : veb_tree) : Prop :=
  0 < t.num_layers ∧
  0 < t.total_universe ∧
  (t.bottom).universe_size = t.total_universe ∧
  (t.layerD 0).universe_size ≤ 64 ∧
  (∀ l, l < t.num_layers → (t.layerD l).WF) ∧
  (∀ l, l < t.num_layers - 1 →
    (t.layerD l).universe_size = layerNumBlocks (t.layerD (l+1)).universe_size) ∧
  (∀ l, l < t.num_layers - 1 → ∀ pos, pos < (t.layerD (l+1)).bits.length →
    ((t.layerD l).tbit pos = true ↔ (t.layerD (l+1)).word pos ≠ 0))

/-- The set of indices stored in the tree is the set of set leaf bits. -/
def veb_tree.member (t : veb_tree) (s : Nat) : Bool := (t.bottom).tbit s

/-- Specification-side successor, written from the spec's words: the smallest
member of the stored set that is at least `i + 1`, or the fail sentinel.
`List.range` is scanned in increasing order, so `find?` yields the minimum. -/
def specSuccessor (t : veb_tree) (i : Nat) : Nat :=
  match (List.range t.total_universe).find? (fun s => decide (i < s) && t.member s) with
  | some s => s
  | none => vebFail

instance (L : layer) : Decidable L.WF := by
  unfold layer.WF
  infer_instance

instance (t : veb_tree) : Decidable t.WF := by
  unfold veb_tree.WF
  infer_instance

theorem layerNumBlocks_pos (u : Nat) : 0 < layerNumBlocks u := Nat.succ_pos _

theorem layerNumBlocks_le {u : Nat} (hu : 1 ≤ u) : layerNumBlocks u ≤ u := by
  rw [layerNumBlocks]
  have h := Nat.div_le_self (u - 1) 64
  omega

theorem lt_layerNumBlocks_of_lt {u p : Nat} (h : p < u) : p / 64 < layerNumBlocks u := by
  rw [layerNumBlocks]
  have h1 : p / 64 ≤ (u - 1) / 64 := Nat.div_le_div_right (by omega)
  omega

/-- Positions decompose into word and bit coordinates. -/
theorem tbit_decompose (L : layer) (h j : Nat) (hj : j < 64) :
    L.tbit (64 * h + j) = (L.word h).testBit j := by
  rw [layer.tbit]
  have h1 : (64 * h + j) / 64 = h := by omega
  have h2 : (64 * h + j) % 64 = j := by omega
  rw [h1, h2]

theorem word_eq_zero_of_ge {L : layer} {i : Nat} (h : L.bits.length ≤ i) :
    L.word i = 0 := by
  rw [layer.word, List.getD_eq_default]
  exact h

/-- Unbounded form of the clip condition: no bit at or beyond the universe. -/
theorem tbit_false_of_ge {L : layer} (hWF : L.WF) {pos : Nat}
    (h : L.universe_size ≤ pos) : L.tbit pos = false := by
  by_cases hlen : pos < 64 * L.bits.length
  · exact hWF.2.2.2 pos hlen h
  · rw [layer.tbit, word_eq_zero_of_ge, Nat.zero_testBit]
    omega

theorem word_lt_u64 {L : layer} (hWF : L.WF) (i : Nat) : L.word i < U64 := by
  by_cases h : i < L.bits.length
  · exact hWF.2.2.1 i h
  · rw [word_eq_zero_of_ge (le_of_not_lt h)]
    exact two_pow_64_pos

theorem get?_eq_some_word {L : layer} {i : Nat} (h : i < L.bits.length) :
    L.bits.get? i = some (L.word i) := by
  rw [layer.word, List.getD_eq_get?]
  cases hg : L.bits.get? i with
  | none => exact absurd (List.get?_eq_none.mp hg) (by omega)
  | some v => rfl

/-- The masked word used by `find_next` for `low ≥ 0`: bit `j` survives iff it
is a set bit of `w` strictly above `low`. -/
theorem testBit_find_next_mask {w k : Nat} (hw : w < U64) (hk : k + 1 ≤ 64) (j : Nat) :
    (w &&& compl64 (BITMASK (k+1))).testBit j =
      (w.testBit j && decide (j < 64) && decide (k + 1 ≤ j)) := by
  rw [Nat.testBit_and, testBit_compl64 (BITMASK_lt hk), testBit_BITMASK hk]
  by_cases hj : j < 64
  · by_cases hjk : k + 1 ≤ j
    · have : ¬(j < k + 1) := by omega
      simp [hj, hjk, this]
    · have : j < k + 1 := by omega
      simp [hj, hjk, this]
  · simp [hj, testBit_of_lt_u64 hw (le_of_not_lt hj)]

theorem find_next_eq_of_get {L : layer} {high : Nat} {low : Int} {w : Nat}
    (hu : high < L.universe_size) (hg : L.bits.get? high = some w) :
    L.find_next high low =
      (if low = -1 then some ((ffsll w : Int) - 1)
       else some ((ffsll (w &&& compl64 (BITMASK (low.toNat + 1))) : Int) - 1)) := by
  rw [layer.find_next, if_neg (by omega), hg]

/-- Full characterisation of `layer::find_next` on an in-range word of a
well-formed layer: it reports either a dead end (no set bit strictly above
`low`) or the least set bit strictly above `low`. -/
theorem find_next_spec (L : layer) (hWF : L.WF) (hu1 : 1 ≤ L.universe_size)
    (high : Nat) (hh : high < L.bits.length) (low : Int)
    (hlow : low = -1 ∨ (0 ≤ low ∧ low < 64)) :
    (L.find_next high low = some (-1) ∧
       ∀ j : Nat, j < 64 → low < (j : Int) → (L.word high).testBit j = false) ∨
    (∃ b : Nat, L.find_next high low = some ((b : Int)) ∧ b < 64 ∧
       (L.word high).testBit b = true ∧ low < (b : Int) ∧
       ∀ j : Nat, low < (j : Int) → j < b → (L.word high).testBit j = false) := by
  have hhu : high < L.universe_size := by
    have h1 : L.bits.length = layerNumBlocks L.universe_size := by
      rw [hWF.2.1, hWF.1]
    have h2 := layerNumBlocks_le hu1
    omega
  have hw : L.word high < U64 := word_lt_u64 hWF high
  rw [find_next_eq_of_get hhu (get?_eq_some_word hh)]
  rcases hlow with rfl | ⟨hl0, hl64⟩
  · rw [if_pos rfl]
    by_cases hz : L.word high = 0
    · left
      constructor
      · rw [hz]
        have hf : ffsll 0 = 0 := (ffsll_eq_zero_iff two_pow_64_pos).mpr rfl
        rw [hf]
        simp
      · intro j _ _
        rw [hz, Nat.zero_testBit]
    · right
      obtain ⟨b, hffs, hbit, hb64, hmin⟩ := ffsll_spec hw hz
      refine ⟨b, ?_, hb64, hbit, by omega, ?_⟩
      · rw [hffs]
        congr 1
        omega
      · intro j _ hjb
        exact hmin j hjb
  · have hne : ¬(low = -1) := by omega
    rw [if_neg hne]
    have hk64 : low.toNat + 1 ≤ 64 := by omega
    by_cases hz : L.word high &&& compl64 (BITMASK (low.toNat + 1)) = 0
    · left
      constructor
      · rw [hz]
        have hf : ffsll 0 = 0 := (ffsll_eq_zero_iff two_pow_64_pos).mpr rfl
        rw [hf]
        simp
      · intro j hj64 hjlow
        have hzz := congrArg (fun y => y.testBit j) hz
        simp only [Nat.zero_testBit] at hzz
        rw [testBit_find_next_mask hw hk64] at hzz
        have hkj : low.toNat + 1 ≤ j := by omega
        simpa [hj64, hkj] using hzz
    · right
      have hmlt : L.word high &&& compl64 (BITMASK (low.toNat + 1)) < U64 :=
        lt_of_le_of_lt (Nat.and_le_left) hw
      obtain ⟨b, hffs, hbit, hb64, hmin⟩ := ffsll_spec hmlt hz
      rw [testBit_find_next_mask hw hk64] at hbit
      have hbitw : (L.word high).testBit b = true ∧ low.toNat + 1 ≤ b := by
        rcases Bool.and_eq_true_iff.mp hbit with ⟨h1, h2⟩
        rcases Bool.and_eq_true_iff.mp h1 with ⟨h3, _⟩
        exact ⟨h3, by simpa using h2⟩
      refine ⟨b, ?_, hb64, hbitw.1, by omega, ?_⟩
      · rw [hffs]
        congr 1
        omega
      · intro j hjlow hjb
        have hmj := hmin j hjb
        rw [testBit_find_next_mask hw hk64] at hmj
        have hj64 : j < 64 := by omega
        have hkj : low.toNat + 1 ≤ j := by omega
        simpa [hj64, hkj] using hmj

theorem shiftRight6_eq (x : Nat) : x >>> 6 = x / 64 := by
  rw [Nat.shiftRight_eq_div_pow]

theorem shiftLeft6_eq (x : Nat) : x <<< 6 = 64 * x := by
  rw [Nat.shiftLeft_eq]
  omega

theorem and63_eq (x : Nat) : x &&& BITMASK 6 = x % 64 := by
  apply Nat.eq_of_testBit_eq
  intro i
  rw [Nat.testBit_and, testBit_BITMASK (by omega)]
  have h64 : (64 : Nat) = 2 ^ 6 := by norm_num
  rw [h64, Nat.testBit_mod_two_pow]
  by_cases hi : i < 6
  · simp [hi, Bool.and_comm]
  · simp [hi]

theorem layers_get? {t : veb_tree} {l : Nat} (h : l < t.num_layers) :
    t.layers.get? l = some (t.layerD l) := by
  rw [veb_tree.layerD, List.getD_eq_get?]
  cases hg : t.layers.get? l with
  | none =>
    have := List.get?_eq_none.mp hg
    rw [veb_tree.num_layers] at h
    omega
  | some L => rfl

/-- The tree with the leaf layer removed: its universe is the word count of
the removed leaf layer, its layers the remaining top layers. -/
def dropB (t : veb_tree) : veb_tree :=
  ⟨layerNumBlocks t.total_universe, t.layers.dropLast⟩

theorem dropB_universe (t : veb_tree) :
    (dropB t).total_universe = layerNumBlocks t.total_universe := rfl

theorem dropB_num_layers (t : veb_tree) : (dropB t).num_layers = t.num_layers - 1 := by
  rw [dropB, veb_tree.num_layers, veb_tree.num_layers]
  exact List.length_dropLast t.layers

theorem get?_dropLast {α : Type} {l : List α} {i : Nat} (h : i < l.length - 1) :
    l.dropLast.get? i = l.get? i := by
  rw [List.dropLast_eq_take, List.get?_take h]

theorem dropB_layerD {t : veb_tree} {l : Nat} (h : l < t.num_layers - 1) :
    (dropB t).layerD l = t.layerD l := by
  rw [veb_tree.layerD, veb_tree.layerD, dropB, List.getD_eq_get?, List.getD_eq_get?]
  rw [veb_tree.num_layers] at h
  rw [get?_dropLast h]

theorem findNextAt_dropB {t : veb_tree} {l : Nat} (h : l < t.num_layers - 1)
    (high : Nat) (low : Int) :
    findNextAt (dropB t) l high low = findNextAt t l high low := by
  rw [findNextAt, findNextAt, dropB]
  rw [veb_tree.num_layers] at h
  rw [show (⟨layerNumBlocks t.total_universe, t.layers.dropLast⟩ : veb_tree).layers
    = t.layers.dropLast from rfl, get?_dropLast h]

theorem dropB_WF {t : veb_tree} (hWF : t.WF) (hL : 2 ≤ t.num_layers) :
    (dropB t).WF := by
  obtain ⟨h1, h2, h3, h4, h5, h6, h7⟩ := hWF
  have hLd := dropB_num_layers t
  refine ⟨by omega, layerNumBlocks_pos _, ?_, ?_, ?_, ?_, ?_⟩
  · rw [veb_tree.bottom, hLd, dropB_layerD (by omega)]
    have hlink := h6 (t.num_layers - 2) (by omega)
    have hbu : (t.layerD (t.num_layers - 2 + 1)).universe_size = t.total_universe := by
      rw [show t.num_layers - 2 + 1 = t.num_layers - 1 from by omega]
      exact h3
    rw [show t.num_layers - 1 - 1 = t.num_layers - 2 from by omega, hlink, hbu]
    rfl
  · rw [dropB_layerD (by omega)]
    exact h4
  · intro l hl
    rw [hLd] at hl
    rw [dropB_layerD (by omega)]
    exact h5 l (by omega)
  · intro l hl
    rw [hLd] at hl
    rw [dropB_layerD (by omega), dropB_layerD (by omega)]
    exact h6 l (by omega)
  · intro l hl
    rw [hLd] at hl
    rw [dropB_layerD (by omega), dropB_layerD (by omega)]
    exact h7 l (by omega)

theorem find?_append_some {α : Type} {l1 l2 : List α} {p : α → Bool} {v : α}
    (h : l1.find? p = some v) : (l1 ++ l2).find? p = some v := by
  induction l1 with
  | nil => exact absurd h (by simp)
  | cons a l ih =>
    rw [List.cons_append, List.find?]
    rw [List.find?] at h
    cases hp : p a with
    | true => rw [hp] at h; simpa using h
    | false =>
      rw [hp] at h
      simp only at h ⊢
      exact ih h

theorem find?_append_none {α : Type} {l1 l2 : List α} {p : α → Bool}
    (h : l1.find? p = none) : (l1 ++ l2).find? p = l2.find? p := by
  induction l1 with
  | nil => simp
  | cons a l ih =>
    rw [List.cons_append, List.find?]
    rw [List.find?] at h
    cases hp : p a with
    | true => rw [hp] at h; exact absurd h (by simp)
    | false =>
      rw [hp] at h
      simp only at h ⊢
      exact ih h

theorem find?_range_some {p : Nat → Bool} :
    ∀ {n v : Nat}, (List.range n).find? p = some v →
      v < n ∧ p v = true ∧ ∀ j, j < v → p j = false := by
  intro n
  induction n with
  | zero => intro v h; exact absurd h (by simp)
  | succ n ih =>
    intro v h
    rw [List.range_succ] at h
    cases hf : (List.range n).find? p with
    | some w =>
      have := @find?_append_some _ _ [n] _ _ hf
      rw [h] at this
      cases this
      obtain ⟨hv1, hv2, hv3⟩ := ih hf
      exact ⟨by omega, hv2, hv3⟩
    | none =>
      rw [find?_append_none hf] at h
      have hall : ∀ j, j < n → p j = false := by
        intro j hj
        have := List.find?_eq_none.mp hf
        have hj2 := this j (List.mem_range.mpr hj)
        exact Bool.not_eq_true _ ▸ (by simpa using hj2)
      rw [List.find?] at h
      cases hp : p n with
      | true =>
        rw [hp] at h
        simp only [Option.some.injEq] at h
        subst h
        exact ⟨by omega, hp, hall⟩
      | false =>
        rw [hp] at h
        exact absurd h (by simp)

theorem find?_range_eq_some_of {p : Nat → Bool} {n v : Nat} (hvn : v < n)
    (hv : p v = true) (hmin : ∀ j, j < v → p j = false) :
    (List.range n).find? p = some v := by
  cases hf : (List.range n).find? p with
  | none =>
    have := List.find?_eq_none.mp hf v (List.mem_range.mpr hvn)
    exact absurd hv (by simpa using this)
  | some w =>
    obtain ⟨hw1, hw2, hw3⟩ := find?_range_some hf
    by_cases hwv : w = v
    · rw [hwv]
    · by_cases hlt : w < v
      · exact absurd hw2 (by simp [hmin w hlt])
      · exact absurd hv (by simp [hw3 v (by omega)])

theorem find?_range_eq_none {p : Nat → Bool} {n : Nat}
    (h : ∀ j, j < n → p j = false) : (List.range n).find? p = none := by
  apply List.find?_eq_none.mpr
  intro j hj
  simp [h j (List.mem_range.mp hj)]

theorem specSuccessor_eq_of {t : veb_tree} {i s : Nat} (hs : s < t.total_universe)
    (hmem : t.member s = true) (hgt : i < s)
    (hmin : ∀ j, i < j → j < s → t.member j = false) :
    specSuccessor t i = s := by
  rw [specSuccessor, find?_range_eq_some_of hs (by simp [hgt, hmem]) ?_]
  intro j hj
  by_cases hij : i < j
  · simp [hmin j hij hj]
  · simp [hij]

theorem specSuccessor_eq_fail {t : veb_tree} {i : Nat}
    (h : ∀ s, s < t.total_universe → i < s → t.member s = false) :
    specSuccessor t i = vebFail := by
  rw [specSuccessor, find?_range_eq_none ?_]
  intro j hj
  by_cases hij : i < j
  · simp [h j hj hij]
  · simp [hij]

theorem specSuccessor_cases (t : veb_tree) (i : Nat) :
    (specSuccessor t i = vebFail ∧
       ∀ s, s < t.total_universe → i < s → t.member s = false) ∨
    (specSuccessor t i < t.total_universe ∧ t.member (specSuccessor t i) = true ∧
       i < specSuccessor t i ∧
       ∀ j, i < j → j < specSuccessor t i → t.member j = false) := by
  rw [specSuccessor]
  cases hf : (List.range t.total_universe).find?
      (fun s => decide (i < s) && t.member s) with
  | none =>
    left
    refine ⟨rfl, ?_⟩
    intro s hs his
    have := List.find?_eq_none.mp hf s (List.mem_range.mpr hs)
    simp only [Bool.and_eq_true, decide_eq_true_eq, not_and] at this
    cases hm : t.member s with
    | false => rfl
    | true => exact absurd hm (by simpa [his] using this)
  | some v =>
    right
    obtain ⟨hv1, hv2, hv3⟩ := find?_range_some hf
    simp only [Bool.and_eq_true, decide_eq_true_eq] at hv2
    refine ⟨hv1, hv2.2, hv2.1, ?_⟩
    intro j hij hjv
    have := hv3 j hjv
    simp only [Bool.and_eq_true, decide_eq_true_eq] at this
    cases hm : t.member j with
    | false => rfl
    | true =>
      exfalso
      rw [hm] at this
      simp [hij] at this

theorem bits_length_eq {t : veb_tree} (hWF : t.WF) {l : Nat} (hl : l < t.num_layers) :
    (t.layerD l).bits.length = layerNumBlocks (t.layerD l).universe_size := by
  obtain ⟨hA, hB, hC, hD⟩ := hWF.2.2.2.2.1 l hl
  rw [hB, hA]

theorem universe_pos {t : veb_tree} (hWF : t.WF) {l : Nat} (hl : l < t.num_layers) :
    1 ≤ (t.layerD l).universe_size := by
  by_cases hbot : l = t.num_layers - 1
  · subst hbot
    have h3 := hWF.2.2.1
    rw [veb_tree.bottom] at h3
    rw [h3]
    exact hWF.2.1
  · have hlink := hWF.2.2.2.2.2.1 l (by omega)
    rw [hlink]
    exact layerNumBlocks_pos _

theorem vebAscend_zero_eq (t : veb_tree) (h : Nat) (lo : Int) :
    vebAscend t 0 h lo =
      match findNextAt t 0 h lo with
      | none => none
      | some r => if r = -1 then some none else some (some (0, h, lo)) := rfl

theorem vebAscend_succ_eq (t : veb_tree) (l h : Nat) (lo : Int) :
    vebAscend t (l+1) h lo =
      match findNextAt t (l+1) h lo with
      | none => none
      | some r =>
          if r = -1 then vebAscend t l (h >>> 6) ((h &&& BITMASK 6 : Nat) : Int)
          else some (some (l+1, h, lo)) := rfl

theorem vebDescend_zero (t : veb_tree) (l h : Nat) (lo : Int) :
    vebDescend t 0 l h lo = none := rfl

theorem vebDescend_succ (t : veb_tree) (fuel l h : Nat) (lo : Int) :
    vebDescend t (fuel+1) l h lo =
      (if l = t.num_layers - 1 then
        match findNextAt t l h lo with
        | none => none
        | some r => if r = -1 then some vebFail else some ((h <<< 6) + r.toNat)
      else
        match findNextAt t l h lo with
        | none => none
        | some r =>
            if r = -1 then some vebFail
            else vebDescend t fuel (l+1) ((h <<< 6) + r.toNat) (-1)) := by
  rw [vebDescend]

/-- The ascent phase only reads layers `0..l`, which `dropB` leaves intact, so
the full tree and the dropped tree ascend identically below the leaf. -/
theorem ascend_dropB (t : veb_tree) :
    ∀ l, l < t.num_layers - 1 → ∀ (h : Nat) (lo : Int),
      vebAscend (dropB t) l h lo = vebAscend t l h lo := by
  intro l
  induction l with
  | zero =>
    intro hl h lo
    rw [vebAscend_zero_eq, vebAscend_zero_eq, findNextAt_dropB hl]
  | succ l ih =>
    intro hl h lo
    rw [vebAscend_succ_eq, vebAscend_succ_eq, findNextAt_dropB hl]
    cases hr : findNextAt t (l+1) h lo with
    | none => rfl
    | some r =>
      dsimp only
      by_cases hneg : r = -1
      · rw [if_pos hneg, if_pos hneg]
        exact ih (by omega) _ _
      · rw [if_neg hneg, if_neg hneg]

/-- Coordinates produced by a successful ascent stay inside the layer whose
word they index. -/
theorem ascend_post (t : veb_tree) (hWF : t.WF) :
    ∀ l, l < t.num_layers → ∀ (h : Nat) (lo : Int) (l1 h1 : Nat) (lo1 : Int),
      h < (t.layerD l).bits.length → (lo = -1 ∨ (0 ≤ lo ∧ lo < 64)) →
      vebAscend t l h lo = some (some (l1, h1, lo1)) →
      l1 ≤ l ∧ l1 < t.num_layers ∧ h1 < (t.layerD l1).bits.length ∧
        (lo1 = -1 ∨ (0 ≤ lo1 ∧ lo1 < 64)) := by
  intro l
  induction l with
  | zero =>
    intro hl h lo l1 h1 lo1 hh hlo hasc
    rw [vebAscend_zero_eq] at hasc
    cases hr : findNextAt t 0 h lo with
    | none => rw [hr] at hasc; exact absurd hasc (by simp)
    | some r =>
      rw [hr] at hasc
      dsimp only at hasc
      by_cases hneg : r = -1
      · rw [if_pos hneg] at hasc
        exact absurd hasc (by simp)
      · rw [if_neg hneg] at hasc
        simp only [Option.some.injEq, Prod.mk.injEq] at hasc
        obtain ⟨he1, he2, he3⟩ := hasc
        rw [← he1, ← he2, ← he3]
        exact ⟨le_refl _, hl, hh, hlo⟩
  | succ l ih =>
    intro hl h lo l1 h1 lo1 hh hlo hasc
    rw [vebAscend_succ_eq] at hasc
    cases hr : findNextAt t (l+1) h lo with
    | none => rw [hr] at hasc; exact absurd hasc (by simp)
    | some r =>
      rw [hr] at hasc
      dsimp only at hasc
      by_cases hneg : r = -1
      · rw [if_pos hneg] at hasc
        have hlink : (t.layerD l).universe_size =
            layerNumBlocks (t.layerD (l+1)).universe_size :=
          hWF.2.2.2.2.2.1 l (by omega)
        have hlen1 : (t.layerD (l+1)).bits.length =
            layerNumBlocks (t.layerD (l+1)).universe_size := bits_length_eq hWF hl
        have hlenl : (t.layerD l).bits.length =
            layerNumBlocks (t.layerD l).universe_size := bits_length_eq hWF (by omega)
        have hh2 : h >>> 6 < (t.layerD l).bits.length := by
          rw [shiftRight6_eq, hlenl]
          apply lt_layerNumBlocks_of_lt
          omega
        have hlo2 : ((h &&& BITMASK 6 : Nat) : Int) = -1 ∨
            (0 ≤ ((h &&& BITMASK 6 : Nat) : Int) ∧ ((h &&& BITMASK 6 : Nat) : Int) < 64) := by
          right
          rw [and63_eq]
          constructor
          · exact Int.natCast_nonneg _
          · have := Nat.mod_lt h (show 0 < 64 from by decide)
            exact_mod_cast this
        obtain ⟨ha, hb, hc, hd⟩ := ih (by omega) _ _ _ _ _ hh2 hlo2 hasc
        exact ⟨by omega, hb, hc, hd⟩
      · rw [if_neg hneg] at hasc
        simp only [Option.some.injEq, Prod.mk.injEq] at hasc
        obtain ⟨he1, he2, he3⟩ := hasc
        rw [← he1, ← he2, ← he3]
        exact ⟨le_refl _, hl, hh, hlo⟩

/-- The last descent step of the full tree once the dropped tree has produced
the leaf word index `w`: read the leaf word `w` from scratch. -/
def finalHop (t : veb_tree) (w : Nat) : Option Nat :=
  match findNextAt t (t.num_layers - 1) w (-1) with
  | none => none
  | some r => if r = -1 then some vebFail else some ((w <<< 6) + r.toNat)

theorem vebDescend_fuel (t : veb_tree) :
    ∀ f1 f2 l h lo, l < t.num_layers → t.num_layers - l ≤ f1 →
      t.num_layers - l ≤ f2 → vebDescend t f1 l h lo = vebDescend t f2 l h lo := by
  intro f1
  induction f1 with
  | zero => intro f2 l h lo hl h1 h2; omega
  | succ f1 ih =>
    intro f2 l h lo hl h1 h2
    cases f2 with
    | zero => omega
    | succ g =>
      rw [vebDescend_succ, vebDescend_succ]
      by_cases hbot : l = t.num_layers - 1
      · rw [if_pos hbot, if_pos hbot]
      · rw [if_neg hbot, if_neg hbot]
        cases hr : findNextAt t l h lo with
        | none => rfl
        | some r =>
          dsimp only
          by_cases hneg : r = -1
          · rw [if_pos hneg, if_pos hneg]
          · rw [if_neg hneg, if_neg hneg]
            exact ih g (l+1) _ _ (by omega) (by omega) (by omega)

theorem findNextAt_eq (t : veb_tree) {l : Nat} (hl : l < t.num_layers)
    (h : Nat) (lo : Int) : findNextAt t l h lo = (t.layerD l).find_next h lo := by
  rw [findNextAt, layers_get? hl]

/-- Simulation of the descent phase: a descent of the dropped tree from a
coordinate strictly above the leaf either dead-ends (and the full tree
dead-ends identically) or lands on leaf word `w`, in which case the full tree
performs the same descent followed by one extra hop into word `w` of the leaf
layer. -/
theorem descend_sim (t : veb_tree) (hWF : t.WF) (hL : 2 ≤ t.num_layers)
    (hU : t.total_universe < vebFail) :
    ∀ fuel l h lo w, l < t.num_layers - 1 →
      h < (t.layerD l).bits.length → (lo = -1 ∨ (0 ≤ lo ∧ lo < 64)) →
      vebDescend (dropB t) fuel l h lo = some w →
      (w = vebFail ∧ vebDescend t (fuel+2) l h lo = some vebFail) ∨
      (w ≠ vebFail ∧ w < (t.bottom).bits.length ∧ (t.bottom).word w ≠ 0 ∧
        vebDescend t (fuel+2) l h lo = finalHop t w) := by
  intro fuel
  induction fuel with
  | zero =>
    intro l h lo w hl hh hlo hdrop
    rw [vebDescend_zero] at hdrop
    exact absurd hdrop (by simp)
  | succ fuel ih =>
    intro l h lo w hl hh hlo hdrop
    have hLd : (dropB t).num_layers = t.num_layers - 1 := dropB_num_layers t
    have hl_lt : l < t.num_layers := by omega
    have hlWF := hWF.2.2.2.2.1 l hl_lt
    have hup : 1 ≤ (t.layerD l).universe_size := universe_pos hWF hl_lt
    have hfna : findNextAt t l h lo = (t.layerD l).find_next h lo :=
      findNextAt_eq t hl_lt h lo
    have hnotbot : l ≠ t.num_layers - 1 := by omega
    have hblen : (t.bottom).bits.length = layerNumBlocks t.total_universe := by
      rw [veb_tree.bottom, bits_length_eq hWF (by omega)]
      have h3 := hWF.2.2.1
      rw [veb_tree.bottom] at h3
      rw [h3]
    rw [vebDescend_succ] at hdrop
    rcases find_next_spec (t.layerD l) hlWF hup h hh lo hlo with
      ⟨hfn, hdead⟩ | ⟨b, hfn, hb64, hbit, hblo, hmin⟩
    · -- dead end at layer l: both trees fail here
      left
      have hwfail : w = vebFail := by
        by_cases hbot2 : l = (dropB t).num_layers - 1
        · rw [if_pos hbot2, findNextAt_dropB (by omega), hfna, hfn] at hdrop
          dsimp only at hdrop
          rw [if_pos rfl] at hdrop
          exact (Option.some.inj hdrop).symm
        · rw [if_neg hbot2, findNextAt_dropB (by omega), hfna, hfn] at hdrop
          dsimp only at hdrop
          rw [if_pos rfl] at hdrop
          exact (Option.some.inj hdrop).symm
      refine ⟨hwfail, ?_⟩
      rw [vebDescend_succ, if_neg hnotbot, hfna, hfn]
      dsimp only
      rw [if_pos rfl]
    · -- found bit b at layer l
      have hbne : ((b : Int)) ≠ -1 := by omega
      have hpos_eq : (h <<< 6) + ((b : Int)).toNat = 64 * h + b := by
        rw [shiftLeft6_eq, Int.toNat_natCast]
      have htbit : (t.layerD l).tbit (64 * h + b) = true := by
        rw [tbit_decompose _ _ _ hb64]
        exact hbit
      have hpos_lt_u : 64 * h + b < (t.layerD l).universe_size := by
        by_contra hcon
        push_neg at hcon
        rw [tbit_false_of_ge hlWF hcon] at htbit
        exact absurd htbit (by simp)
      have hlink := hWF.2.2.2.2.2.1 l (by omega)
      have hlen1 : (t.layerD (l+1)).bits.length =
          layerNumBlocks (t.layerD (l+1)).universe_size := bits_length_eq hWF (by omega)
      have hpos_len : 64 * h + b < (t.layerD (l+1)).bits.length := by
        rw [hlen1, ← hlink]
        exact hpos_lt_u
      by_cases hbot2 : l = (dropB t).num_layers - 1
      · -- dropped tree's final layer: l + 1 is the leaf of the full tree
        have hl1 : l + 1 = t.num_layers - 1 := by omega
        rw [if_pos hbot2, findNextAt_dropB (by omega), hfna, hfn] at hdrop
        dsimp only at hdrop
        rw [if_neg hbne] at hdrop
        have hw : w = 64 * h + b := by
          have := Option.some.inj hdrop
          rw [← this, hpos_eq]
        right
        have hbu : (t.layerD (l+1)).universe_size = t.total_universe := by
          rw [hl1]
          have h3 := hWF.2.2.1
          rw [veb_tree.bottom] at h3
          exact h3
        have hwb : w < (t.bottom).bits.length := by
          rw [hblen, hw, ← hbu, ← hlen1]
          exact hpos_len
        have hword : (t.bottom).word w ≠ 0 := by
          have hinv := hWF.2.2.2.2.2.2 l (by omega) (64 * h + b) hpos_len
          rw [veb_tree.bottom, ← hl1, hw]
          exact hinv.mp htbit
        have hwne : w ≠ vebFail := by
          have h1 : w < layerNumBlocks t.total_universe := by rw [← hblen]; exact hwb
          have h2 : layerNumBlocks t.total_universe ≤ t.total_universe :=
            layerNumBlocks_le hWF.2.1
          omega
        refine ⟨hwne, hwb, hword, ?_⟩
        rw [vebDescend_succ, if_neg hnotbot, hfna, hfn]
        dsimp only
        rw [if_neg hbne, vebDescend_succ, if_pos (by omega : l + 1 = t.num_layers - 1)]
        rw [hpos_eq, ← hw, hl1, finalHop]
      · -- intermediate layer: recurse
        have hl2 : l + 1 < t.num_layers - 1 := by omega
        rw [if_neg hbot2, findNextAt_dropB (by omega), hfna, hfn] at hdrop
        dsimp only at hdrop
        rw [if_neg hbne] at hdrop
        rw [hpos_eq] at hdrop
        have hrec := ih (l+1) (64 * h + b) (-1) w hl2 hpos_len (Or.inl rfl) hdrop
        rcases hrec with ⟨hw1, hw2⟩ | ⟨hw1, hw2, hw3, hw4⟩
        · left
          refine ⟨hw1, ?_⟩
          rw [vebDescend_succ, if_neg hnotbot, hfna, hfn]
          dsimp only
          rw [if_neg hbne, hpos_eq]
          exact hw2
        · right
          refine ⟨hw1, hw2, hw3, ?_⟩
          rw [vebDescend_succ, if_neg hnotbot, hfna, hfn]
          dsimp only
          rw [if_neg hbne, hpos_eq]
          exact hw4

theorem word_eq_zero_of_all_false {x : Nat} (hx : x < U64)
    (h : ∀ j : Nat, j < 64 → x.testBit j = false) : x = 0 := by
  apply Nat.eq_of_testBit_eq
  intro i
  rw [Nat.zero_testBit]
  by_cases hi : i < 64
  · exact h i hi
  · exact testBit_of_lt_u64 hx (le_of_not_lt hi)

theorem dropB_bottom {t : veb_tree} (hL : 2 ≤ t.num_layers) :
    (dropB t).bottom = t.layerD (t.num_layers - 2) := by
  rw [veb_tree.bottom, dropB_num_layers,
    show t.num_layers - 1 - 1 = t.num_layers - 2 from by omega,
    dropB_layerD (by omega)]

theorem tbit_eq (L : layer) (p : Nat) : L.tbit p = (L.word (p / 64)).testBit (p % 64) := rfl

/-- When the leaf word containing `i` has a set bit `b` strictly above `i`'s
bit position and nothing between, `64*(i/64)+b` is the successor of `i`. -/
theorem spec_of_found (t : veb_tree) (hWF : t.WF) {i b : Nat}
    (hi : i < t.total_universe) (hb64 : b < 64)
    (hbit : ((t.bottom).word (i / 64)).testBit b = true)
    (hblo : i % 64 < b)
    (hmin : ∀ j : Nat, i % 64 < j → j < b → ((t.bottom).word (i / 64)).testBit j = false) :
    specSuccessor t i = 64 * (i / 64) + b := by
  have hbotWF : (t.bottom).WF := by
    rw [veb_tree.bottom]
    exact hWF.2.2.2.2.1 _ (by have := hWF.1; omega)
  have hbotu : (t.bottom).universe_size = t.total_universe := hWF.2.2.1
  have hmem : t.member (64 * (i / 64) + b) = true := by
    rw [veb_tree.member, tbit_decompose _ _ _ hb64]
    exact hbit
  have hlt : 64 * (i / 64) + b < t.total_universe := by
    by_contra hcon
    push_neg at hcon
    have hfalse := tbit_false_of_ge hbotWF (by omega : (t.bottom).universe_size ≤ 64 * (i / 64) + b)
    rw [tbit_decompose _ _ _ hb64] at hfalse
    rw [hfalse] at hbit
    exact absurd hbit (by simp)
  apply specSuccessor_eq_of hlt hmem (by omega)
  intro j hij hjs
  have hjq : j / 64 = i / 64 := by omega
  have hjr : i % 64 < j % 64 ∧ j % 64 < b := by omega
  rw [veb_tree.member, tbit_eq, hjq]
  exact hmin (j % 64) hjr.1 hjr.2

/-- When the leaf word containing `i` is dead above `i` and the dropped tree
has no nonempty leaf word after `i/64`, `i` has no successor at all. -/
theorem spec_fail_of (t : veb_tree) (hWF : t.WF) (hL : 2 ≤ t.num_layers) {i : Nat}
    (hi : i < t.total_universe)
    (hdead : ∀ j : Nat, j < 64 → i % 64 < j → ((t.bottom).word (i / 64)).testBit j = false)
    (hchar : ∀ s, s < (dropB t).total_universe → i / 64 < s → (dropB t).member s = false) :
    specSuccessor t i = vebFail := by
  apply specSuccessor_eq_fail
  intro s hs his
  have hq : i / 64 ≤ s / 64 := by omega
  rcases Nat.eq_or_lt_of_le hq with heq | hlt
  · rw [veb_tree.member, tbit_eq, ← heq]
    exact hdead (s % 64) (by omega) (by omega)
  · cases hm : t.member s with
    | false => rfl
    | true =>
      exfalso
      rw [veb_tree.member, tbit_eq] at hm
      have hwne : (t.bottom).word (s / 64) ≠ 0 := by
        intro hzero
        rw [hzero, Nat.zero_testBit] at hm
        exact absurd hm (by simp)
      have hslen : s / 64 < (t.bottom).bits.length := by
        rw [veb_tree.bottom, bits_length_eq hWF (by omega)]
        have h3 := hWF.2.2.1
        rw [veb_tree.bottom] at h3
        rw [h3]
        exact lt_layerNumBlocks_of_lt hs
      have hinv := hWF.2.2.2.2.2.2 (t.num_layers - 2) (by omega) (s / 64) (by
        rw [show t.num_layers - 2 + 1 = t.num_layers - 1 from by omega]
        rw [veb_tree.bottom] at hslen
        exact hslen)
      rw [show t.num_layers - 2 + 1 = t.num_layers - 1 from by omega] at hinv
      have htb : (t.layerD (t.num_layers - 2)).tbit (s / 64) = true := by
        apply hinv.mpr
        rw [veb_tree.bottom] at hwne
        exact hwne
      have hmem : (dropB t).member (s / 64) = true := by
        rw [veb_tree.member, dropB_bottom hL]
        exact htb
      have hslt : s / 64 < (dropB t).total_universe := by
        rw [dropB_universe]
        exact lt_layerNumBlocks_of_lt hs
      rw [hchar (s / 64) hslt hlt] at hmem
      exact absurd hmem (by simp)

/-- A word index below the leaf word count is a member of the dropped tree
exactly when the corresponding leaf word is non-zero. -/
theorem dropB_member_of_word (t : veb_tree) (hWF : t.WF) (hL : 2 ≤ t.num_layers)
    {q : Nat} (hq : q < layerNumBlocks t.total_universe) :
    ((dropB t).member q = true ↔ (t.bottom).word q ≠ 0) := by
  have hblen : (t.bottom).bits.length = layerNumBlocks t.total_universe := by
    rw [veb_tree.bottom, bits_length_eq hWF (by omega)]
    have h3 := hWF.2.2.1
    rw [veb_tree.bottom] at h3
    rw [h3]
  have hinv := hWF.2.2.2.2.2.2 (t.num_layers - 2) (by omega) q (by
    rw [show t.num_layers - 2 + 1 = t.num_layers - 1 from by omega]
    rw [veb_tree.bottom] at hblen
    omega)
  rw [show t.num_layers - 2 + 1 = t.num_layers - 1 from by omega] at hinv
  rw [veb_tree.member, dropB_bottom hL]
  exact hinv

/-- Key correctness theorem for `veb_tree::successor`, by induction on the
layer stack: on a well-formed tree it returns exactly the smallest stored
index strictly greater than the query, or the fail sentinel. -/
theorem successor_eq_spec_aux :
    ∀ n : Nat, ∀ t : veb_tree, t.num_layers ≤ n → t.WF → t.total_universe < vebFail →
      ∀ i, i < t.total_universe → t.successor i = some (specSuccessor t i) := by
  intro n
  induction n with
  | zero =>
    intro t hn hWF hU i hi
    have := hWF.1
    omega
  | succ n ih =>
    intro t hn hWF hU i hi
    have hL1 : 1 ≤ t.num_layers := hWF.1
    have hbd : t.bottom = t.layerD (t.num_layers - 1) := rfl
    have hbotWF : (t.bottom).WF := by
      rw [hbd]; exact hWF.2.2.2.2.1 _ (by omega)
    have hbotu : (t.bottom).universe_size = t.total_universe := hWF.2.2.1
    have hblen : (t.bottom).bits.length = layerNumBlocks t.total_universe := by
      rw [hbd, bits_length_eq hWF (by omega), ← hbd, hbotu]
    have h0len : i / 64 < (t.bottom).bits.length := by
      rw [hblen]; exact lt_layerNumBlocks_of_lt hi
    have hfna : findNextAt t (t.num_layers - 1) (i / 64) ((i % 64 : Nat) : Int)
        = (t.bottom).find_next (i / 64) ((i % 64 : Nat) : Int) := by
      rw [findNextAt_eq t (by omega), ← hbd]
    have hlo_ok : ((i % 64 : Nat) : Int) = -1 ∨
        (0 ≤ ((i % 64 : Nat) : Int) ∧ ((i % 64 : Nat) : Int) < 64) := by
      right
      constructor
      · exact Int.natCast_nonneg _
      · exact_mod_cast Nat.mod_lt i (by decide)
    rw [veb_tree.successor, shiftRight6_eq, and63_eq]
    rcases find_next_spec (t.bottom) hbotWF (by rw [hbotu]; exact hWF.2.1)
        (i / 64) h0len ((i % 64 : Nat) : Int) hlo_ok with
      ⟨hfn, hdead⟩ | ⟨b, hfn, hb64, hbit, hblo, hmin⟩
    · -- leaf word dead above i
      have hdeadN : ∀ j : Nat, j < 64 → i % 64 < j →
          ((t.bottom).word (i / 64)).testBit j = false := by
        intro j hj hlt
        exact hdead j hj (by exact_mod_cast hlt)
      by_cases hLeq : t.num_layers = 1
      · -- single layer: no successor at all
        rw [show t.num_layers - 1 = 0 from by omega, vebAscend_zero_eq]
        have hfna0 : findNextAt t 0 (i / 64) ((i % 64 : Nat) : Int)
            = (t.bottom).find_next (i / 64) ((i % 64 : Nat) : Int) := by
          rw [show (0 : Nat) = t.num_layers - 1 from by omega]
          exact hfna
        rw [hfna0, hfn]
        dsimp only
        rw [if_pos rfl]
        have hU64 : t.total_universe ≤ 64 := by
          have h4 := hWF.2.2.2.1
          rw [show (0 : Nat) = t.num_layers - 1 from by omega, ← hbd, hbotu] at h4
          exact h4
        have hspec : specSuccessor t i = vebFail := by
          apply specSuccessor_eq_fail
          intro s hs his
          rw [veb_tree.member, tbit_eq]
          have hsq : s / 64 = i / 64 := by omega
          rw [hsq]
          exact hdeadN (s % 64) (by omega) (by omega)
        rw [hspec]
      · -- at least two layers: continue in the dropped tree
        have hL2 : 2 ≤ t.num_layers := by omega
        have hdropWF := dropB_WF hWF hL2
        have hdropU : (dropB t).total_universe < vebFail := by
          rw [dropB_universe]
          have := layerNumBlocks_le hWF.2.1
          omega
        have hdropIH := ih (dropB t) (by rw [dropB_num_layers]; omega) hdropWF hdropU
          (i / 64) (by rw [dropB_universe]; exact lt_layerNumBlocks_of_lt hi)
        have hDL : (dropB t).num_layers - 1 = t.num_layers - 2 := by
          rw [dropB_num_layers]; omega
        rw [veb_tree.successor, hDL] at hdropIH
        rw [show t.num_layers - 1 = (t.num_layers - 2) + 1 from by omega, vebAscend_succ_eq]
        rw [show (t.num_layers - 2) + 1 = t.num_layers - 1 from by omega, hfna, hfn]
        dsimp only
        rw [if_pos rfl]
        rw [← ascend_dropB t (t.num_layers - 2) (by omega)]
        cases hA : vebAscend (dropB t) (t.num_layers - 2) ((i / 64) >>> 6)
            (((i / 64) &&& BITMASK 6 : Nat) : Int) with
        | none =>
          rw [hA] at hdropIH
          exact absurd hdropIH (by simp)
        | some oA =>
          rw [hA] at hdropIH
          cases oA with
          | none =>
            dsimp only at hdropIH ⊢
            have hDfail : specSuccessor (dropB t) (i / 64) = vebFail :=
              (Option.some.inj hdropIH).symm
            have hchar : ∀ s, s < (dropB t).total_universe → i / 64 < s →
                (dropB t).member s = false := by
              rcases specSuccessor_cases (dropB t) (i / 64) with ⟨_, hch⟩ | ⟨hlt2, _, _, _⟩
              · exact hch
              · rw [hDfail] at hlt2
                omega
            rw [spec_fail_of t hWF hL2 hi hdeadN hchar]
          | some c =>
            obtain ⟨l1, h1, lo1⟩ := c
            dsimp only at hdropIH ⊢
            -- bounds from the ascent
            have hpostOK : (i / 64) >>> 6 < ((dropB t).layerD (t.num_layers - 2)).bits.length := by
              rw [dropB_layerD (by omega), shiftRight6_eq,
                bits_length_eq hWF (by omega)]
              apply lt_layerNumBlocks_of_lt
              have hlink := hWF.2.2.2.2.2.1 (t.num_layers - 2) (by omega)
              rw [hlink, show t.num_layers - 2 + 1 = t.num_layers - 1 from by omega, ← hbd, hbotu]
              rw [hblen] at h0len
              exact h0len
            have hloOK : (((i / 64) &&& BITMASK 6 : Nat) : Int) = -1 ∨
                (0 ≤ (((i / 64) &&& BITMASK 6 : Nat) : Int) ∧
                  (((i / 64) &&& BITMASK 6 : Nat) : Int) < 64) := by
              right
              rw [and63_eq]
              exact ⟨Int.natCast_nonneg _, by exact_mod_cast Nat.mod_lt (i / 64) (by decide)⟩
            obtain ⟨hl1le, hl1lt, hh1, hlo1⟩ := ascend_post (dropB t) hdropWF
              (t.num_layers - 2) (by rw [dropB_num_layers]; omega) _ _ _ _ _ hpostOK hloOK hA
            have hh1t : h1 < (t.layerD l1).bits.length := by
              rw [← dropB_layerD (show l1 < t.num_layers - 1 from by
                rw [dropB_num_layers] at hl1lt; omega)]
              exact hh1
            -- simulate the descent
            have hfuelD : (dropB t).num_layers = t.num_layers - 1 := dropB_num_layers t
            rcases descend_sim t hWF hL2 hU ((dropB t).num_layers) l1 h1 lo1
                (specSuccessor (dropB t) (i / 64))
                (by omega) hh1t hlo1 hdropIH with
              ⟨hwfail, hteq⟩ | ⟨hwne, hwlen, hwword, hteq⟩
            · -- descent dead-ends: no successor
              rw [vebDescend_fuel t t.num_layers ((dropB t).num_layers + 2) l1 h1 lo1
                (by omega) (by omega) (by rw [hfuelD]; omega), hteq]
              have hchar : ∀ s, s < (dropB t).total_universe → i / 64 < s →
                  (dropB t).member s = false := by
                rcases specSuccessor_cases (dropB t) (i / 64) with ⟨_, hch⟩ | ⟨hlt2, _, _, _⟩
                · exact hch
                · rw [hwfail] at hlt2
                  omega
              rw [spec_fail_of t hWF hL2 hi hdeadN hchar]
            · -- descent lands on leaf word w
              rw [vebDescend_fuel t t.num_layers ((dropB t).num_layers + 2) l1 h1 lo1
                (by omega) (by omega) (by rw [hfuelD]; omega), hteq]
              set w := specSuccessor (dropB t) (i / 64) with hwdef
              rcases specSuccessor_cases (dropB t) (i / 64) with ⟨hfail2, _⟩ | ⟨hwU, hwmem, hwgt, hwmin⟩
              · rw [← hwdef] at hfail2
                exact absurd hfail2 hwne
              · rw [finalHop, findNextAt_eq t (by omega), ← hbd]
                rcases find_next_spec (t.bottom) hbotWF (by rw [hbotu]; exact hWF.2.1)
                    w hwlen (-1) (Or.inl rfl) with
                  ⟨hfn2, hdead2⟩ | ⟨b2, hfn2, hb264, hbit2, _, hmin2⟩
                · exfalso
                  apply hwword
                  apply word_eq_zero_of_all_false (word_lt_u64 hbotWF w)
                  intro j hj
                  exact hdead2 j hj (by omega)
                · rw [hfn2]
                  dsimp only
                  have hb2ne : ((b2 : Int)) ≠ -1 := by omega
                  rw [if_neg hb2ne, shiftLeft6_eq, Int.toNat_natCast]
                  have hspec : specSuccessor t i = 64 * w + b2 := by
                    have hmem : t.member (64 * w + b2) = true := by
                      rw [veb_tree.member, tbit_decompose _ _ _ hb264]
                      exact hbit2
                    have hlt2 : 64 * w + b2 < t.total_universe := by
                      by_contra hcon
                      push_neg at hcon
                      have hfalse := tbit_false_of_ge hbotWF
                        (by omega : (t.bottom).universe_size ≤ 64 * w + b2)
                      rw [tbit_decompose _ _ _ hb264] at hfalse
                      rw [hfalse] at hbit2
                      exact absurd hbit2 (by simp)
                    apply specSuccessor_eq_of hlt2 hmem (by omega)
                    intro j hij hjs
                    have hjq_le : i / 64 ≤ j / 64 := by omega
                    have hjq_lt : j / 64 ≤ w := by omega
                    rcases Nat.eq_or_lt_of_le hjq_le with hedge | hmid
                    · -- same word as i
                      rw [veb_tree.member, tbit_eq, ← hedge]
                      exact hdeadN (j % 64) (by omega) (by omega)
                    · rcases Nat.eq_or_lt_of_le hjq_lt with hedge2 | hmid2
                      · -- word w itself, below b2
                        rw [veb_tree.member, tbit_eq, hedge2]
                        exact hmin2 (j % 64) (by omega) (by omega)
                      · -- strictly between: leaf word must be empty
                        cases hm : t.member j with
                        | false => rfl
                        | true =>
                          exfalso
                          rw [veb_tree.member, tbit_eq] at hm
                          have hwne2 : (t.bottom).word (j / 64) ≠ 0 := by
                            intro hzero
                            rw [hzero, Nat.zero_testBit] at hm
                            exact absurd hm (by simp)
                          have hjlen : j / 64 < layerNumBlocks t.total_universe :=
                            lt_layerNumBlocks_of_lt (by omega)
                          have hmemD := (dropB_member_of_word t hWF hL2 hjlen).mpr hwne2
                          rw [hwmin (j / 64) hmid hmid2] at hmemD
                          exact absurd hmemD (by simp)
                  rw [hspec]
    · -- leaf word has a set bit above i: answer within the word
      have hbloN : i % 64 < b := by exact_mod_cast hblo
      have hminN : ∀ j : Nat, i % 64 < j → j < b →
          ((t.bottom).word (i / 64)).testBit j = false := by
        intro j h1 h2
        exact hmin j (by exact_mod_cast h1) h2
      have hbne : ((b : Int)) ≠ -1 := by omega
      have hspec := spec_of_found t hWF hi hb64 hbit hbloN hminN
      have hfinal : vebDescend t ((t.num_layers - 1) + 1) (t.num_layers - 1) (i / 64)
          ((i % 64 : Nat) : Int) = some (64 * (i / 64) + b) := by
        rw [vebDescend_succ, if_pos rfl, hfna, hfn]
        dsimp only
        rw [if_neg hbne, shiftLeft6_eq, Int.toNat_natCast]
      by_cases hLeq : t.num_layers = 1
      · rw [show t.num_layers - 1 = 0 from by omega, vebAscend_zero_eq]
        have hfna0 : findNextAt t 0 (i / 64) ((i % 64 : Nat) : Int)
            = (t.bottom).find_next (i / 64) ((i % 64 : Nat) : Int) := by
          rw [show (0 : Nat) = t.num_layers - 1 from by omega]
          exact hfna
        rw [hfna0, hfn]
        dsimp only
        rw [if_neg hbne]
        dsimp only
        rw [show (0 : Nat) = t.num_layers - 1 from by omega]
        rw [vebDescend_fuel t t.num_layers ((t.num_layers - 1) + 1) (t.num_layers - 1)
          (i / 64) ((i % 64 : Nat) : Int) (by omega) (by omega) (by omega), hfinal, hspec]
      · rw [show t.num_layers - 1 = (t.num_layers - 2) + 1 from by omega, vebAscend_succ_eq]
        rw [show (t.num_layers - 2) + 1 = t.num_layers - 1 from by omega, hfna, hfn]
        dsimp only
        rw [if_neg hbne]
        dsimp only
        rw [vebDescend_fuel t t.num_layers ((t.num_layers - 1) + 1) (t.num_layers - 1)
          (i / 64) ((i % 64 : Nat) : Int) (by omega) (by omega) (by omega), hfinal, hspec]

/-- Successor correctness packaged for a single tree. -/
theorem successor_eq_spec (t : veb_tree) (hWF : t.WF) (hU : t.total_universe < vebFail)
    {i : Nat} (hi : i < t.total_universe) : t.successor i = some (specSuccessor t i) :=
  successor_eq_spec_aux t.num_layers t (le_refl _) hWF hU i hi

set_option maxRecDepth 4096

/-- Scenario A leaf layer: universe 256, leaf bits {3, 64, 65, 200}
(words `[2^3, 2^0 + 2^1, 0, 2^8]`). -/
def scenarioBottom : layer := ⟨256, 4, [8, 3, 0, 256]⟩

/-- Scenario A summary layer: universe 4; words 0, 1 and 3 below are
non-empty, so bits {0, 1, 3} are set. -/
def scenarioTop : layer := ⟨4, 1, [11]⟩

/-- Scenario A tree: universe 256 with members exactly {3, 64, 65, 200}. -/
def scenarioTree : veb_tree := ⟨256, [scenarioTop, scenarioBottom]⟩

theorem scenarioTree_members :
    ∀ s, scenarioTree.member s = true ↔ (s = 3 ∨ s = 64 ∨ s = 65 ∨ s = 200) := by
  intro s
  by_cases hs : s < 256
  · revert hs
    revert s
    decide
  · have hbig : scenarioTree.member s = false := by
      rw [veb_tree.member, layer.tbit, word_eq_zero_of_ge, Nat.zero_testBit]
      show 4 ≤ s / 64
      omega
    rw [hbig]
    constructor
    · intro h; exact absurd h (by simp)
    · intro h; omega

/-- C2.  Successor correctness: on any well-formed free-index tree whose
universe is below the `~0ULL` fail sentinel, `successor(i)` returns exactly
the smallest stored member strictly greater than `i` (the smallest member
`≥ i+1`), or the fail sentinel when none exists, for every `i` in `[0,U)`;
and on the universe-256 tree containing exactly {3,64,65,200},
`find_first_valid_index()` returns 3, `successor(3)` returns 64,
`successor(65)` returns 200 and `successor(200)` returns the fail
sentinel. -/
theorem successor_correctness :
    (∀ t : veb_tree, t.WF → t.total_universe < vebFail →
      ∀ i, i < t.total_universe → t.successor i = some (specSuccessor t i)) ∧
    scenarioTree.WF ∧
    (∀ s, scenarioTree.member s = true ↔ (s = 3 ∨ s = 64 ∨ s = 65 ∨ s = 200)) ∧
    scenarioTree.find_first_valid_index 4 = some 3 ∧
    scenarioTree.successor 3 = some 64 ∧
    scenarioTree.successor 65 = some 200 ∧
    scenarioTree.successor 200 = some vebFail := by
  refine ⟨?_, by decide, scenarioTree_members, by decide, by decide, by decide, by decide⟩
  intro t hWF hU i hi
  exact successor_eq_spec t hWF hU hi

/-- Witness for C2: the general successor theorem applied to the concrete
Scenario A tree at `i = 7`, all hypotheses discharged by evaluation. -/
theorem successor_correctness_witness :
    scenarioTree.WF ∧ scenarioTree.total_universe < vebFail ∧
      scenarioTree.successor 7 = some (specSuccessor scenarioTree 7) :=
  ⟨by decide, by decide,
    successor_correctness.1 scenarioTree (by decide) (by decide) 7 (by decide)⟩

theorem getD_set_self {l : List Nat} {i : Nat} {v : Nat} (h : i < l.length) :
    (l.set i v).getD i 0 = v := by
  induction l generalizing i with
  | nil => simp at h
  | cons a l ih =>
    cases i with
    | zero => rfl
    | succ i => exact ih (by simpa using h)

theorem getD_set_other {l : List Nat} (i : Nat) {j : Nat} {v : Nat} (h : i ≠ j) :
    (l.set i v).getD j 0 = l.getD j 0 := by
  induction l generalizing i j with
  | nil => rfl
  | cons a l ih =>
    cases i with
    | zero =>
      cases j with
      | zero => exact absurd rfl h
      | succ j => rfl
    | succ i =>
      cases j with
      | zero => rfl
      | succ j => exact ih i (by omega)

theorem set_getD_self {l : List Nat} {i : Nat} (h : i < l.length) :
    l.set i (l.getD i 0) = l := by
  induction l generalizing i with
  | nil => rfl
  | cons a l ih =>
    cases i with
    | zero => rfl
    | succ i =>
      show a :: l.set i ((a :: l).getD (i + 1) 0) = a :: l
      rw [show ((a :: l).getD (i + 1) 0) = l.getD i 0 from rfl, ih (by simpa using h)]

theorem SET_BIT_MASK_lt {low : Nat} (h : low < 64) : SET_BIT_MASK low < U64 := by
  rw [SET_BIT_MASK, Nat.shiftLeft_eq, one_mul, U64]
  exact Nat.pow_lt_pow_right (by decide) h

theorem testBit_SET_BIT_MASK (low j : Nat) :
    (SET_BIT_MASK low).testBit j = decide (j = low) := by
  rw [SET_BIT_MASK, Nat.shiftLeft_eq, one_mul]
  by_cases h : j = low
  · subst h; simp [Nat.testBit_two_pow_self]
  · simp [h, Nat.testBit_two_pow_of_ne (by omega : low ≠ j)]

theorem testBit_or_setbit (x low j : Nat) :
    (x ||| SET_BIT_MASK low).testBit j = (x.testBit j || decide (j = low)) := by
  rw [Nat.testBit_or, testBit_SET_BIT_MASK]

theorem and_setbit_ne_zero_iff {x low : Nat} :
    x &&& SET_BIT_MASK low ≠ 0 ↔ x.testBit low = true := by
  constructor
  · intro h
    by_contra hb
    apply h
    apply Nat.eq_of_testBit_eq
    intro j
    rw [Nat.testBit_and, testBit_SET_BIT_MASK, Nat.zero_testBit]
    by_cases hj : j = low
    · subst hj
      rw [Bool.not_eq_true] at hb
      rw [hb, Bool.false_and]
    · simp [hj]
  · intro h hzero
    have := congrArg (fun y => y.testBit low) hzero
    simp only [Nat.testBit_and, testBit_SET_BIT_MASK, Nat.zero_testBit] at this
    rw [h] at this
    simp at this

theorem layer_insert_eq_of_get {L : layer} {high low w : Nat}
    (hg : L.bits.get? high = some w) :
    L.insert high low =
      some (w, ⟨L.universe_size, L.num_blocks, L.bits.set high (w ||| SET_BIT_MASK low)⟩) := by
  rw [layer.insert.eq_def, hg]

/-- The layer with bit `low` of word `high` ORed in. -/
def setWordOr (L : layer) (high low : Nat) : layer :=
  ⟨L.universe_size, L.num_blocks, L.bits.set high (L.word high ||| SET_BIT_MASK low)⟩

/-- The tree with bit `low` of word `high` of layer `l` ORed in. -/
def setTreeOr (t : veb_tree) (l high low : Nat) : veb_tree :=
  ⟨t.total_universe, t.layers.set l (setWordOr (t.layerD l) high low)⟩

/-- Effect of `layers[l]->insert(high, low)` on the tree state. -/
theorem layerInsertAt_spec {t : veb_tree} {l high low : Nat}
    (hl : l < t.num_layers) (hh : high < (t.layerD l).bits.length) :
    layerInsertAt t l high low =
      some ((t.layerD l).word high, setTreeOr t l high low) := by
  rw [layerInsertAt, layers_get? hl]
  dsimp only
  rw [layer_insert_eq_of_get (get?_eq_some_word hh)]
  rfl

theorem layerD_set_self {t : veb_tree} {l : Nat} (hl : l < t.num_layers) (L2 : layer) :
    (veb_tree.mk t.total_universe (t.layers.set l L2)).layerD l = L2 := by
  rw [veb_tree.layerD]
  show (t.layers.set l L2).getD l dfltLayer = L2
  rw [List.getD_eq_get?]
  rw [veb_tree.num_layers] at hl
  rw [List.get?_set_eq_of_lt _ (by omega)]
  rfl

theorem layerD_set_other {t : veb_tree} {l : Nat} (l2 : Nat) (h : l ≠ l2) (L2 : layer) :
    (veb_tree.mk t.total_universe (t.layers.set l L2)).layerD l2 = t.layerD l2 := by
  rw [veb_tree.layerD, veb_tree.layerD]
  show (t.layers.set l L2).getD l2 dfltLayer = t.layers.getD l2 dfltLayer
  rw [List.getD_eq_get?, List.getD_eq_get?, List.get?_set_ne _ _ h]

theorem num_layers_set {t : veb_tree} {l : Nat} (L2 : layer) :
    (veb_tree.mk t.total_universe (t.layers.set l L2)).num_layers = t.num_layers := by
  rw [veb_tree.num_layers, veb_tree.num_layers]
  show (t.layers.set l L2).length = t.layers.length
  exact List.length_set t.layers l L2

theorem setWordOr_universe (L : layer) (high low : Nat) :
    (setWordOr L high low).universe_size = L.universe_size := rfl

theorem setWordOr_length (L : layer) (high low : Nat) :
    (setWordOr L high low).bits.length = L.bits.length := by
  rw [setWordOr]
  exact List.length_set L.bits high _

theorem word_setWordOr_self (L : layer) {high : Nat} (low : Nat)
    (hh : high < L.bits.length) :
    (setWordOr L high low).word high = L.word high ||| SET_BIT_MASK low := by
  rw [setWordOr, layer.word]
  exact getD_set_self hh

theorem word_setWordOr_other (L : layer) {high : Nat} (low : Nat) {i : Nat}
    (h : high ≠ i) : (setWordOr L high low).word i = L.word i := by
  rw [setWordOr, layer.word]
  exact getD_set_other high h

theorem tbit_setWordOr (L : layer) {high low : Nat} (hh : high < L.bits.length)
    (hlow : low < 64) (pos : Nat) :
    (setWordOr L high low).tbit pos = (L.tbit pos || decide (pos = 64 * high + low)) := by
  rw [tbit_eq, tbit_eq]
  by_cases hq : pos / 64 = high
  · rw [hq, word_setWordOr_self L low hh, testBit_or_setbit]
    have heq : (pos = 64 * high + low) ↔ (pos % 64 = low) := by omega
    by_cases hcase : pos % 64 = low
    · simp [hcase, heq]
    · have hne2 : ¬(pos = 64 * high + low) := fun h => hcase (heq.mp h)
      simp [hcase, hne2]
  · rw [word_setWordOr_other L low (by omega)]
    have hne : ¬(pos = 64 * high + low) := by omega
    simp [hne]

theorem setWordOr_WF {L : layer} (hWF : L.WF) {high low : Nat}
    (hh : high < L.bits.length) (hlow : low < 64)
    (hpos : 64 * high + low < L.universe_size) : (setWordOr L high low).WF := by
  obtain ⟨h1, h2, h3, h4⟩ := hWF
  refine ⟨h1, ?_, ?_, ?_⟩
  · rw [setWordOr_length]; exact h2
  · intro i hi
    rw [setWordOr_length] at hi
    by_cases hq : high = i
    · subst hq
      rw [word_setWordOr_self L low hh]
      exact Nat.or_lt_two_pow (h3 high hh) (SET_BIT_MASK_lt hlow)
    · rw [word_setWordOr_other L low hq]
      exact h3 i hi
  · intro pos hlen hge
    rw [setWordOr_length] at hlen
    rw [setWordOr_universe] at hge
    rw [tbit_setWordOr L hh hlow, h4 pos hlen hge]
    have : ¬(pos = 64 * high + low) := by omega
    simp [this]

/-- The structural part of tree well-formedness: everything except the
summary invariant. -/
def veb_tree.structWF (t : veb_tree) : Prop :=
  0 < t.num_layers ∧
  0 < t.total_universe ∧
  (t.bottom).universe_size = t.total_universe ∧
  (t.layerD 0).universe_size ≤ 64 ∧
  (∀ l, l < t.num_layers → (t.layerD l).WF) ∧
  (∀ l, l < t.num_layers - 1 →
    (t.layerD l).universe_size = layerNumBlocks (t.layerD (l+1)).universe_size)

/-- The summary invariant at the edge between layers `l` and `l+1`. -/
def veb_tree.InvAt (t : veb_tree) (l : Nat) : Prop :=
  ∀ pos, pos < (t.layerD (l+1)).bits.length →
    ((t.layerD l).tbit pos = true ↔ (t.layerD (l+1)).word pos ≠ 0)

theorem WF_iff (t : veb_tree) :
    t.WF ↔ (t.structWF ∧ ∀ l, l < t.num_layers - 1 → t.InvAt l) := by
  constructor
  · intro ⟨h1, h2, h3, h4, h5, h6, h7⟩
    exact ⟨⟨h1, h2, h3, h4, h5, h6⟩, h7⟩
  · intro ⟨⟨h1, h2, h3, h4, h5, h6⟩, h7⟩
    exact ⟨h1, h2, h3, h4, h5, h6, h7⟩

theorem setTreeOr_num_layers (t : veb_tree) (l high low : Nat) :
    (setTreeOr t l high low).num_layers = t.num_layers :=
  num_layers_set _

theorem setTreeOr_universe (t : veb_tree) (l high low : Nat) :
    (setTreeOr t l high low).total_universe = t.total_universe := rfl

theorem setTreeOr_layerD_self {t : veb_tree} {l : Nat} (hl : l < t.num_layers)
    (high low : Nat) :
    (setTreeOr t l high low).layerD l = setWordOr (t.layerD l) high low :=
  layerD_set_self hl _

theorem setTreeOr_layerD_other (t : veb_tree) {l : Nat} (l2 : Nat) (h : l ≠ l2)
    (high low : Nat) :
    (setTreeOr t l high low).layerD l2 = t.layerD l2 :=
  layerD_set_other l2 h _

theorem vebPropagate_zero (op : veb_tree → Nat → Nat → Nat → Option (Nat × veb_tree))
    (cutoff : Nat) (t : veb_tree) (high old : Nat) :
    vebPropagate op cutoff 0 t high old = some t := rfl

theorem vebPropagate_succ (op : veb_tree → Nat → Nat → Nat → Option (Nat × veb_tree))
    (cutoff l : Nat) (t : veb_tree) (high old : Nat) :
    vebPropagate op cutoff (l+1) t high old =
      (if popcll old = cutoff then
        match op t l (high >>> 6) (high &&& BITMASK 6) with
        | none => none
        | some (old2, t2) => vebPropagate op cutoff l t2 (high >>> 6) old2
      else some t) := rfl

theorem or_setbit_ne_zero (x low : Nat) : x ||| SET_BIT_MASK low ≠ 0 := by
  intro h
  have hb := congrArg (fun y => y.testBit low) h
  simp only [testBit_or_setbit, Nat.zero_testBit] at hb
  simp at hb

theorem setTreeOr_layerD_universe (t : veb_tree) {l : Nat} (hl : l < t.num_layers)
    (high low l2 : Nat) :
    ((setTreeOr t l high low).layerD l2).universe_size = (t.layerD l2).universe_size := by
  by_cases h : l = l2
  · subst h
    rw [setTreeOr_layerD_self hl]
    rfl
  · rw [setTreeOr_layerD_other t l2 h]

theorem setTreeOr_layerD_length (t : veb_tree) {l : Nat} (hl : l < t.num_layers)
    (high low l2 : Nat) :
    ((setTreeOr t l high low).layerD l2).bits.length = (t.layerD l2).bits.length := by
  by_cases h : l = l2
  · subst h
    rw [setTreeOr_layerD_self hl, setWordOr_length]
  · rw [setTreeOr_layerD_other t l2 h]

theorem setTreeOr_structWF {t : veb_tree} (hS : t.structWF) {l high low : Nat}
    (hl : l < t.num_layers) (hh : high < (t.layerD l).bits.length) (hlow : low < 64)
    (hpos : 64 * high + low < (t.layerD l).universe_size) :
    (setTreeOr t l high low).structWF := by
  obtain ⟨h1, h2, h3, h4, h5, h6⟩ := hS
  refine ⟨?_, h2, ?_, ?_, ?_, ?_⟩
  · rw [setTreeOr_num_layers]; exact h1
  · rw [veb_tree.bottom, setTreeOr_num_layers, setTreeOr_layerD_universe t hl]
    exact h3
  · rw [setTreeOr_layerD_universe t hl]
    exact h4
  · intro l2 hl2
    rw [setTreeOr_num_layers] at hl2
    by_cases h : l = l2
    · subst h
      rw [setTreeOr_layerD_self hl]
      exact setWordOr_WF (h5 l hl) hh hlow hpos
    · rw [setTreeOr_layerD_other t l2 h]
      exact h5 l2 hl2
  · intro l2 hl2
    rw [setTreeOr_num_layers] at hl2
    rw [setTreeOr_layerD_universe t hl, setTreeOr_layerD_universe t hl]
    exact h6 l2 hl2

/-- Invariant restoration by the upward propagation loop of
`insert_force_update` (cutoff 0).  The loop is entered after an insert at
layer `lidx` wrote bit `p % 64` of word `p / 64` — i.e. position `p` — of
that layer, observing previous word value `old`; `p` doubles as the word
index of layer `lidx` whose summary bit at layer `lidx - 1` may now be
stale.  The loop stops at the first layer whose word was already non-zero
and leaves the summary invariant holding everywhere. -/
theorem propagate_force_restores :
    ∀ lidx : Nat, ∀ (t : veb_tree) (p old : Nat),
      lidx < t.num_layers →
      t.structWF →
      old < U64 →
      p < (t.layerD lidx).bits.length →
      (∀ l, l < t.num_layers - 1 → l + 1 ≠ lidx → t.InvAt l) →
      (lidx = 0 → ∀ l, l < t.num_layers - 1 → t.InvAt l) →
      (1 ≤ lidx →
        (∀ pos, pos < (t.layerD lidx).bits.length → pos ≠ p →
          ((t.layerD (lidx - 1)).tbit pos = true ↔ (t.layerD lidx).word pos ≠ 0)) ∧
        (t.layerD lidx).word p ≠ 0 ∧
        ((t.layerD (lidx - 1)).tbit p = true ↔ old ≠ 0)) →
      ∃ t2, vebPropagate layerInsertAt 0 lidx t p old = some t2 ∧
        t2.structWF ∧ (∀ l, l < t2.num_layers - 1 → t2.InvAt l) ∧
        t2.total_universe = t.total_universe ∧
        t2.num_layers = t.num_layers ∧
        (∀ l2, lidx ≤ l2 → t2.layerD l2 = t.layerD l2) := by
  intro lidx
  induction lidx with
  | zero =>
    intro t p old hl hS hold hp hInvO h0full hEdge
    exact ⟨t, vebPropagate_zero _ _ _ _ _, hS, h0full rfl, rfl, rfl, fun l2 _ => rfl⟩
  | succ k ih =>
    intro t p old hl hS hold hp hInvO h0full hEdge
    obtain ⟨hE1, hE2, hE3⟩ := hEdge (by omega)
    rw [vebPropagate_succ]
    by_cases hpz : popcll old = 0
    · -- a 0→1 transition: continue upward
      have hold0 : old = 0 := (popcll_eq_zero_iff hold).mp hpz
      rw [if_pos hpz, shiftRight6_eq, and63_eq]
      -- bounds for the write at layer k
      have hkL : k < t.num_layers := by omega
      have hkL1 : k < t.num_layers - 1 := by omega
      have hlink := hS.2.2.2.2.2 k hkL1
      have hlenk : (t.layerD k).bits.length = layerNumBlocks (t.layerD k).universe_size := by
        obtain ⟨hA, hB, _, _⟩ := hS.2.2.2.2.1 k hkL
        rw [hB, hA]
      have hlenk1 : (t.layerD (k+1)).bits.length =
          layerNumBlocks (t.layerD (k+1)).universe_size := by
        obtain ⟨hA, hB, _, _⟩ := hS.2.2.2.2.1 (k+1) hl
        rw [hB, hA]
      have hpu : p < (t.layerD k).universe_size := by
        rw [hlink, ← hlenk1]
        exact hp
      have hh : p / 64 < (t.layerD k).bits.length := by
        rw [hlenk]
        exact lt_layerNumBlocks_of_lt hpu
      rw [layerInsertAt_spec hkL hh]
      set T := setTreeOr t k (p / 64) (p % 64) with hT
      set old2 := (t.layerD k).word (p / 64) with hold2
      -- facts about T
      have hTn : T.num_layers = t.num_layers := setTreeOr_num_layers t k (p / 64) (p % 64)
      have hTu : T.total_universe = t.total_universe := rfl
      have hTk : T.layerD k = setWordOr (t.layerD k) (p / 64) (p % 64) :=
        setTreeOr_layerD_self hkL _ _
      have hTother : ∀ l2, l2 ≠ k → T.layerD l2 = t.layerD l2 := by
        intro l2 hne
        exact setTreeOr_layerD_other t l2 (fun h => hne h.symm) _ _
      have hTS : T.structWF := setTreeOr_structWF hS hkL hh (by omega) (by omega)
      -- the new tbit at layer k
      have hps : 64 * (p / 64) + p % 64 = p := by omega
      have hTtbit : ∀ pos, (T.layerD k).tbit pos = ((t.layerD k).tbit pos || decide (pos = p)) := by
        intro pos
        rw [hTk, tbit_setWordOr (t.layerD k) hh (by omega), hps]
      -- invariant at edge (k, k+1) now holds in T
      have hInvK : T.InvAt k := by
        intro pos hlen
        rw [hTother (k+1) (by omega)] at hlen ⊢
        rw [hTtbit pos]
        by_cases hpp : pos = p
        · subst hpp
          simp only [decide_True, Bool.or_true]
          exact ⟨fun _ => hE2, fun _ => trivial⟩
        · simp only [hpp, decide_False, Bool.or_false]
          exact hE1 pos hlen hpp
      -- other intact edges
      have hInvO2 : ∀ l, l < T.num_layers - 1 → l + 1 ≠ k → T.InvAt l := by
        intro l hlL hne
        by_cases hlk : l = k
        · subst hlk
          exact hInvK
        · have hInvT : t.InvAt l := by
            apply hInvO l (by rw [hTn] at hlL; exact hlL)
            omega
          intro pos hlen
          rw [hTother (l+1) (by omega)] at hlen
          rw [hTother l hlk, hTother (l+1) (by omega)]
          exact hInvT pos hlen
      have hword2 : (T.layerD k).word (p / 64) = old2 ||| SET_BIT_MASK (p % 64) := by
        rw [hTk]
        exact word_setWordOr_self _ _ hh
      have hrec := ih T (p / 64) old2 (by omega)
        hTS
        (by rw [hold2]; exact word_lt_u64 (hS.2.2.2.2.1 k hkL) (p / 64))
        (by rw [hTk, setWordOr_length]; exact hh)
        hInvO2
        (by
          intro hk0
          subst hk0
          intro l hlL
          by_cases hl0 : l = 0
          · subst hl0
            exact hInvK
          · exact hInvO2 l hlL (by omega))
        (by
          intro hk1
          have hInvkm : t.InvAt (k-1) := hInvO (k-1) (by omega) (by omega)
          rw [veb_tree.InvAt, show k - 1 + 1 = k from by omega] at hInvkm
          refine ⟨?_, ?_, ?_⟩
          · intro pos hlen hne
            rw [hTk, setWordOr_length] at hlen
            rw [hTother (k-1) (by omega), hTk,
              word_setWordOr_other _ _ (by omega : p / 64 ≠ pos)]
            exact hInvkm pos hlen
          · rw [hword2]
            exact or_setbit_ne_zero _ _
          · rw [hTother (k-1) (by omega)]
            exact hInvkm (p / 64) hh)
      obtain ⟨t2, heq, hS2, hInv2, hu2, hn2, hsame⟩ := hrec
      refine ⟨t2, ?_, hS2, hInv2, by rw [hu2, hTu], by rw [hn2, hTn], ?_⟩
      · dsimp only
        exact heq
      · intro l2 hl2
        rw [hsame l2 (by omega), hTother l2 (by omega)]
    · -- the word below was already non-empty: stop, invariant already holds
      rw [if_neg hpz]
      have holdne : old ≠ 0 := by
        intro h
        apply hpz
        rw [h]
        exact (popcll_eq_zero_iff two_pow_64_pos).mpr rfl
      refine ⟨t, rfl, hS, ?_, rfl, rfl, fun l2 _ => rfl⟩
      intro l hlL
      by_cases hek : l + 1 = k + 1
      · have hlk : l = k := by omega
        subst hlk
        intro pos hlen
        by_cases hpp : pos = p
        · subst hpp
          exact ⟨fun _ => hE2, fun _ => hE3.mpr holdne⟩
        · exact hE1 pos hlen hpp
      · exact hInvO l hlL hek


/-- A two-layer tree of universe 128 with no bits set, as built by
`generate_on_device(128)` before any insertion. -/
def emptyTree128 : veb_tree := ⟨128, [⟨2, 1, [0]⟩, ⟨128, 2, [0, 0]⟩]⟩

/-- The state after `insert(0)` on the empty universe-128 tree: the leaf bit is
set but the top summary layer is untouched. -/
def insertedTree128 : veb_tree := ⟨128, [⟨2, 1, [0]⟩, ⟨128, 2, [1, 0]⟩]⟩

theorem set_getD_layer_self {l : List layer} {i : Nat} (h : i < l.length) :
    l.set i (l.getD i dfltLayer) = l := by
  induction l generalizing i with
  | nil => rfl
  | cons a l ih =>
    cases i with
    | zero => rfl
    | succ i =>
      show a :: l.set i ((a :: l).getD (i + 1) dfltLayer) = a :: l
      rw [show ((a :: l).getD (i + 1) dfltLayer) = l.getD i dfltLayer from rfl,
        ih (by simpa using h)]

theorem or_setbit_of_testBit {x low : Nat} (hb : x.testBit low = true) :
    x ||| SET_BIT_MASK low = x := by
  apply Nat.eq_of_testBit_eq
  intro j
  rw [testBit_or_setbit]
  by_cases hj : j = low
  · subst hj
    simp [hb]
  · simp [hj]

/-- C3 (counterexample): on the empty universe-128 tree, `insert(0)` makes the
leaf word go from all-zero to non-zero — a 0→1 transition — yet it does not
propagate upward (the source propagates only when the old popcount equals
`VEB_RESTART_CUTOFF = 30`, not when it is 0), so afterwards the leaf word is
non-zero while its summary bit is still 0: the claimed invariant is violated. -/
theorem insert_breaks_invariant :
    emptyTree128.WF ∧
    emptyTree128.insert 0 = some (true, insertedTree128) ∧
    (insertedTree128.layerD 1).word 0 ≠ 0 ∧
    (insertedTree128.layerD 0).tbit 0 = false := by
  decide


/-- C3 (amended): the propagation behaviour the spec describes — set the leaf
bit, float the signal upward exactly while the word below was all-zero, stop at
the first non-zero parent word, return whether the bit was newly set, and leave
the summary invariant intact — is implemented by `insert_force_update`, not by
`insert` (which propagates only when the old popcount equals 30).  For every
well-formed tree and in-range value, `insert_force_update` succeeds, reports
whether the value was absent, preserves well-formedness (hence the summary
invariant at every layer edge) and the universe, and the stored set becomes the
old set plus the value. -/
theorem insert_force_update_correct (t : veb_tree) (v : Nat)
    (hWF : t.WF) (hv : v < t.total_universe) :
    ∃ b t2, t.insert_force_update v = some (b, t2) ∧
      b = !t.member v ∧
      t2.WF ∧
      t2.total_universe = t.total_universe ∧
      (∀ s, t2.member s = (t.member s || decide (s = v))) := by
  obtain ⟨hS, hInv⟩ := (WF_iff t).mp hWF
  have h1 : 0 < t.num_layers := hS.1
  have hbot : (t.layerD (t.num_layers - 1)).universe_size = t.total_universe := hS.2.2.1
  have hLW : (t.layerD (t.num_layers - 1)).WF := hS.2.2.2.2.1 _ (by omega)
  have hlenL : (t.layerD (t.num_layers - 1)).bits.length = layerNumBlocks t.total_universe := by
    rw [hLW.2.1, hLW.1, hbot]
  have hh : v / 64 < (t.layerD (t.num_layers - 1)).bits.length := by
    rw [hlenL]
    exact lt_layerNumBlocks_of_lt hv
  have hstep : t.insert_force_update v =
      (match layerInsertAt t (t.num_layers - 1) (v >>> 6) (v &&& BITMASK 6) with
       | none => none
       | some (old, t1) =>
           if old &&& SET_BIT_MASK (v &&& BITMASK 6) ≠ 0 then some (false, t1)
           else
             match vebPropagate layerInsertAt 0 (t.num_layers - 1) t1 (v >>> 6) old with
             | none => none
             | some t2 => some (true, t2)) := rfl
  rw [shiftRight6_eq, and63_eq, layerInsertAt_spec (show t.num_layers - 1 < t.num_layers by omega) hh] at hstep
  dsimp only at hstep
  by_cases hset : (t.layerD (t.num_layers - 1)).word (v / 64) &&& SET_BIT_MASK (v % 64) ≠ 0
  · -- the leaf bit was already present: the state is unchanged
    rw [if_pos hset] at hstep
    have hbit : ((t.layerD (t.num_layers - 1)).word (v / 64)).testBit (v % 64) = true :=
      and_setbit_ne_zero_iff.mp hset
    have hmem : t.member v = true := by
      rw [veb_tree.member, veb_tree.bottom, layer.tbit]
      exact hbit
    have hT1 : setTreeOr t (t.num_layers - 1) (v / 64) (v % 64) = t := by
      rw [setTreeOr]
      have hL2 : setWordOr (t.layerD (t.num_layers - 1)) (v / 64) (v % 64) =
          t.layerD (t.num_layers - 1) := by
        rw [setWordOr, or_setbit_of_testBit hbit, layer.word, set_getD_self hh]
      rw [hL2, veb_tree.layerD, set_getD_layer_self (show t.num_layers - 1 < t.layers.length from by
        rw [← veb_tree.num_layers]; omega)]
    rw [hT1] at hstep
    refine ⟨false, t, hstep, by rw [hmem]; rfl, hWF, rfl, ?_⟩
    intro s
    by_cases hs : s = v
    · subst hs
      rw [hmem]
      simp [veb_tree.member]
    · simp [hs]
  · -- freshly set leaf bit: the force-update propagation restores the invariant
    rw [if_neg hset] at hstep
    have hbitf : ((t.layerD (t.num_layers - 1)).word (v / 64)).testBit (v % 64) = false := by
      by_contra hb
      exact hset (and_setbit_ne_zero_iff.mpr (by
        cases hx : ((t.layerD (t.num_layers - 1)).word (v / 64)).testBit (v % 64)
        · exact absurd hx hb
        · rfl))
    have hmemf : t.member v = false := by
      rw [veb_tree.member, veb_tree.bottom, layer.tbit]
      exact hbitf
    have hrec := propagate_force_restores (t.num_layers - 1)
      (setTreeOr t (t.num_layers - 1) (v / 64) (v % 64)) (v / 64)
      ((t.layerD (t.num_layers - 1)).word (v / 64))
      (by rw [setTreeOr_num_layers]; omega)
      (setTreeOr_structWF hS (by omega) hh (by omega) (by rw [hbot]; omega))
      (word_lt_u64 hLW _)
      (by rw [setTreeOr_layerD_self (by omega : t.num_layers - 1 < t.num_layers),
            setWordOr_length]
          exact hh)
      (by
        intro l hlL hne
        rw [setTreeOr_num_layers] at hlL
        have hlne : t.num_layers - 1 ≠ l := by omega
        have hlne2 : t.num_layers - 1 ≠ l + 1 := hne ∘ Eq.symm
        intro pos hlen
        rw [setTreeOr_layerD_other t (l + 1) hlne2] at hlen
        rw [setTreeOr_layerD_other t l hlne, setTreeOr_layerD_other t (l + 1) hlne2]
        exact hInv l hlL pos hlen)
      (by
        intro hL0 l hlL
        rw [setTreeOr_num_layers] at hlL
        omega)
      (by
        intro hL1
        have hIs := hInv (t.num_layers - 1 - 1) (by omega)
        rw [veb_tree.InvAt, show t.num_layers - 1 - 1 + 1 = t.num_layers - 1 from by omega] at hIs
        refine ⟨?_, ?_, ?_⟩
        · intro pos hlen hne
          rw [setTreeOr_layerD_self (by omega : t.num_layers - 1 < t.num_layers),
            setWordOr_length] at hlen
          rw [setTreeOr_layerD_other t (t.num_layers - 1 - 1) (by omega),
            setTreeOr_layerD_self (by omega : t.num_layers - 1 < t.num_layers),
            word_setWordOr_other _ _ (show v / 64 ≠ pos from fun h => hne h.symm)]
          exact hIs pos hlen
        · rw [setTreeOr_layerD_self (by omega : t.num_layers - 1 < t.num_layers),
            word_setWordOr_self _ _ hh]
          exact or_setbit_ne_zero _ _
        · rw [setTreeOr_layerD_other t (t.num_layers - 1 - 1) (by omega)]
          exact hIs (v / 64) hh)
    obtain ⟨t2, heq, hS2, hInv2, hu2, hn2, hsame⟩ := hrec
    rw [heq] at hstep
    dsimp only at hstep
    have hn2t : t2.num_layers = t.num_layers := by
      rw [hn2, setTreeOr_num_layers]
    refine ⟨true, t2, hstep, by rw [hmemf]; rfl, (WF_iff t2).mpr ⟨hS2, hInv2⟩, hu2, ?_⟩
    intro s
    rw [veb_tree.member, veb_tree.member, veb_tree.bottom, veb_tree.bottom, hn2t,
      hsame (t.num_layers - 1) le_rfl,
      setTreeOr_layerD_self (by omega : t.num_layers - 1 < t.num_layers),
      tbit_setWordOr _ hh (by omega) s,
      show 64 * (v / 64) + v % 64 = v from by omega]

/-- Witness for `insert_force_update_correct`: the empty universe-128 tree with
value 5.  `insert_force_update 5` reports a fresh insertion, keeps the tree well
formed, and the resulting set is exactly {5}. -/
theorem insert_force_update_correct_witness :
    emptyTree128.WF ∧ (5 : Nat) < emptyTree128.total_universe ∧
      (∃ b t2, emptyTree128.insert_force_update 5 = some (b, t2) ∧
        b = !emptyTree128.member 5 ∧
        t2.WF ∧
        t2.total_universe = emptyTree128.total_universe ∧
        (∀ s, t2.member s = (emptyTree128.member s || decide (s = 5)))) :=
  ⟨by decide, by decide, insert_force_update_correct emptyTree128 5 (by decide) (by decide)⟩

/-- Source `layer::rollback(start_block, bits_to_set)`: while more than 64 bits
remain, OR a full-word mask into the current word and advance; finally OR the
remaining partial mask.  An out-of-range word access yields `none`. -/
def rollbackGo : Nat → List Nat → Nat → Nat → Option (List Nat)
  | 0, bits, start_block, bits_to_set =>
      match bits.get? start_block with
      | none => none
      | some old => some (bits.set start_block (old ||| BITMASK bits_to_set))
  | fuel + 1, bits, start_block, bits_to_set =>
      if 64 < bits_to_set then
        match bits.get? start_block with
        | none => none
        | some old =>
            rollbackGo fuel (bits.set start_block (old ||| BITMASK 64)) (start_block + 1)
              (bits_to_set - 64)
      else
        match bits.get? start_block with
        | none => none
        | some old => some (bits.set start_block (old ||| BITMASK bits_to_set))

/-- Wrapper fixing the fuel: each loop step removes 64 from `bits_to_set`, so
`bits_to_set` steps always suffice, and with zero fuel `bits_to_set = 0` makes
the zero-fuel arm coincide with the loop-free final OR. -/
def rollbackAux (bits : List Nat) (start_block bits_to_set : Nat) : Option (List Nat) :=
  rollbackGo bits_to_set bits start_block bits_to_set

/-- `layer::rollback` on the layer's word array. -/
def layer.rollback (L : layer) (start_block bits_to_set : Nat) : Option layer :=
  match rollbackAux L.bits start_block bits_to_set with
  | none => none
  | some bits2 => some ⟨L.universe_size, L.num_blocks, bits2⟩

/-- Source `layer::return_multiple(start_index, num_indices)` word loop: while
the run extends past the current word, OR the in-word suffix mask and advance;
finally OR the remaining mask at the final in-word offset. -/
def returnGo : Nat → List Nat → Nat → Nat → Nat → Option (List Nat)
  | 0, bits, block_index, block_start, num_indices =>
      match bits.get? block_index with
      | none => none
      | some old =>
          some (bits.set block_index (old ||| (BITMASK num_indices <<< block_start)))
  | fuel + 1, bits, block_index, block_start, num_indices =>
      if 64 < num_indices + block_start then
        match bits.get? block_index with
        | none => none
        | some old =>
            returnGo fuel
              (bits.set block_index (old ||| (BITMASK (64 - block_start) <<< block_start)))
              (block_index + 1) 0 (num_indices - (64 - block_start))
      else
        match bits.get? block_index with
        | none => none
        | some old =>
            some (bits.set block_index (old ||| (BITMASK num_indices <<< block_start)))

/-- Wrapper fixing the fuel: each loop step lowers `num_indices + block_start`
by 64, so that sum bounds the step count, and with zero fuel the sum is zero
and the zero-fuel arm coincides with the loop-free final OR. -/
def returnMultipleAux (bits : List Nat) (block_index block_start num_indices : Nat) :
    Option (List Nat) :=
  returnGo (num_indices + block_start) bits block_index block_start num_indices

/-- Source `layer::return_multiple`. -/
def layer.return_multiple (L : layer) (start_index num_indices : Nat) : Option layer :=
  match returnMultipleAux L.bits (start_index / 64) (start_index % 64) num_indices with
  | none => none
  | some bits2 => some ⟨L.universe_size, L.num_blocks, bits2⟩

/-- Outcome of the inner whole-word claiming loop of `layer::gather_multiple`:
either it finished with at most 64 bits still needed, or a word was not fully
free and the attempt was rolled back (`succeeded = false` path). -/
inductive MidRes where
  | ok (bits : List Nat) (start_block num_contiguous : Nat)
  | fail (bits : List Nat) (start_block num_contiguous : Nat)

/-- The `while (num_contiguous > 64)` loop of `layer::gather_multiple`:
decrement `start_block`, claim the whole word with an atomic AND of zero, and
on a word that was not fully set, restore it, roll back everything claimed so
far and report failure.  Decrementing `start_block` below zero wraps the
unsigned index out of range and yields `none`. -/
def gatherMidGo (num_needed : Nat) : Nat → List Nat → Nat → Nat → Option MidRes
  | 0, bits, start_block, num_contiguous => some (.ok bits start_block num_contiguous)
  | fuel + 1, bits, start_block, num_contiguous =>
      if 64 < num_contiguous then
        if start_block = 0 then none
        else
          match bits.get? (start_block - 1) with
          | none => none
          | some acquired =>
              if popcll acquired ≠ 64 then
                match rollbackAux
                    ((bits.set (start_block - 1) 0).set (start_block - 1) (0 ||| acquired))
                    start_block (num_needed - num_contiguous) with
                | none => none
                | some bits3 => some (.fail bits3 (start_block - 1) num_contiguous)
              else
                gatherMidGo num_needed fuel (bits.set (start_block - 1) 0) (start_block - 1)
                  (num_contiguous - 64)
      else some (.ok bits start_block num_contiguous)

/-- Wrapper fixing the fuel: each step removes 64 from `num_contiguous`, so
`num_contiguous` steps always suffice, and with zero fuel `num_contiguous = 0`
makes the zero-fuel arm coincide with the loop exit. -/
def gatherMiddle (num_needed : Nat) (bits : List Nat) (start_block num_contiguous : Nat) :
    Option MidRes :=
  gatherMidGo num_needed num_contiguous bits start_block num_contiguous

/-- Result of one entry of the outer `while (start_block != 0)` loop of
`layer::gather_multiple`: the function returns (`out`), or the loop body runs
`continue` and control reaches the loop check again (`again`). -/
inductive StepRes where
  | out (res : Option (Nat × List Nat))
  | again (bits : List Nat) (start_block num_contiguous : Nat)

/-- One entry of the outer loop of `layer::gather_multiple`, including the
loop-exit path: when `start_block = 0` the source unconditionally executes
`rollback(0, num_needed - num_contiguous)` and returns the fail sentinel. -/
def gatherStep (num_needed : Nat) (bits : List Nat) (start_block num_contiguous : Nat) :
    StepRes :=
  if start_block = 0 then
    match rollbackAux bits 0 (num_needed - num_contiguous) with
    | none => .out none
    | some bits2 => .out (some (vebFail, bits2))
  else
    match bits.get? start_block with
    | none => .out none
    | some w =>
        if cfcll w = 0 then .again bits (start_block - 1) num_needed
        else if num_needed ≤ cfcll w then
          if popcll (w &&& (BITMASK num_needed <<< (cfcll w - num_needed))) = num_needed then
            .out (some (start_block * 64 + (cfcll w - num_needed),
              bits.set start_block
                (w &&& compl64 (BITMASK num_needed <<< (cfcll w - num_needed)))))
          else
            .again
              ((bits.set start_block
                  (w &&& compl64 (BITMASK num_needed <<< (cfcll w - num_needed)))).set
                start_block
                ((w &&& compl64 (BITMASK num_needed <<< (cfcll w - num_needed))) |||
                  ((BITMASK num_needed <<< (cfcll w - num_needed)) &&& w)))
              start_block num_needed
        else
          if popcll (w &&& BITMASK (cfcll w)) = cfcll w then
            match gatherMiddle num_needed
                (bits.set start_block (w &&& compl64 (BITMASK (cfcll w))))
                start_block (num_needed - cfcll w) with
            | none => .out none
            | some (.fail bits3 sb2 nc2) => .again bits3 sb2 nc2
            | some (.ok bits3 sb2 nc2) =>
                if sb2 = 0 then .out none
                else
                  match bits3.get? (sb2 - 1) with
                  | none => .out none
                  | some final_bits =>
                      if popcll (final_bits &&& (BITMASK nc2 <<< (64 - nc2))) = nc2 then
                        .out (some ((sb2 - 1) * 64 + 64 - nc2,
                          bits3.set (sb2 - 1)
                            (final_bits &&& compl64 (BITMASK nc2 <<< (64 - nc2)))))
                      else
                        match rollbackAux
                            ((bits3.set (sb2 - 1)
                                (final_bits &&& compl64 (BITMASK nc2 <<< (64 - nc2)))).set
                              (sb2 - 1)
                              ((final_bits &&& compl64 (BITMASK nc2 <<< (64 - nc2))) |||
                                ((BITMASK nc2 <<< (64 - nc2)) &&& final_bits)))
                            sb2 (num_needed - nc2) with
                        | none => .out none
                        | some bits5 => .again bits5 (sb2 - 1) nc2
          else
            .again
              ((bits.set start_block (w &&& compl64 (BITMASK (cfcll w)))).set start_block
                ((w &&& compl64 (BITMASK (cfcll w))) ||| (w &&& BITMASK (cfcll w))))
              start_block num_needed

/-- The outer loop of `layer::gather_multiple`, fuelled over loop entries. -/
def gatherLoop (num_needed : Nat) : Nat → List Nat → Nat → Nat → Option (Nat × List Nat)
  | 0, _, _, _ => none
  | fuel + 1, bits, start_block, num_contiguous =>
      match gatherStep num_needed bits start_block num_contiguous with
      | .out res => res
      | .again bits2 sb2 nc2 => gatherLoop num_needed fuel bits2 sb2 nc2

/-- Source `layer::gather_multiple(num_contiguous)`: scan from the highest word
downward for a contiguous run, speculatively claiming candidate windows.  The
outer loop strictly lowers `start_block` between iterations, so
`num_blocks + 1` loop entries always suffice as fuel. -/
def layer.gather_multiple (L : layer) (num_contiguous : Nat) : Option (Nat × layer) :=
  match gatherLoop num_contiguous (L.num_blocks + 1) L.bits (L.num_blocks - 1)
      num_contiguous with
  | none => none
  | some (found, bits2) => some (found, ⟨L.universe_size, L.num_blocks, bits2⟩)

/-- The word loop of `veb_tree::maybe_remove_layer_bits`: for each summary
position, clear the bit of layer `l` when the corresponding word of layer
`l + 1` is zero. -/
def maybeRemoveAux (l : Nat) : veb_tree → Nat → Nat → Option veb_tree
  | t, _, 0 => some t
  | t, working_bit, k + 1 =>
      match (t.layerD (l + 1)).bits.get? working_bit with
      | none => none
      | some w =>
          if w = 0 then
            match layerRemoveAt t l (working_bit / 64) (working_bit % 64) with
            | none => none
            | some (_, t2) => maybeRemoveAux l t2 (working_bit + 1) k
          else maybeRemoveAux l t (working_bit + 1) k

/-- Source `veb_tree::maybe_remove_layer_bits(layer, start_bit, bits_to_check)`. -/
def veb_tree.maybe_remove_layer_bits (t : veb_tree) (l start_bit bits_to_check : Nat) :
    Option veb_tree :=
  maybeRemoveAux l t start_bit bits_to_check

/-- The word loop of `veb_tree::maybe_return_layer_bits`: for each summary
position, set the bit of layer `l` only when the corresponding word of layer
`l + 1` has all 64 bits set. -/
def maybeInsertAux (l : Nat) : veb_tree → Nat → Nat → Option veb_tree
  | t, _, 0 => some t
  | t, working_bit, k + 1 =>
      match (t.layerD (l + 1)).bits.get? working_bit with
      | none => none
      | some w =>
          if popcll w = 64 then
            match layerInsertAt t l (working_bit / 64) (working_bit % 64) with
            | none => none
            | some (_, t2) => maybeInsertAux l t2 (working_bit + 1) k
          else maybeInsertAux l t (working_bit + 1) k

/-- Source `veb_tree::maybe_return_layer_bits(layer, start_bit, bits_to_check)`. -/
def veb_tree.maybe_return_layer_bits (t : veb_tree) (l start_bit bits_to_check : Nat) :
    Option veb_tree :=
  maybeInsertAux l t start_bit bits_to_check

/-- The downward `for (int i = num_layers-2; i >= 0; i--)` sweep of
`veb_tree::gather_multiple`, recomputing the covered summary-word range at each
layer and removing summary bits over emptied words. -/
def gatherSweep : Nat → veb_tree → Nat → Nat → Option veb_tree
  | 0, t, _, _ => some t
  | i + 1, t, found, num_contiguous =>
      match t.maybe_remove_layer_bits i (found / 64)
          ((found + num_contiguous - 1) / 64 + 1 - found / 64) with
      | none => none
      | some t2 =>
          gatherSweep i t2 (found / 64) ((found + num_contiguous - 1) / 64 + 1 - found / 64)

/-- Source `veb_tree::gather_multiple(num_contiguous)`. -/
def veb_tree.gather_multiple (t : veb_tree) (num_contiguous : Nat) :
    Option (Nat × veb_tree) :=
  match (t.layerD (t.num_layers - 1)).gather_multiple num_contiguous with
  | none => none
  | some (found, Lb) =>
      if found ≠ vebFail then
        match gatherSweep (t.num_layers - 1)
            ⟨t.total_universe, t.layers.set (t.num_layers - 1) Lb⟩ found num_contiguous with
        | none => none
        | some t2 => some (found, t2)
      else some (vebFail, ⟨t.total_universe, t.layers.set (t.num_layers - 1) Lb⟩)

/-- The downward sweep of `veb_tree::return_multiple`, re-inserting summary
bits only over fully repopulated words. -/
def returnSweep : Nat → veb_tree → Nat → Nat → Option veb_tree
  | 0, t, _, _ => some t
  | i + 1, t, start_bit, num_contiguous =>
      match t.maybe_return_layer_bits i (start_bit / 64)
          ((start_bit + num_contiguous - 1) / 64 + 1 - start_bit / 64) with
      | none => none
      | some t2 =>
          returnSweep i t2 (start_bit / 64)
            ((start_bit + num_contiguous - 1) / 64 + 1 - start_bit / 64)

/-- Source `veb_tree::return_multiple(start_bit, num_contiguous)`. -/
def veb_tree.return_multiple (t : veb_tree) (start_bit num_contiguous : Nat) :
    Option veb_tree :=
  match (t.layerD (t.num_layers - 1)).return_multiple start_bit num_contiguous with
  | none => none
  | some Lb =>
      returnSweep (t.num_layers - 1)
        ⟨t.total_universe, t.layers.set (t.num_layers - 1) Lb⟩ start_bit num_contiguous

/-- C5: on the well-formed two-word layer with words `[0, 1023]` (free indices
64..73 only), `gather_multiple(20)` cannot find 20 contiguous free indices and
returns the fail sentinel `~0ULL` — but the layer's bit state is corrupted
rather than unchanged: after the last speculative attempt has already been
rolled back, the loop exit path executes a further
`rollback(0, num_needed - num_contiguous)` that sets the low ten bits of word
0, marking indices 0..9 free although they were never claimed by this call. -/
theorem gather_multiple_failure_corrupts :
    (⟨128, 2, [0, 1023]⟩ : layer).WF ∧
    layer.gather_multiple ⟨128, 2, [0, 1023]⟩ 20 =
      some (vebFail, ⟨128, 2, [1023, 1023]⟩) := by
  decide

/-- A well-formed universe-192 tree holding exactly the indices 64 and 65:
bottom words `[0, 3, 0]`, top summary word `2`. -/
def gatherTree192 : veb_tree := ⟨192, [⟨3, 1, [2]⟩, ⟨192, 3, [0, 3, 0]⟩]⟩

/-- C4 (counterexample): `gather_multiple(2)` on `gatherTree192` succeeds with
result 64, emptying bottom word 1 and clearing its summary bit; the immediate
`return_multiple(64, 2)` restores the bottom layer but
`maybe_return_layer_bits` re-inserts a summary bit only over words whose
popcount is 64, so the summary bit of word 1 (popcount 2) stays 0: the tree is
not restored to its pre-gather bit state at every layer. -/
theorem gather_return_not_inverse :
    gatherTree192.WF ∧
    gatherTree192.gather_multiple 2 =
      some (64, ⟨192, [⟨3, 1, [0]⟩, ⟨192, 3, [0, 0, 0]⟩]⟩) ∧
    veb_tree.return_multiple ⟨192, [⟨3, 1, [0]⟩, ⟨192, 3, [0, 0, 0]⟩]⟩ 64 2 =
      some ⟨192, [⟨3, 1, [0]⟩, ⟨192, 3, [0, 3, 0]⟩]⟩ ∧
    ((⟨192, [⟨3, 1, [0]⟩, ⟨192, 3, [0, 3, 0]⟩]⟩ : veb_tree).layerD 0).word 0 = 0 ∧
    (gatherTree192.layerD 0).word 0 = 2 := by
  decide

/-- Bit `pos` of a word array viewed as a flat bitvector. -/
def bitAt (bits : List Nat) (pos : Nat) : Bool := (bits.getD (pos / 64) 0).testBit (pos % 64)

/-- All words of the array (and the default beyond it) are 64-bit values. -/
def bitsBounded (bits : List Nat) : Prop := ∀ i, bits.getD i 0 < U64

theorem set_of_length_le {l : List Nat} {i : Nat} (h : l.length ≤ i) (v : Nat) :
    l.set i v = l := by
  induction l generalizing i with
  | nil => rfl
  | cons a t ih =>
    cases i with
    | zero => simp at h
    | succ i =>
      show a :: t.set i v = a :: t
      rw [ih (by simpa using h)]

theorem bitAt_set_self {bits : List Nat} {i : Nat} (h : i < bits.length) (v : Nat)
    {pos : Nat} (hpos : pos / 64 = i) :
    bitAt (bits.set i v) pos = v.testBit (pos % 64) := by
  rw [bitAt, hpos, getD_set_self h]

theorem bitAt_set_other {bits : List Nat} {i : Nat} (v : Nat) {pos : Nat}
    (h : i ≠ pos / 64) :
    bitAt (bits.set i v) pos = bitAt bits pos := by
  rw [bitAt, getD_set_other i h, bitAt]

theorem bounded_set {bits : List Nat} (hB : bitsBounded bits) {i v : Nat} (hv : v < U64) :
    bitsBounded (bits.set i v) := by
  intro j
  by_cases hl : i < bits.length
  · by_cases h : i = j
    · subst h
      rw [getD_set_self hl]
      exact hv
    · rw [getD_set_other i h]
      exact hB j
  · rw [set_of_length_le (by omega) v]
    exact hB j

theorem get?_eq_some_getD {bits : List Nat} {i : Nat} (h : i < bits.length) :
    bits.get? i = some (bits.getD i 0) := by
  rw [List.getD_eq_get?]
  cases hg : bits.get? i with
  | none => exact absurd (List.get?_eq_none.mp hg) (by omega)
  | some v => rfl

/-- Two bounded word arrays of the same length with the same flat bits are
equal. -/
theorem bits_ext {a b : List Nat} (hlen : a.length = b.length)
    (ha : bitsBounded a) (hb : bitsBounded b)
    (h : ∀ pos, bitAt a pos = bitAt b pos) : a = b := by
  apply List.ext_get?
  intro i
  by_cases hi : i < a.length
  · rw [get?_eq_some_getD hi, get?_eq_some_getD (by omega)]
    congr 1
    apply Nat.eq_of_testBit_eq
    intro j
    by_cases hj : j < 64
    · have hpos := h (64 * i + j)
      rw [bitAt, bitAt, show (64 * i + j) / 64 = i from by omega,
        show (64 * i + j) % 64 = j from by omega] at hpos
      exact hpos
    · rw [testBit_of_lt_u64 (ha i) (by omega), testBit_of_lt_u64 (hb i) (by omega)]
  · rw [List.get?_eq_none.mpr (by omega), List.get?_eq_none.mpr (by omega)]

/-- `rollbackGo` with a remainder of at most 64 bits is the single final OR,
at any fuel. -/
theorem rollbackGo_final {fuel : Nat} {bits : List Nat} {s k : Nat} (hk : k ≤ 64) :
    rollbackGo fuel bits s k =
      match bits.get? s with
      | none => none
      | some old => some (bits.set s (old ||| BITMASK k)) := by
  cases fuel with
  | zero => rfl
  | succ fuel =>
    show (if 64 < k then _ else _) = _
    rw [if_neg (by omega)]

/-- Net effect of `layer::rollback(s, 64*d + c)` for `1 ≤ c ≤ 64`: every bit of
the flat interval `[64*s, 64*s + 64*d + c)` is ORed in and nothing else
changes. -/
theorem rollbackGo_spec :
    ∀ d c fuel s bits, 1 ≤ c → c ≤ 64 → d ≤ fuel → s + d < bits.length →
      bitsBounded bits →
      ∃ bits2, rollbackGo fuel bits s (64 * d + c) = some bits2 ∧
        bits2.length = bits.length ∧ bitsBounded bits2 ∧
        ∀ pos, bitAt bits2 pos =
          (bitAt bits pos || decide (64 * s ≤ pos ∧ pos < 64 * s + (64 * d + c))) := by
  intro d
  induction d with
  | zero =>
    intro c fuel s bits hc1 hc64 _ hs hB
    simp only [Nat.mul_zero, Nat.zero_add]
    rw [rollbackGo_final (by omega), get?_eq_some_getD (by omega)]
    refine ⟨_, rfl, List.length_set bits s _,
      bounded_set hB (Nat.or_lt_two_pow (hB s) (BITMASK_lt hc64)), ?_⟩
    intro pos
    by_cases hp : pos / 64 = s
    · rw [bitAt_set_self (by omega) _ hp, Nat.testBit_or, testBit_BITMASK hc64, bitAt, hp]
      congr 1
      exact decide_eq_decide.mpr (by omega)
    · rw [bitAt_set_other _ (fun h => hp h.symm),
        decide_eq_false (by omega : ¬(64 * s ≤ pos ∧ pos < 64 * s + c)), Bool.or_false]
  | succ d ih =>
    intro c fuel s bits hc1 hc64 hf hs hB
    cases fuel with
    | zero => omega
    | succ fuel =>
      have hunf : rollbackGo (fuel + 1) bits s (64 * (d + 1) + c) =
          if 64 < 64 * (d + 1) + c then
            match bits.get? s with
            | none => none
            | some old =>
                rollbackGo fuel (bits.set s (old ||| BITMASK 64)) (s + 1)
                  (64 * (d + 1) + c - 64)
          else
            match bits.get? s with
            | none => none
            | some old => some (bits.set s (old ||| BITMASK (64 * (d + 1) + c))) := rfl
      rw [hunf, if_pos (by omega), get?_eq_some_getD (by omega)]
      dsimp only
      rw [show 64 * (d + 1) + c - 64 = 64 * d + c from by omega]
      obtain ⟨bits2, heq, hlen, hB2, hchar⟩ := ih c fuel (s + 1)
        (bits.set s (bits.getD s 0 ||| BITMASK 64)) hc1 hc64 (by omega)
        (by rw [List.length_set]; omega)
        (bounded_set hB (Nat.or_lt_two_pow (hB s) (BITMASK_lt (by omega))))
      refine ⟨bits2, heq, by rw [hlen, List.length_set], hB2, ?_⟩
      intro pos
      rw [hchar pos]
      by_cases hp : pos / 64 = s
      · rw [bitAt_set_self (by omega) _ hp, Nat.testBit_or, testBit_BITMASK (by omega),
          decide_eq_true (show pos % 64 < 64 from Nat.mod_lt _ (by omega)), Bool.or_true,
          Bool.true_or,
          decide_eq_true (show 64 * s ≤ pos ∧ pos < 64 * s + (64 * (d + 1) + c) from
            by omega),
          Bool.or_true]
      · rw [bitAt_set_other _ (fun h => hp h.symm)]
        congr 1
        exact decide_eq_decide.mpr (by omega)

/-- `returnGo` with the run confined to the current word is the single final
OR, at any fuel. -/
theorem returnGo_final {fuel : Nat} {bits : List Nat} {bi bs ni : Nat}
    (h : ni + bs ≤ 64) :
    returnGo fuel bits bi bs ni =
      match bits.get? bi with
      | none => none
      | some old => some (bits.set bi (old ||| (BITMASK ni <<< bs))) := by
  cases fuel with
  | zero => rfl
  | succ fuel =>
    show (if 64 < ni + bs then _ else _) = _
    rw [if_neg (by omega)]

/-- Net effect of `layer::return_multiple`'s word loop: every bit of the flat
interval `[64*bi + bs, 64*bi + bs + ni)` is ORed in and nothing else
changes. -/
theorem returnGo_spec :
    ∀ ni fuel bs bi bits, bs < 64 → ni ≤ fuel → 1 ≤ ni →
      64 * bi + bs + ni ≤ 64 * bits.length → bitsBounded bits →
      ∃ bits2, returnGo fuel bits bi bs ni = some bits2 ∧
        bits2.length = bits.length ∧ bitsBounded bits2 ∧
        ∀ pos, bitAt bits2 pos =
          (bitAt bits pos || decide (64 * bi + bs ≤ pos ∧ pos < 64 * bi + bs + ni)) := by
  intro ni
  induction ni using Nat.strong_induction_on with
  | _ ni ih =>
    intro fuel bs bi bits hbs hf hni hrange hB
    have hbilen : bi < bits.length := by omega
    by_cases hcond : 64 < ni + bs
    · cases fuel with
      | zero => omega
      | succ fuel =>
        have hunf : returnGo (fuel + 1) bits bi bs ni =
            if 64 < ni + bs then
              match bits.get? bi with
              | none => none
              | some old =>
                  returnGo fuel
                    (bits.set bi (old ||| (BITMASK (64 - bs) <<< bs)))
                    (bi + 1) 0 (ni - (64 - bs))
            else
              match bits.get? bi with
              | none => none
              | some old => some (bits.set bi (old ||| (BITMASK ni <<< bs))) := rfl
        rw [hunf, if_pos hcond, get?_eq_some_getD hbilen]
        dsimp only
        obtain ⟨bits2, heq, hlen, hB2, hchar⟩ := ih (ni - (64 - bs)) (by omega) fuel 0
          (bi + 1) (bits.set bi (bits.getD bi 0 ||| (BITMASK (64 - bs) <<< bs)))
          (by omega) (by omega) (by omega)
          (by rw [List.length_set]; omega)
          (bounded_set hB (Nat.or_lt_two_pow (hB bi) (BITMASK_shift_lt (by omega))))
        refine ⟨bits2, heq, by rw [hlen, List.length_set], hB2, ?_⟩
        intro pos
        rw [hchar pos]
        by_cases hp : pos / 64 = bi
        · rw [bitAt_set_self hbilen _ hp, Nat.testBit_or,
            testBit_BITMASK_shift (by omega),
            decide_eq_false (by omega : ¬(64 * (bi + 1) + 0 ≤ pos ∧
              pos < 64 * (bi + 1) + 0 + (ni - (64 - bs)))), Bool.or_false, bitAt, hp]
          congr 1
          exact decide_eq_decide.mpr (by omega)
        · rw [bitAt_set_other _ (fun h => hp h.symm)]
          congr 1
          exact decide_eq_decide.mpr (by omega)
    · rw [returnGo_final (by omega), get?_eq_some_getD hbilen]
      refine ⟨_, rfl, List.length_set bits bi _,
        bounded_set hB (Nat.or_lt_two_pow (hB bi) (BITMASK_shift_lt (by omega))), ?_⟩
      intro pos
      by_cases hp : pos / 64 = bi
      · rw [bitAt_set_self hbilen _ hp, Nat.testBit_or, testBit_BITMASK_shift (by omega),
          bitAt, hp]
        congr 1
        exact decide_eq_decide.mpr (by omega)
      · rw [bitAt_set_other _ (fun h => hp h.symm),
          decide_eq_false (by omega : ¬(64 * bi + bs ≤ pos ∧ pos < 64 * bi + bs + ni)),
          Bool.or_false]

theorem getD_eq_of_bitAt {a b : List Nat} (ha : bitsBounded a) (hb : bitsBounded b)
    {i : Nat} (h : ∀ j, j < 64 → bitAt a (64 * i + j) = bitAt b (64 * i + j)) :
    a.getD i 0 = b.getD i 0 := by
  apply Nat.eq_of_testBit_eq
  intro j
  by_cases hj : j < 64
  · have hx := h j hj
    rw [bitAt, bitAt, show (64 * i + j) / 64 = i from by omega,
      show (64 * i + j) % 64 = j from by omega] at hx
    exact hx
  · rw [testBit_of_lt_u64 (ha i) (by omega), testBit_of_lt_u64 (hb i) (by omega)]

/-- The speculative-claim restore identity: ANDing a word with the complement
of a mask and then ORing back the acquired-and-mask bits restores the word. -/
theorem and_compl_or_and {w m : Nat} (hw : w < U64) (hm : m < U64) :
    (w &&& compl64 m) ||| (m &&& w) = w := by
  apply Nat.eq_of_testBit_eq
  intro j
  rw [Nat.testBit_or, Nat.testBit_and, Nat.testBit_and, testBit_compl64 hm]
  by_cases hj : j < 64
  · simp only [hj, decide_True, Bool.true_and]
    cases w.testBit j <;> cases m.testBit j <;> rfl
  · rw [testBit_of_lt_u64 hw (by omega), testBit_of_lt_u64 hm (by omega)]
    rfl

/-- `gatherMidGo` with at most 64 bits still needed exits the loop, at any
fuel. -/
theorem gatherMidGo_final {n fuel : Nat} {bits : List Nat} {sb nc : Nat} (h : nc ≤ 64) :
    gatherMidGo n fuel bits sb nc = some (.ok bits sb nc) := by
  cases fuel with
  | zero => rfl
  | succ fuel =>
    show (if 64 < nc then _ else _) = _
    rw [if_neg (by omega)]

/-- Rolling back a state that differs from `orig` exactly by a cleared
interval of originally-set bits restores `orig` exactly. -/
theorem rollback_restores {orig bits : List Nat} {sb E : Nat}
    (hlen : bits.length = orig.length) (hBo : bitsBounded orig) (hBb : bitsBounded bits)
    (hE : E ≤ 64 * orig.length) (hlt : 64 * sb < E)
    (hrel : ∀ pos, bitAt bits pos = (bitAt orig pos && !decide (64 * sb ≤ pos ∧ pos < E)))
    (hset : ∀ pos, 64 * sb ≤ pos → pos < E → bitAt orig pos = true) :
    rollbackAux bits sb (E - 64 * sb) = some orig := by
  have hsd : sb + (E - 64 * sb - 1) / 64 < bits.length := by rw [hlen]; omega
  rw [rollbackAux,
    show E - 64 * sb = 64 * ((E - 64 * sb - 1) / 64) +
      (E - 64 * sb - 64 * ((E - 64 * sb - 1) / 64)) from by omega]
  obtain ⟨bits2, heq, hlen2, hB2, hchar⟩ := rollbackGo_spec ((E - 64 * sb - 1) / 64)
    (E - 64 * sb - 64 * ((E - 64 * sb - 1) / 64))
    (64 * ((E - 64 * sb - 1) / 64) + (E - 64 * sb - 64 * ((E - 64 * sb - 1) / 64)))
    sb bits (by omega) (by omega) (by omega) hsd hBb
  rw [heq]
  congr 1
  apply bits_ext (by omega) hB2 hBo
  intro pos
  rw [hchar pos, hrel pos]
  by_cases hI : 64 * sb ≤ pos ∧ pos < E
  · rw [decide_eq_true hI, decide_eq_true (show 64 * sb ≤ pos ∧
      pos < 64 * sb + (64 * ((E - 64 * sb - 1) / 64) +
        (E - 64 * sb - 64 * ((E - 64 * sb - 1) / 64))) from by omega),
      hset pos hI.1 hI.2]
    rfl
  · rw [decide_eq_false hI, decide_eq_false (show ¬(64 * sb ≤ pos ∧
      pos < 64 * sb + (64 * ((E - 64 * sb - 1) / 64) +
        (E - 64 * sb - 64 * ((E - 64 * sb - 1) / 64)))) from by omega),
      Bool.or_false, Bool.not_false, Bool.and_true]

/-- Invariant-carrying specification of the whole-word claiming loop of
`layer::gather_multiple`.  Entering with the interval `[64*sb, E)` of
originally-set bits already cleared and `nc` bits still needed, the loop
either traps (`none`), fails and restores the original state exactly, or
finishes having extended the cleared interval of originally-set bits downward
to a word boundary with at most 64 bits still needed. -/
theorem gatherMidGo_spec :
    ∀ nc fuel (bits orig : List Nat) sb n E,
      nc ≤ fuel → 1 ≤ nc →
      bits.length = orig.length → bitsBounded bits → bitsBounded orig →
      sb < orig.length → E ≤ 64 * orig.length → 64 * sb < E →
      n = nc + (E - 64 * sb) →
      (∀ pos, bitAt bits pos = (bitAt orig pos && !decide (64 * sb ≤ pos ∧ pos < E))) →
      (∀ pos, 64 * sb ≤ pos → pos < E → bitAt orig pos = true) →
      gatherMidGo n fuel bits sb nc = none ∨
      (∃ sb2 nc2, gatherMidGo n fuel bits sb nc = some (.fail orig sb2 nc2) ∧ sb2 < sb) ∨
      (∃ bits2 sb2 nc2, gatherMidGo n fuel bits sb nc = some (.ok bits2 sb2 nc2) ∧
        1 ≤ nc2 ∧ nc2 ≤ 64 ∧ sb2 ≤ sb ∧ sb2 < orig.length ∧
        bits2.length = orig.length ∧ bitsBounded bits2 ∧
        n = nc2 + (E - 64 * sb2) ∧ 64 * sb2 < E ∧
        (∀ pos, bitAt bits2 pos = (bitAt orig pos && !decide (64 * sb2 ≤ pos ∧ pos < E))) ∧
        (∀ pos, 64 * sb2 ≤ pos → pos < E → bitAt orig pos = true)) := by
  intro nc
  induction nc using Nat.strong_induction_on with
  | _ nc ih =>
    intro fuel bits orig sb n E hf hnc1 hlen hBb hBo hsb hE hlt hn hrel hset
    by_cases hcond : 64 < nc
    · cases fuel with
      | zero => omega
      | succ fuel =>
        have hunf : gatherMidGo n (fuel + 1) bits sb nc =
            if 64 < nc then
              if sb = 0 then none
              else
                match bits.get? (sb - 1) with
                | none => none
                | some acquired =>
                    if popcll acquired ≠ 64 then
                      match rollbackAux
                          ((bits.set (sb - 1) 0).set (sb - 1) (0 ||| acquired))
                          sb (n - nc) with
                      | none => none
                      | some bits3 => some (.fail bits3 (sb - 1) nc)
                    else
                      gatherMidGo n fuel (bits.set (sb - 1) 0) (sb - 1) (nc - 64)
            else some (.ok bits sb nc) := rfl
        rw [hunf, if_pos hcond]
        by_cases hsb0 : sb = 0
        · rw [if_pos hsb0]
          left
          rfl
        · rw [if_neg hsb0, get?_eq_some_getD (show sb - 1 < bits.length from by omega)]
          dsimp only
          have hacqo : bits.getD (sb - 1) 0 = orig.getD (sb - 1) 0 := by
            apply getD_eq_of_bitAt hBb hBo
            intro j hj
            rw [hrel (64 * (sb - 1) + j), decide_eq_false (by omega : ¬(64 * sb ≤
              64 * (sb - 1) + j ∧ 64 * (sb - 1) + j < E)), Bool.not_false, Bool.and_true]
          by_cases hpop : popcll (bits.getD (sb - 1) 0) ≠ 64
          · rw [if_pos hpop]
            have hrest : (bits.set (sb - 1) 0).set (sb - 1) (0 ||| bits.getD (sb - 1) 0) =
                bits := by
              rw [List.set_set, Nat.zero_or, set_getD_self (by omega)]
            rw [hrest, show n - nc = E - 64 * sb from by omega,
              rollback_restores hlen hBo hBb hE hlt hrel hset]
            right
            left
            exact ⟨sb - 1, nc, rfl, by omega⟩
          · rw [if_neg hpop]
            have hacqU : bits.getD (sb - 1) 0 = U64 - 1 :=
              (popcll_eq_64_iff (hBb (sb - 1))).mp (by omega)
            have hrel2 : ∀ pos, bitAt (bits.set (sb - 1) 0) pos =
                (bitAt orig pos && !decide (64 * (sb - 1) ≤ pos ∧ pos < E)) := by
              intro pos
              by_cases hp : pos / 64 = sb - 1
              · rw [bitAt_set_self (by omega) _ hp, Nat.zero_testBit,
                  decide_eq_true (show 64 * (sb - 1) ≤ pos ∧ pos < E from by omega),
                  Bool.not_true, Bool.and_false]
              · rw [bitAt_set_other _ (fun h => hp h.symm), hrel pos]
                congr 2
                exact decide_eq_decide.mpr (by omega)
            have hset2 : ∀ pos, 64 * (sb - 1) ≤ pos → pos < E → bitAt orig pos = true := by
              intro pos h1 h2
              by_cases hge : 64 * sb ≤ pos
              · exact hset pos hge h2
              · have hp : pos / 64 = sb - 1 := by omega
                rw [bitAt, hp, ← hacqo, hacqU, testBit_ones64]
                exact decide_eq_true (by omega)
            rcases ih (nc - 64) (by omega) fuel (bits.set (sb - 1) 0) orig (sb - 1) n E
              (by omega) (by omega) (by rw [List.length_set]; omega)
              (bounded_set hBb two_pow_64_pos) hBo (by omega) hE (by omega) (by omega)
              hrel2 hset2 with hno | ⟨sb2, nc2, heq2, hs2⟩ |
                ⟨bits2, sb2, nc2, heq2, h1, h2, h3, h4, h5, h6, h7, h8, h9, h10⟩
            · left
              exact hno
            · right
              left
              exact ⟨sb2, nc2, heq2, by omega⟩
            · right
              right
              exact ⟨bits2, sb2, nc2, heq2, h1, h2, by omega, h4, h5, h6, h7, h8, h9, h10⟩
    · rw [gatherMidGo_final (by omega)]
      right
      right
      exact ⟨bits, sb, nc, rfl, hnc1, by omega, le_refl sb, hsb, hlen, hBb, hn, hlt,
        hrel, hset⟩

theorem and_eq_mask_of_set {w m : Nat} (h : ∀ j, m.testBit j = true → w.testBit j = true) :
    w &&& m = m := by
  apply Nat.eq_of_testBit_eq
  intro j
  rw [Nat.testBit_and]
  cases hm : m.testBit j
  · rw [Bool.and_false]
  · rw [h j hm, Bool.true_and]

/-- One `start_block ≠ 0` entry of the outer gather loop, run on the original
bit state: it either traps (`none`), returns a run of previously-set bits with
exactly that run cleared, or continues with the bit state restored to the
original and a strictly lower scan position. -/
theorem gatherStep_spec (n : Nat) (orig : List Nat) (sb nc : Nat)
    (hB : bitsBounded orig) (hsb : sb < orig.length) (hn : 1 ≤ n) (hsb0 : sb ≠ 0) :
    gatherStep n orig sb nc = .out none ∨
    (∃ r bits2, gatherStep n orig sb nc = .out (some (r, bits2)) ∧
      bits2.length = orig.length ∧ bitsBounded bits2 ∧ r + n ≤ 64 * orig.length ∧
      (∀ pos, r ≤ pos → pos < r + n → bitAt orig pos = true) ∧
      (∀ pos, bitAt bits2 pos = (bitAt orig pos && !decide (r ≤ pos ∧ pos < r + n)))) ∨
    (∃ sb2 nc2, gatherStep n orig sb nc = .again orig sb2 nc2 ∧ sb2 < sb) := by
  have hw : orig.getD sb 0 < U64 := hB sb
  obtain ⟨hcs64, hcslow, _⟩ := cfcll_spec hw
  unfold gatherStep
  rw [if_neg hsb0, get?_eq_some_getD hsb]
  dsimp only
  by_cases hcs0 : cfcll (orig.getD sb 0) = 0
  · rw [if_pos hcs0]
    right; right
    exact ⟨sb - 1, n, rfl, by omega⟩
  · rw [if_neg hcs0]
    by_cases hncs : n ≤ cfcll (orig.getD sb 0)
    · -- special case: the run fits below the low contiguous free section
      rw [if_pos hncs]
      have hmask : (orig.getD sb 0) &&& (BITMASK n <<< (cfcll (orig.getD sb 0) - n)) =
          BITMASK n <<< (cfcll (orig.getD sb 0) - n) := by
        apply and_eq_mask_of_set
        intro j hj
        rw [testBit_BITMASK_shift (by omega)] at hj
        have hx := of_decide_eq_true hj
        exact hcslow j (by omega)
      have hpopc : popcll ((orig.getD sb 0) &&&
          (BITMASK n <<< (cfcll (orig.getD sb 0) - n))) = n := by
        rw [hmask, popcll_BITMASK_shift (by omega)]
      rw [if_pos hpopc]
      right; left
      have hmlt : BITMASK n <<< (cfcll (orig.getD sb 0) - n) < U64 :=
        BITMASK_shift_lt (by omega)
      refine ⟨sb * 64 + (cfcll (orig.getD sb 0) - n), _, rfl, List.length_set orig sb _,
        bounded_set hB (lt_of_le_of_lt Nat.and_le_left hw), by omega, ?_, ?_⟩
      · intro pos h1 h2
        rw [bitAt, show pos / 64 = sb from by omega]
        exact hcslow (pos % 64) (by omega)
      · intro pos
        by_cases hp : pos / 64 = sb
        · rw [bitAt_set_self hsb _ hp, Nat.testBit_and, testBit_compl64 hmlt,
            testBit_BITMASK_shift (by omega),
            decide_eq_true (show pos % 64 < 64 from by omega), Bool.true_and, bitAt, hp]
          congr 2
          exact decide_eq_decide.mpr (by omega)
        · rw [bitAt_set_other _ (fun h => hp h.symm),
            decide_eq_false (show ¬(sb * 64 + (cfcll (orig.getD sb 0) - n) ≤ pos ∧
              pos < sb * 64 + (cfcll (orig.getD sb 0) - n) + n) from by omega),
            Bool.not_false, Bool.and_true]
    · -- multi-word case
      rw [if_neg hncs]
      have hmask1 : (orig.getD sb 0) &&& BITMASK (cfcll (orig.getD sb 0)) =
          BITMASK (cfcll (orig.getD sb 0)) := by
        apply and_eq_mask_of_set
        intro j hj
        rw [testBit_BITMASK hcs64] at hj
        exact hcslow j (of_decide_eq_true hj)
      have hpopc1 : popcll ((orig.getD sb 0) &&& BITMASK (cfcll (orig.getD sb 0))) =
          cfcll (orig.getD sb 0) := by
        have hp0 := @popcll_BITMASK_shift (cfcll (orig.getD sb 0)) 0 (by omega)
        rw [Nat.shiftLeft_zero] at hp0
        rw [hmask1, hp0]
      rw [if_pos hpopc1,
        show gatherMiddle n
          (orig.set sb ((orig.getD sb 0) &&& compl64 (BITMASK (cfcll (orig.getD sb 0)))))
          sb (n - cfcll (orig.getD sb 0)) =
        gatherMidGo n (n - cfcll (orig.getD sb 0))
          (orig.set sb ((orig.getD sb 0) &&& compl64 (BITMASK (cfcll (orig.getD sb 0)))))
          sb (n - cfcll (orig.getD sb 0)) from rfl]
      have hrel1 : ∀ pos, bitAt
          (orig.set sb ((orig.getD sb 0) &&& compl64 (BITMASK (cfcll (orig.getD sb 0)))))
          pos = (bitAt orig pos &&
            !decide (64 * sb ≤ pos ∧ pos < 64 * sb + cfcll (orig.getD sb 0))) := by
        intro pos
        by_cases hp : pos / 64 = sb
        · rw [bitAt_set_self hsb _ hp, Nat.testBit_and, testBit_compl64 (BITMASK_lt hcs64),
            testBit_BITMASK hcs64, decide_eq_true (show pos % 64 < 64 from by omega),
            Bool.true_and, bitAt, hp]
          congr 2
          exact decide_eq_decide.mpr (by omega)
        · rw [bitAt_set_other _ (fun h => hp h.symm),
            decide_eq_false (show ¬(64 * sb ≤ pos ∧
              pos < 64 * sb + cfcll (orig.getD sb 0)) from by omega),
            Bool.not_false, Bool.and_true]
      have hset1 : ∀ pos, 64 * sb ≤ pos → pos < 64 * sb + cfcll (orig.getD sb 0) →
          bitAt orig pos = true := by
        intro pos h1 h2
        rw [bitAt, show pos / 64 = sb from by omega]
        exact hcslow (pos % 64) (by omega)
      rcases gatherMidGo_spec (n - cfcll (orig.getD sb 0)) (n - cfcll (orig.getD sb 0))
        (orig.set sb ((orig.getD sb 0) &&& compl64 (BITMASK (cfcll (orig.getD sb 0)))))
        orig sb n (64 * sb + cfcll (orig.getD sb 0)) (le_refl _) (by omega)
        (List.length_set orig sb _) (bounded_set hB (lt_of_le_of_lt Nat.and_le_left hw))
        hB hsb (by omega) (by omega) (by omega) hrel1 hset1 with
        hno | ⟨sb2, nc2, heqm, hs2⟩ |
        ⟨bits3, sb2, nc2, heqm, h1, h2, h3, h4, h5, h6, h7, h8, h9, h10⟩
      · rw [hno]
        left
        rfl
      · rw [heqm]
        right; right
        exact ⟨sb2, nc2, rfl, by omega⟩
      · rw [heqm]
        dsimp only
        by_cases hsb20 : sb2 = 0
        · rw [if_pos hsb20]
          left
          rfl
        · rw [if_neg hsb20, get?_eq_some_getD (show sb2 - 1 < bits3.length from by omega)]
          dsimp only
          have hfbo : bits3.getD (sb2 - 1) 0 = orig.getD (sb2 - 1) 0 := by
            apply getD_eq_of_bitAt h6 hB
            intro j hj
            rw [h9 (64 * (sb2 - 1) + j),
              decide_eq_false (show ¬(64 * sb2 ≤ 64 * (sb2 - 1) + j ∧
                64 * (sb2 - 1) + j < 64 * sb + cfcll (orig.getD sb 0)) from by omega),
              Bool.not_false, Bool.and_true]
          have hfblt : bits3.getD (sb2 - 1) 0 < U64 := h6 (sb2 - 1)
          have hmflt : BITMASK nc2 <<< (64 - nc2) < U64 := BITMASK_shift_lt (by omega)
          by_cases hfp : popcll (bits3.getD (sb2 - 1) 0 &&& (BITMASK nc2 <<< (64 - nc2))) =
              nc2
          · rw [if_pos hfp]
            right; left
            have hforce := countP_antitone_of_eq (List.range 64)
              (fun j => (bits3.getD (sb2 - 1) 0 &&& (BITMASK nc2 <<< (64 - nc2))).testBit j)
              (fun j => (BITMASK nc2 <<< (64 - nc2)).testBit j)
              (fun a _ hpa => by
                dsimp only at hpa ⊢
                rw [Nat.testBit_and] at hpa
                exact (Bool.and_eq_true_iff.mp hpa).2)
              (hfp.trans (popcll_BITMASK_shift (show 64 - nc2 + nc2 ≤ 64 from
                by omega)).symm)
            have hfbset : ∀ j, 64 - nc2 ≤ j → j < 64 →
                (bits3.getD (sb2 - 1) 0).testBit j = true := by
              intro j hj1 hj2
              have hx := hforce j (List.mem_range.mpr hj2)
                (by dsimp only
                    rw [testBit_BITMASK_shift (by omega)]
                    exact decide_eq_true ⟨hj1, by omega⟩)
              dsimp only at hx
              rw [Nat.testBit_and] at hx
              exact (Bool.and_eq_true_iff.mp hx).1
            refine ⟨(sb2 - 1) * 64 + 64 - nc2, _, rfl, ?_, ?_, by omega, ?_, ?_⟩
            · rw [List.length_set, h5]
            · exact bounded_set h6 (lt_of_le_of_lt Nat.and_le_left hfblt)
            · intro pos hr1 hr2
              by_cases hge : 64 * sb2 ≤ pos
              · exact h10 pos hge (by omega)
              · rw [bitAt, show pos / 64 = sb2 - 1 from by omega, ← hfbo]
                exact hfbset (pos % 64) (by omega) (by omega)
            · intro pos
              by_cases hp : pos / 64 = sb2 - 1
              · rw [bitAt_set_self (show sb2 - 1 < bits3.length from by omega) _ hp,
                  Nat.testBit_and, testBit_compl64 hmflt, testBit_BITMASK_shift (by omega),
                  decide_eq_true (show pos % 64 < 64 from by omega), Bool.true_and,
                  bitAt, hp, ← hfbo]
                congr 2
                exact decide_eq_decide.mpr (by omega)
              · rw [bitAt_set_other _ (fun h => hp h.symm), h9 pos]
                congr 2
                exact decide_eq_decide.mpr (by omega)
          · rw [if_neg hfp]
            have hrest : (bits3.set (sb2 - 1)
                (bits3.getD (sb2 - 1) 0 &&& compl64 (BITMASK nc2 <<< (64 - nc2)))).set
                  (sb2 - 1)
                  ((bits3.getD (sb2 - 1) 0 &&& compl64 (BITMASK nc2 <<< (64 - nc2))) |||
                    ((BITMASK nc2 <<< (64 - nc2)) &&& bits3.getD (sb2 - 1) 0)) = bits3 := by
              rw [List.set_set, and_compl_or_and hfblt hmflt,
                set_getD_self (show sb2 - 1 < bits3.length from by omega)]
            rw [hrest, show n - nc2 = (64 * sb + cfcll (orig.getD sb 0)) - 64 * sb2 from
              by omega,
              rollback_restores h5 hB h6 (by omega) h8 h9 h10]
            right; right
            exact ⟨sb2 - 1, nc2, rfl, by omega⟩

/-- Success analysis of the fuelled outer gather loop run on the original bit
state: a non-sentinel result `r` means the run `[r, r+n)` consisted of set
bits and exactly that run has been cleared. -/
theorem gatherLoop_success :
    ∀ fuel n (orig : List Nat) sb nc r bits2,
      bitsBounded orig → sb < orig.length → 1 ≤ n →
      gatherLoop n fuel orig sb nc = some (r, bits2) → r ≠ vebFail →
      bits2.length = orig.length ∧ bitsBounded bits2 ∧ r + n ≤ 64 * orig.length ∧
      (∀ pos, r ≤ pos → pos < r + n → bitAt orig pos = true) ∧
      (∀ pos, bitAt bits2 pos = (bitAt orig pos && !decide (r ≤ pos ∧ pos < r + n))) := by
  intro fuel
  induction fuel with
  | zero =>
    intro n orig sb nc r bits2 _ _ _ heq _
    exact Option.noConfusion heq
  | succ fuel ih =>
    intro n orig sb nc r bits2 hB hsb hn heq hr
    have hunf : gatherLoop n (fuel + 1) orig sb nc =
        match gatherStep n orig sb nc with
        | .out res => res
        | .again bits3 sb2 nc2 => gatherLoop n fuel bits3 sb2 nc2 := rfl
    rw [hunf] at heq
    by_cases hsb0 : sb = 0
    · subst hsb0
      have hstep : gatherStep n orig 0 nc =
          match rollbackAux orig 0 (n - nc) with
          | none => .out none
          | some bits3 => .out (some (vebFail, bits3)) := by
        unfold gatherStep
        rw [if_pos rfl]
      rw [hstep] at heq
      cases hrb : rollbackAux orig 0 (n - nc) with
      | none =>
        rw [hrb] at heq
        exact Option.noConfusion heq
      | some b3 =>
        rw [hrb] at heq
        dsimp only at heq
        injection heq with h
        injection h with h1 h2
        exact absurd h1.symm hr
    · rcases gatherStep_spec n orig sb nc hB hsb hn hsb0 with
        hno | ⟨r2, b2, hqs, hp1, hp2, hp3, hp4, hp5⟩ | ⟨sb2, nc2, hqs, hlt2⟩
      · rw [hno] at heq
        exact Option.noConfusion heq
      · rw [hqs] at heq
        dsimp only at heq
        injection heq with h
        injection h with h1 h2
        subst h1
        subst h2
        exact ⟨hp1, hp2, hp3, hp4, hp5⟩
      · rw [hqs] at heq
        dsimp only at heq
        exact ih n orig sb2 nc2 r bits2 hB (by omega) hn heq hr

theorem WF_bitsBounded {L : layer} (hWF : L.WF) : bitsBounded L.bits := by
  intro i
  by_cases h : i < L.bits.length
  · exact hWF.2.2.1 i h
  · have hz := @word_eq_zero_of_ge L _ (le_of_not_lt h)
    rw [layer.word] at hz
    rw [hz]
    exact two_pow_64_pos

/-- Leaf-level gather/return inverse: when `layer::gather_multiple(n)` succeeds
with a non-sentinel result `r`, `return_multiple(r, n)` restores the layer's
bit state exactly. -/
theorem layer_gather_return_inverse {L : layer} {n r : Nat} {L2 : layer}
    (hWF : L.WF) (hn : 1 ≤ n) (hres : L.gather_multiple n = some (r, L2))
    (hr : r ≠ vebFail) :
    L2.return_multiple r n = some L ∧ L2.bits.length = L.bits.length ∧
      L2.universe_size = L.universe_size ∧ L2.num_blocks = L.num_blocks ∧
      r + n ≤ 64 * L.bits.length := by
  have hnb : 0 < L.num_blocks := by
    rw [hWF.1]
    exact layerNumBlocks_pos _
  have hlen : L.bits.length = L.num_blocks := hWF.2.1
  have hBo : bitsBounded L.bits := WF_bitsBounded hWF
  unfold layer.gather_multiple at hres
  cases hgl : gatherLoop n (L.num_blocks + 1) L.bits (L.num_blocks - 1) n with
  | none =>
    rw [hgl] at hres
    exact Option.noConfusion hres
  | some p =>
    rw [hgl] at hres
    dsimp only at hres
    injection hres with h
    obtain ⟨found, bits2⟩ := p
    injection h with h1 h2
    have h1s : r = found := h1.symm
    subst h1s
    obtain ⟨hl2, hB2, hrange, hset, hrel⟩ := gatherLoop_success (L.num_blocks + 1) n
      L.bits (L.num_blocks - 1) n r bits2 hBo (by omega) hn hgl hr
    subst h2
    refine ⟨?_, hl2, rfl, rfl, hrange⟩
    unfold layer.return_multiple
    show (match returnMultipleAux bits2 (r / 64) (r % 64) n with
      | none => none
      | some bits3 => some ⟨L.universe_size, L.num_blocks, bits3⟩) = some L
    rw [returnMultipleAux]
    obtain ⟨bits3, heq3, hl3, hB3, hrel3⟩ := returnGo_spec n (n + r % 64) (r % 64)
      (r / 64) bits2 (by omega) (by omega) hn (by omega) hB2
    rw [heq3]
    dsimp only
    have hbits : bits3 = L.bits := by
      apply bits_ext (by omega) hB3 hBo
      intro pos
      rw [hrel3 pos, hrel pos,
        show 64 * (r / 64) + r % 64 = r from by omega]
      by_cases hI : r ≤ pos ∧ pos < r + n
      · rw [decide_eq_true hI, hset pos hI.1 hI.2]
        rfl
      · rw [decide_eq_false hI, Bool.or_false, Bool.not_false, Bool.and_true]
    rw [hbits]

/-- Effect of `layers[l]->remove(high, low)` on the tree state. -/
theorem layerRemoveAt_preserves {t : veb_tree} {l a b old : Nat} {t3 : veb_tree}
    (h : layerRemoveAt t l a b = some (old, t3)) :
    t3.total_universe = t.total_universe ∧ t3.num_layers = t.num_layers ∧
      (∀ j, j ≠ l → t3.layerD j = t.layerD j) ∧
      (∀ j, (t3.layerD j).bits.length = (t.layerD j).bits.length) := by
  unfold layerRemoveAt at h
  cases hg : t.layers.get? l with
  | none =>
    rw [hg] at h
    exact Option.noConfusion h
  | some L =>
    rw [hg] at h
    dsimp only at h
    have hl : l < t.num_layers := by
      rw [veb_tree.num_layers]
      by_contra hc
      rw [List.get?_eq_none.mpr (by omega)] at hg
      exact Option.noConfusion hg
    have hLD : t.layerD l = L := by
      have hx := layers_get? hl
      rw [hg] at hx
      exact (Option.some_inj.mp hx).symm
    unfold layer.remove at h
    cases hg2 : L.bits.get? a with
    | none =>
      rw [hg2] at h
      exact Option.noConfusion h
    | some w =>
      rw [hg2] at h
      dsimp only at h
      injection h with h'
      injection h' with h1 h2
      have h2s : t3 = ⟨t.total_universe,
          t.layers.set l ⟨L.universe_size, L.num_blocks,
            L.bits.set a (w &&& compl64 (SET_BIT_MASK b))⟩⟩ := h2.symm
      subst h2s
      refine ⟨rfl, num_layers_set _, fun j hj => layerD_set_other j (fun hx => hj hx.symm) _,
        ?_⟩
      intro j
      by_cases hj : j = l
      · subst hj
        rw [layerD_set_self hl, hLD]
        exact List.length_set L.bits a _
      · rw [layerD_set_other j (fun hx => hj hx.symm)]

/-- Effect of `layers[l]->insert(high, low)` on the tree state (projection of
`layerInsertAt_spec` without in-range hypotheses). -/
theorem layerInsertAt_preserves {t : veb_tree} {l a b old : Nat} {t3 : veb_tree}
    (h : layerInsertAt t l a b = some (old, t3)) :
    t3.total_universe = t.total_universe ∧ t3.num_layers = t.num_layers ∧
      (∀ j, j ≠ l → t3.layerD j = t.layerD j) ∧
      (∀ j, (t3.layerD j).bits.length = (t.layerD j).bits.length) := by
  unfold layerInsertAt at h
  cases hg : t.layers.get? l with
  | none =>
    rw [hg] at h
    exact Option.noConfusion h
  | some L =>
    rw [hg] at h
    dsimp only at h
    have hl : l < t.num_layers := by
      rw [veb_tree.num_layers]
      by_contra hc
      rw [List.get?_eq_none.mpr (by omega)] at hg
      exact Option.noConfusion hg
    have hLD : t.layerD l = L := by
      have hx := layers_get? hl
      rw [hg] at hx
      exact (Option.some_inj.mp hx).symm
    unfold layer.insert at h
    cases hg2 : L.bits.get? a with
    | none =>
      rw [hg2] at h
      exact Option.noConfusion h
    | some w =>
      rw [hg2] at h
      dsimp only at h
      injection h with h'
      injection h' with h1 h2
      have h2s : t3 = ⟨t.total_universe,
          t.layers.set l ⟨L.universe_size, L.num_blocks,
            L.bits.set a (w ||| SET_BIT_MASK b)⟩⟩ := h2.symm
      subst h2s
      refine ⟨rfl, num_layers_set _, fun j hj => layerD_set_other j (fun hx => hj hx.symm) _,
        ?_⟩
      intro j
      by_cases hj : j = l
      · subst hj
        rw [layerD_set_self hl, hLD]
        exact List.length_set L.bits a _
      · rw [layerD_set_other j (fun hx => hj hx.symm)]

/-- The `maybe_remove_layer_bits` word loop leaves every layer other than `l`
untouched and preserves the geometry. -/
theorem maybeRemoveAux_preserves (l : Nat) :
    ∀ k t wb t2, maybeRemoveAux l t wb k = some t2 →
      t2.total_universe = t.total_universe ∧ t2.num_layers = t.num_layers ∧
      (∀ j, j ≠ l → t2.layerD j = t.layerD j) ∧
      (∀ j, (t2.layerD j).bits.length = (t.layerD j).bits.length) := by
  intro k
  induction k with
  | zero =>
    intro t wb t2 h
    injection h with h'
    subst h'
    exact ⟨rfl, rfl, fun _ _ => rfl, fun _ => rfl⟩
  | succ k ih =>
    intro t wb t2 h
    have hunf : maybeRemoveAux l t wb (k + 1) =
        match (t.layerD (l + 1)).bits.get? wb with
        | none => none
        | some w =>
            if w = 0 then
              match layerRemoveAt t l (wb / 64) (wb % 64) with
              | none => none
              | some (_, t3) => maybeRemoveAux l t3 (wb + 1) k
            else maybeRemoveAux l t (wb + 1) k := rfl
    rw [hunf] at h
    cases hg : (t.layerD (l + 1)).bits.get? wb with
    | none =>
      rw [hg] at h
      exact Option.noConfusion h
    | some w =>
      rw [hg] at h
      dsimp only at h
      by_cases hw : w = 0
      · rw [if_pos hw] at h
        cases hra : layerRemoveAt t l (wb / 64) (wb % 64) with
        | none =>
          rw [hra] at h
          exact Option.noConfusion h
        | some p =>
          obtain ⟨old, t3⟩ := p
          rw [hra] at h
          dsimp only at h
          obtain ⟨hu3, hn3, hoth3, hlen3⟩ := layerRemoveAt_preserves hra
          obtain ⟨hu2, hn2, hoth2, hlen2⟩ := ih t3 (wb + 1) t2 h
          exact ⟨hu2.trans hu3, hn2.trans hn3,
            fun j hj => (hoth2 j hj).trans (hoth3 j hj),
            fun j => (hlen2 j).trans (hlen3 j)⟩
      · rw [if_neg hw] at h
        exact ih t (wb + 1) t2 h

/-- The downward removal sweep of `veb_tree::gather_multiple` leaves the
layers at or above its entry index (in particular the leaf layer) untouched. -/
theorem gatherSweep_preserves :
    ∀ c t f k t2, gatherSweep c t f k = some t2 →
      t2.total_universe = t.total_universe ∧ t2.num_layers = t.num_layers ∧
      (∀ j, c ≤ j → t2.layerD j = t.layerD j) ∧
      (∀ j, (t2.layerD j).bits.length = (t.layerD j).bits.length) := by
  intro c
  induction c with
  | zero =>
    intro t f k t2 h
    injection h with h'
    subst h'
    exact ⟨rfl, rfl, fun _ _ => rfl, fun _ => rfl⟩
  | succ i ih =>
    intro t f k t2 h
    have hunf : gatherSweep (i + 1) t f k =
        match t.maybe_remove_layer_bits i (f / 64) ((f + k - 1) / 64 + 1 - f / 64) with
        | none => none
        | some t3 =>
            gatherSweep i t3 (f / 64) ((f + k - 1) / 64 + 1 - f / 64) := rfl
    rw [hunf, veb_tree.maybe_remove_layer_bits] at h
    cases hmr : maybeRemoveAux i t (f / 64) ((f + k - 1) / 64 + 1 - f / 64) with
    | none =>
      rw [hmr] at h
      exact Option.noConfusion h
    | some t3 =>
      rw [hmr] at h
      dsimp only at h
      obtain ⟨hu3, hn3, hoth3, hlen3⟩ := maybeRemoveAux_preserves i _ t _ t3 hmr
      obtain ⟨hu2, hn2, hoth2, hlen2⟩ := ih t3 _ _ t2 h
      exact ⟨hu2.trans hu3, hn2.trans hn3,
        fun j hj => (hoth2 j (by omega)).trans (hoth3 j (by omega)),
        fun j => (hlen2 j).trans (hlen3 j)⟩

/-- The `maybe_return_layer_bits` word loop succeeds whenever the scanned
range lies inside layer `l + 1`, touching only layer `l`. -/
theorem maybeInsertAux_ok (l : Nat) :
    ∀ k t wb,
      l + 1 < t.num_layers →
      wb + k ≤ (t.layerD (l + 1)).bits.length →
      (t.layerD (l + 1)).bits.length ≤ 64 * (t.layerD l).bits.length →
      ∃ t2, maybeInsertAux l t wb k = some t2 ∧
        t2.total_universe = t.total_universe ∧ t2.num_layers = t.num_layers ∧
        (∀ j, j ≠ l → t2.layerD j = t.layerD j) ∧
        (∀ j, (t2.layerD j).bits.length = (t.layerD j).bits.length) := by
  intro k
  induction k with
  | zero =>
    intro t wb _ _ _
    exact ⟨t, rfl, rfl, rfl, fun _ _ => rfl, fun _ => rfl⟩
  | succ k ih =>
    intro t wb h1 h2 h3
    have hunf : maybeInsertAux l t wb (k + 1) =
        match (t.layerD (l + 1)).bits.get? wb with
        | none => none
        | some w =>
            if popcll w = 64 then
              match layerInsertAt t l (wb / 64) (wb % 64) with
              | none => none
              | some (_, t3) => maybeInsertAux l t3 (wb + 1) k
            else maybeInsertAux l t (wb + 1) k := rfl
    rw [hunf, get?_eq_some_getD (show wb < (t.layerD (l + 1)).bits.length from by omega)]
    dsimp only
    by_cases hw : popcll ((t.layerD (l + 1)).bits.getD wb 0) = 64
    · rw [if_pos hw]
      have hh : wb / 64 < (t.layerD l).bits.length := by omega
      rw [layerInsertAt_spec (show l < t.num_layers from by omega) hh]
      dsimp only
      obtain ⟨t2, heq, hu, hn, hoth, hlen⟩ := ih (setTreeOr t l (wb / 64) (wb % 64)) (wb + 1)
        (by rw [setTreeOr_num_layers]; exact h1)
        (by rw [setTreeOr_layerD_other t (l + 1) (by omega)]; omega)
        (by rw [setTreeOr_layerD_other t (l + 1) (by omega),
              setTreeOr_layerD_self (show l < t.num_layers from by omega), setWordOr_length]
            exact h3)
      refine ⟨t2, heq, hu.trans (setTreeOr_universe t l _ _),
        hn.trans (setTreeOr_num_layers t l _ _), ?_, ?_⟩
      · intro j hj
        rw [hoth j hj, setTreeOr_layerD_other t j (fun hx => hj hx.symm)]
      · intro j
        rw [hlen j]
        by_cases hj : j = l
        · rw [hj, setTreeOr_layerD_self (show l < t.num_layers from by omega),
            setWordOr_length]
        · rw [setTreeOr_layerD_other t j (fun hx => hj hx.symm)]
    · rw [if_neg hw]
      exact ih t (wb + 1) h1 (by omega) h3

/-- The downward re-insertion sweep of `veb_tree::return_multiple` succeeds
whenever the covered word ranges stay inside each layer, and leaves the layers
at or above its entry index untouched. -/
theorem returnSweep_ok :
    ∀ c t f k,
      c < t.num_layers →
      (∀ j, j + 1 < t.num_layers →
        (t.layerD (j + 1)).bits.length ≤ 64 * (t.layerD j).bits.length) →
      1 ≤ k → f + k ≤ 64 * (t.layerD c).bits.length →
      ∃ t2, returnSweep c t f k = some t2 ∧
        t2.total_universe = t.total_universe ∧ t2.num_layers = t.num_layers ∧
        (∀ j, c ≤ j → t2.layerD j = t.layerD j) ∧
        (∀ j, (t2.layerD j).bits.length = (t.layerD j).bits.length) := by
  intro c
  induction c with
  | zero =>
    intro t f k _ _ _ _
    exact ⟨t, rfl, rfl, rfl, fun _ _ => rfl, fun _ => rfl⟩
  | succ i ih =>
    intro t f k hc hlinks hk hrange
    have hli := hlinks i hc
    have hunf : returnSweep (i + 1) t f k =
        match t.maybe_return_layer_bits i (f / 64) ((f + k - 1) / 64 + 1 - f / 64) with
        | none => none
        | some t3 => returnSweep i t3 (f / 64) ((f + k - 1) / 64 + 1 - f / 64) := rfl
    rw [hunf, veb_tree.maybe_return_layer_bits]
    obtain ⟨t3, heq3, hu3, hn3, hoth3, hlen3⟩ := maybeInsertAux_ok i
      ((f + k - 1) / 64 + 1 - f / 64) t (f / 64) hc (by omega) hli
    rw [heq3]
    dsimp only
    obtain ⟨t2, heq2, hu2, hn2, hoth2, hlen2⟩ := ih t3 (f / 64)
      ((f + k - 1) / 64 + 1 - f / 64)
      (by rw [hn3]; omega)
      (by intro j hj
          rw [hlen3, hlen3]
          exact hlinks j (by rw [hn3] at hj; exact hj))
      (by omega)
      (by rw [hlen3 i]; omega)
    exact ⟨t2, heq2, hu2.trans hu3, hn2.trans hn3,
      fun j hj => (hoth2 j (by omega)).trans (hoth3 j (by omega)),
      fun j => (hlen2 j).trans (hlen3 j)⟩

/-- The tree state after `gather_multiple(2)` on `gatherTree192`. -/
def treeAfterGather192 : veb_tree := ⟨192, [⟨3, 1, [0]⟩, ⟨192, 3, [0, 0, 0]⟩]⟩

/-- C4 (amended): the gather/return inverse holds exactly at the leaf layer.
When `veb_tree::gather_multiple(n)` succeeds with a non-sentinel result `r`,
an immediate `return_multiple(r, n)` succeeds and restores the leaf (bottom)
layer to exactly its pre-gather bit state, preserving the universe and the
layer count.  The upper summary layers are not restored in general:
`maybe_return_layer_bits` re-inserts a summary bit only over words whose
popcount is 64, so a summary bit cleared by the gather over a word that is
only partially repopulated stays 0 (see the counterexample). -/
theorem gather_return_restores_bottom (t : veb_tree) (n r : Nat) (t2 : veb_tree)
    (hWF : t.WF) (hn : 1 ≤ n)
    (hres : t.gather_multiple n = some (r, t2)) (hr : r ≠ vebFail) :
    ∃ t3, t2.return_multiple r n = some t3 ∧
      t3.bottom = t.bottom ∧ t3.total_universe = t.total_universe ∧
      t3.num_layers = t.num_layers := by
  have h1 : 0 < t.num_layers := hWF.1
  have hleafWF : (t.layerD (t.num_layers - 1)).WF := hWF.2.2.2.2.1 _ (by omega)
  have hlinksT : ∀ j, j + 1 < t.num_layers →
      (t.layerD (j + 1)).bits.length ≤ 64 * (t.layerD j).bits.length := by
    intro j hj
    have hWFj := hWF.2.2.2.2.1 j (by omega)
    have hWFj1 := hWF.2.2.2.2.1 (j + 1) hj
    have hlink := hWF.2.2.2.2.2.1 j (by omega)
    rw [hWFj1.2.1, hWFj1.1, hWFj.2.1, hWFj.1, hlink, layerNumBlocks, layerNumBlocks]
    omega
  unfold veb_tree.gather_multiple at hres
  cases hgl : (t.layerD (t.num_layers - 1)).gather_multiple n with
  | none =>
    rw [hgl] at hres
    exact Option.noConfusion hres
  | some p =>
    obtain ⟨found, Lb⟩ := p
    rw [hgl] at hres
    dsimp only at hres
    by_cases hfv : found ≠ vebFail
    · rw [if_pos hfv] at hres
      cases hsw : gatherSweep (t.num_layers - 1)
          ⟨t.total_universe, t.layers.set (t.num_layers - 1) Lb⟩ found n with
      | none =>
        rw [hsw] at hres
        exact Option.noConfusion hres
      | some ts =>
        rw [hsw] at hres
        dsimp only at hres
        injection hres with h
        injection h with h1' h2'
        have h1s : r = found := h1'.symm
        subst h1s
        have h2s : t2 = ts := h2'.symm
        subst h2s
        obtain ⟨hret, hl2len, hl2u, hl2nb, hrange⟩ :=
          layer_gather_return_inverse hleafWF hn hgl hr
        obtain ⟨hsu, hsn, hsoth, hslen⟩ := gatherSweep_preserves (t.num_layers - 1) _ r n t2 hsw
        have hT1n : (veb_tree.mk t.total_universe
            (t.layers.set (t.num_layers - 1) Lb)).num_layers = t.num_layers :=
          num_layers_set _
        have hT1bot : (veb_tree.mk t.total_universe
            (t.layers.set (t.num_layers - 1) Lb)).layerD (t.num_layers - 1) = Lb :=
          layerD_set_self (by omega) _
        have hT1oth : ∀ j, j ≠ t.num_layers - 1 →
            (veb_tree.mk t.total_universe
              (t.layers.set (t.num_layers - 1) Lb)).layerD j = t.layerD j :=
          fun j hj => layerD_set_other j (fun hx => hj hx.symm) _
        have hT1len : ∀ j, ((veb_tree.mk t.total_universe
            (t.layers.set (t.num_layers - 1) Lb)).layerD j).bits.length =
            (t.layerD j).bits.length := by
          intro j
          by_cases hj : j = t.num_layers - 1
          · subst hj
            rw [hT1bot, hl2len]
          · rw [hT1oth j hj]
        have ht2n : t2.num_layers = t.num_layers := hsn.trans hT1n
        have ht2u : t2.total_universe = t.total_universe := hsu
        have ht2bot : t2.layerD (t.num_layers - 1) = Lb :=
          (hsoth _ (le_refl _)).trans hT1bot
        have ht2len : ∀ j, (t2.layerD j).bits.length = (t.layerD j).bits.length :=
          fun j => (hslen j).trans (hT1len j)
        unfold veb_tree.return_multiple
        rw [ht2n, ht2bot, hret]
        dsimp only
        have hT4n : (veb_tree.mk t2.total_universe
            (t2.layers.set (t.num_layers - 1) (t.layerD (t.num_layers - 1)))).num_layers =
            t2.num_layers := num_layers_set _
        have hT4bot : (veb_tree.mk t2.total_universe
            (t2.layers.set (t.num_layers - 1) (t.layerD (t.num_layers - 1)))).layerD
              (t.num_layers - 1) = t.layerD (t.num_layers - 1) :=
          layerD_set_self (by rw [ht2n]; omega) _
        have hT4oth : ∀ j, j ≠ t.num_layers - 1 →
            (veb_tree.mk t2.total_universe
              (t2.layers.set (t.num_layers - 1) (t.layerD (t.num_layers - 1)))).layerD j =
              t2.layerD j :=
          fun j hj => layerD_set_other j (fun hx => hj hx.symm) _
        have hT4len : ∀ j, ((veb_tree.mk t2.total_universe
            (t2.layers.set (t.num_layers - 1) (t.layerD (t.num_layers - 1)))).layerD
              j).bits.length = (t.layerD j).bits.length := by
          intro j
          by_cases hj : j = t.num_layers - 1
          · subst hj
            rw [hT4bot]
          · rw [hT4oth j hj, ht2len j]
        obtain ⟨t3, heq3, hu3, hn3, hoth3, hlen3⟩ := returnSweep_ok (t.num_layers - 1)
          (veb_tree.mk t2.total_universe
            (t2.layers.set (t.num_layers - 1) (t.layerD (t.num_layers - 1)))) r n
          (by rw [hT4n, ht2n]; omega)
          (by intro j hj
              rw [hT4len, hT4len]
              apply hlinksT
              rw [hT4n, ht2n] at hj
              exact hj)
          hn
          (by rw [hT4bot]; exact hrange)
        have hn3' : t3.num_layers = t.num_layers := hn3.trans (hT4n.trans ht2n)
        refine ⟨t3, heq3, ?_, hu3.trans ht2u, hn3'⟩
        rw [veb_tree.bottom, veb_tree.bottom, hn3', hoth3 _ (le_refl _), hT4bot]
    · rw [if_neg hfv] at hres
      injection hres with h
      injection h with h1' h2'
      exact absurd h1'.symm hr

/-- Witness for `gather_return_restores_bottom`: the universe-192 tree holding
{64, 65}, gathering a run of 2 at index 64 and returning it. -/
theorem gather_return_restores_bottom_witness :
    gatherTree192.WF ∧ (1 : Nat) ≤ 2 ∧
      gatherTree192.gather_multiple 2 = some (64, treeAfterGather192) ∧
      (64 : Nat) ≠ vebFail ∧
      (∃ t3, treeAfterGather192.return_multiple 64 2 = some t3 ∧
        t3.bottom = gatherTree192.bottom ∧
        t3.total_universe = gatherTree192.total_universe ∧
        t3.num_layers = gatherTree192.num_layers) :=
  ⟨by decide, by decide, by decide, by decide,
    gather_return_restores_bottom gatherTree192 2 64 treeAfterGather192 (by decide)
      (by decide) (by decide) (by decide)⟩

theorem set_get?_self {α : Type} {l : List α} {i : Nat} {v : α} (h : l.get? i = some v) :
    l.set i v = l := by
  induction l generalizing i with
  | nil => rfl
  | cons a t ih =>
    cases i with
    | zero =>
      injection h with h'
      rw [List.set, h']
    | succ i =>
      show a :: t.set i v = a :: t
      rw [ih h]

/-- The segment table (`alloc_table<bytes_per_segment, min_size>`): per-segment
size-class binding, signed active-block counter, flat dequeue counter and block
ring queue.  Block pointers are represented by global block ids, `none` being
`nullptr`. -/
structure alloc_table where
  bytes_per_segment : Nat
  min_size : Nat
  num_segments : Nat
  blocks_per_segment : Nat
  chunk_ids : List Nat
  active_counts : List Int
  queue_counters : List Nat
  queues : List (Option Nat)

/-- Source `get_p2_from_index(index) = 1ULL << index`. -/
def get_p2_from_index (i : Nat) : Nat := 1 <<< i

/-- Source `alloc_table::get_tree_alloc_size(tree) = min_size * (1 << tree)`. -/
def alloc_table.get_tree_alloc_size (tbl : alloc_table) (tree : Nat) : Nat :=
  tbl.min_size * get_p2_from_index tree

/-- Source `alloc_table::get_blocks_per_segment(tree)`. -/
def alloc_table.get_blocks_per_segment (tbl : alloc_table) (tree : Nat) : Nat :=
  tbl.bytes_per_segment / (tbl.get_tree_alloc_size tree * 4096)

/-- Source `alloc_table::get_max_allocations_per_segment()`. -/
def alloc_table.get_max_allocations_per_segment (tbl : alloc_table) : Nat :=
  tbl.bytes_per_segment / tbl.min_size

/-- Outcome of `get_block`: `nullptr` fail, the `asm volatile ("trap;")` abort
on a dead ring entry, or a block together with the `empty` flag. -/
inductive GetBlockRes where
  | fail (tbl : alloc_table)
  | trap (tbl : alloc_table)
  | ok (blockId : Nat) (empty : Bool) (tbl : alloc_table)

/-- Source `alloc_table::get_block(segment_id, tree_id, empty)`: atomically
decrement the active count (keeping the fetched old value); a negative fetch
means exhausted, so add the slot back and fail; a stale size-class binding
likewise returns the slot and fails; otherwise take a queue position and claim
the block either fresh from the flat array or recycled from the ring queue
(trapping on a dead entry), and report `empty` exactly when the fetched count
was zero.  Out-of-range array accesses yield `none`. -/
def alloc_table.get_block (tbl : alloc_table) (segment_id tree_id : Nat) :
    Option GetBlockRes :=
  match tbl.active_counts.get? segment_id with
  | none => none
  | some active_count =>
      let tbl1 := { tbl with
        active_counts := tbl.active_counts.set segment_id (active_count - 1) }
      if active_count < 0 then
        some (.fail { tbl1 with
          active_counts := tbl1.active_counts.set segment_id (active_count - 1 + 1) })
      else
        match tbl.chunk_ids.get? segment_id with
        | none => none
        | some global_tree_id =>
            if global_tree_id ≠ tree_id then
              some (.fail { tbl1 with
                active_counts := tbl1.active_counts.set segment_id (active_count - 1 + 1) })
            else
              match tbl.queue_counters.get? segment_id with
              | none => none
              | some queue_pos =>
                  let tbl2 := { tbl1 with
                    queue_counters :=
                      tbl1.queue_counters.set segment_id ((queue_pos + 1) % 2 ^ 32) }
                  if queue_pos < tbl.get_blocks_per_segment tree_id then
                    some (.ok (segment_id * tbl.blocks_per_segment + queue_pos)
                      (decide (active_count = 0)) tbl2)
                  else
                    match tbl2.queues.get? (segment_id * tbl.blocks_per_segment +
                        queue_pos % tbl.get_blocks_per_segment tree_id) with
                    | none => none
                    | some slot =>
                        let tbl3 := { tbl2 with
                          queues := tbl2.queues.set (segment_id * tbl.blocks_per_segment +
                            queue_pos % tbl.get_blocks_per_segment tree_id) none }
                        match slot with
                        | none => some (.trap tbl3)
                        | some bid =>
                            some (.ok bid (decide (active_count = 0)) tbl3)

/-- C6: `get_block` on a segment bound to `tree`: the active count is fetched
and decremented atomically; a negative fetched value means exhausted — the
decrement is rolled back, leaving the table unchanged, and the call fails;
otherwise a block is returned (fresh below the dequeue watermark, recycled
from the ring above it, trapping only on a dead ring entry) with the counter
net-decremented by one and `empty` true exactly when the fetched count was
zero. -/
theorem get_block_spec (tbl : alloc_table) (seg tree : Nat) (old : Int) (qp : Nat)
    (hseg : tbl.active_counts.get? seg = some old)
    (hchunk : tbl.chunk_ids.get? seg = some tree)
    (hq : tbl.queue_counters.get? seg = some qp) :
    (old < 0 → tbl.get_block seg tree = some (.fail tbl)) ∧
    (0 ≤ old → qp < tbl.get_blocks_per_segment tree →
      tbl.get_block seg tree = some (.ok (seg * tbl.blocks_per_segment + qp)
        (decide (old = 0))
        { tbl with active_counts := tbl.active_counts.set seg (old - 1),
                   queue_counters := tbl.queue_counters.set seg ((qp + 1) % 2 ^ 32) })) ∧
    (0 ≤ old → tbl.get_blocks_per_segment tree ≤ qp →
      ∀ slot, tbl.queues.get? (seg * tbl.blocks_per_segment +
          qp % tbl.get_blocks_per_segment tree) = some slot →
        (slot = none → tbl.get_block seg tree = some (.trap
          { tbl with active_counts := tbl.active_counts.set seg (old - 1),
                     queue_counters := tbl.queue_counters.set seg ((qp + 1) % 2 ^ 32),
                     queues := tbl.queues.set (seg * tbl.blocks_per_segment +
                       qp % tbl.get_blocks_per_segment tree) none })) ∧
        (∀ bid, slot = some bid →
          tbl.get_block seg tree = some (.ok bid (decide (old = 0))
            { tbl with active_counts := tbl.active_counts.set seg (old - 1),
                       queue_counters := tbl.queue_counters.set seg ((qp + 1) % 2 ^ 32),
                       queues := tbl.queues.set (seg * tbl.blocks_per_segment +
                         qp % tbl.get_blocks_per_segment tree) none }))) := by
  refine ⟨?_, ?_, ?_⟩
  · intro hold
    unfold alloc_table.get_block
    rw [hseg]
    dsimp only
    rw [if_pos hold, Int.sub_add_cancel, List.set_set, set_get?_self hseg]
  · intro hold hfresh
    unfold alloc_table.get_block
    rw [hseg]
    dsimp only
    rw [if_neg (by omega), hchunk]
    dsimp only
    rw [if_neg (by omega : ¬tree ≠ tree), hq]
    dsimp only
    rw [if_pos hfresh]
  · intro hold hring slot hslot
    constructor
    · intro hsl
      subst hsl
      unfold alloc_table.get_block
      rw [hseg]
      dsimp only
      rw [if_neg (by omega), hchunk]
      dsimp only
      rw [if_neg (by omega : ¬tree ≠ tree), hq]
      dsimp only
      rw [if_neg (by omega : ¬qp < tbl.get_blocks_per_segment tree)]
      rw [hslot]
    · intro bid hsl
      subst hsl
      unfold alloc_table.get_block
      rw [hseg]
      dsimp only
      rw [if_neg (by omega), hchunk]
      dsimp only
      rw [if_neg (by omega : ¬tree ≠ tree), hq]
      dsimp only
      rw [if_neg (by omega : ¬qp < tbl.get_blocks_per_segment tree)]
      rw [hslot]

/-- A concrete two-segment table: segment 0 is bound to tree 0 with three
active blocks and an untouched dequeue counter. -/
def sampleTable : alloc_table :=
  ⟨65536, 16, 2, 1, [0, 65535], [3, 0], [0, 0], [some 7, none]⟩

/-- Witness for `get_block_spec`: on `sampleTable`, segment 0, tree 0, the
fetched count 3 is non-negative and below the watermark, so a fresh block is
claimed with `empty = false` and the counter decremented. -/
theorem get_block_spec_witness :
    sampleTable.active_counts.get? 0 = some 3 ∧
    sampleTable.chunk_ids.get? 0 = some 0 ∧
    sampleTable.queue_counters.get? 0 = some 0 ∧
    (0 : Int) ≤ 3 ∧ 0 < sampleTable.get_blocks_per_segment 0 ∧
    sampleTable.get_block 0 0 = some (.ok (0 * sampleTable.blocks_per_segment + 0)
      (decide ((3 : Int) = 0))
      { sampleTable with active_counts := sampleTable.active_counts.set 0 (3 - 1),
                         queue_counters := sampleTable.queue_counters.set 0 ((0 + 1) % 2 ^ 32) }) :=
  ⟨rfl, rfl, rfl, by decide, by decide,
    (get_block_spec sampleTable 0 0 3 0 rfl rfl rfl).2.1 (by decide) (by decide)⟩

/-- Per-thread progress through `finish_freeing_block`: before its
`return_slot_to_segment`, between the add and its CAS attempt (entered only
when the fetched value equalled `num_blocks - 2`), or finished with the
function's boolean result. -/
inductive ThreadSt where
  | start
  | added (old : Int)
  | done (res : Bool)
deriving DecidableEq

def isStart : ThreadSt → Bool
  | .start => true
  | _ => false

def isAdded : ThreadSt → Bool
  | .added _ => true
  | _ => false

def isTrue : ThreadSt → Bool
  | .done true => true
  | _ => false

/-- One atomic event of `finish_freeing_block` by thread `i` on the shared
`active_counts[segment]` counter: the `atomicAdd` fetches the old value and,
unless it equals `num_blocks - 2` (`all_blocks_free`), the thread returns
false at once; the `atomicCAS(num_blocks-1, -1)` succeeds exactly when the
counter reads `num_blocks - 1`.  Events of finished or unknown threads leave
the state unchanged. -/
def freeStep (nb : Nat) (st : Int × List ThreadSt) (i : Nat) : Int × List ThreadSt :=
  match st.2.get? i with
  | none => st
  | some .start =>
      (st.1 + 1,
        st.2.set i (if st.1 = (nb : Int) - 2 then .added st.1 else .done false))
  | some (.added _) =>
      if st.1 = (nb : Int) - 1 then (-1, st.2.set i (.done true))
      else (st.1, st.2.set i (.done false))
  | some (.done _) => st

/-- A full interleaving: the scheduler picks which thread performs its next
atomic event at each step. -/
def freeRun (nb : Nat) (st : Int × List ThreadSt) (sched : List Nat) :
    Int × List ThreadSt :=
  sched.foldl (freeStep nb) st

theorem countP_set {α : Type} (p : α → Bool) :
    ∀ (l : List α) (i : Nat) (a v : α), l.get? i = some a →
      (l.set i v).countP p + (if p a then 1 else 0) =
        l.countP p + (if p v then 1 else 0) := by
  intro l
  induction l with
  | nil => intro i a v h; exact Option.noConfusion h
  | cons x t ih =>
    intro i a v h
    cases i with
    | zero =>
      injection h with h'
      subst h'
      rw [List.set]
      rw [List.countP_cons, List.countP_cons]
      omega
    | succ i =>
      rw [List.set]
      rw [List.countP_cons, List.countP_cons]
      have := ih i a v h
      omega

theorem countP_replicate {α : Type} (p : α → Bool) (a : α) :
    ∀ n, (List.replicate n a).countP p = if p a then n else 0 := by
  intro n
  induction n with
  | zero => simp
  | succ n ih =>
    rw [List.replicate, List.countP_cons, ih]
    by_cases h : p a
    · simp [h]
    · simp [h]

/-- The reachable-states invariant of concurrent `finish_freeing_block` on one
segment: either some threads are still to add and the counter sits below full
accordingly, or the single thread whose add fetched `num_blocks - 2` is poised
to CAS with the counter full, or that CAS has succeeded, the counter is `-1`
and exactly one thread has returned true. -/
def FreeInv (nb : Nat) (st : Int × List ThreadSt) : Prop :=
  (st.2.countP isTrue = 0 ∧ st.2.countP isAdded = 0 ∧ 1 ≤ st.2.countP isStart ∧
    st.1 = (nb : Int) - 1 - st.2.countP isStart) ∨
  (st.2.countP isTrue = 0 ∧ st.2.countP isAdded = 1 ∧ st.2.countP isStart = 0 ∧
    st.1 = (nb : Int) - 1) ∨
  (st.2.countP isTrue = 1 ∧ st.2.countP isAdded = 0 ∧ st.2.countP isStart = 0 ∧
    st.1 = -1)

theorem freeStep_inv {nb : Nat} {st : Int × List ThreadSt} (hI : FreeInv nb st)
    (i : Nat) : FreeInv nb (freeStep nb st i) := by
  unfold FreeInv at hI ⊢
  unfold freeStep
  cases hg : st.2.get? i with
  | none => exact hI
  | some v =>
    cases v with
    | start =>
      dsimp only
      have hmem : 0 < st.2.countP isStart := by
        rw [List.countP_pos]
        exact ⟨ThreadSt.start, List.get?_mem hg, rfl⟩
      by_cases hc : st.1 = (nb : Int) - 2
      · rw [if_pos hc]
        have hsT := countP_set isTrue st.2 i ThreadSt.start (ThreadSt.added st.1) hg
        have hsA := countP_set isAdded st.2 i ThreadSt.start (ThreadSt.added st.1) hg
        have hsS := countP_set isStart st.2 i ThreadSt.start (ThreadSt.added st.1) hg
        simp [isTrue, isAdded, isStart] at hsT hsA hsS
        try dsimp only
        omega
      · rw [if_neg hc]
        have hsT := countP_set isTrue st.2 i ThreadSt.start (ThreadSt.done false) hg
        have hsA := countP_set isAdded st.2 i ThreadSt.start (ThreadSt.done false) hg
        have hsS := countP_set isStart st.2 i ThreadSt.start (ThreadSt.done false) hg
        simp [isTrue, isAdded, isStart] at hsT hsA hsS
        try dsimp only
        omega
    | added old =>
      dsimp only
      have hmem : 0 < st.2.countP isAdded := by
        rw [List.countP_pos]
        exact ⟨ThreadSt.added old, List.get?_mem hg, rfl⟩
      by_cases hc : st.1 = (nb : Int) - 1
      · rw [if_pos hc]
        have hsT := countP_set isTrue st.2 i (ThreadSt.added old) (ThreadSt.done true) hg
        have hsA := countP_set isAdded st.2 i (ThreadSt.added old) (ThreadSt.done true) hg
        have hsS := countP_set isStart st.2 i (ThreadSt.added old) (ThreadSt.done true) hg
        simp [isTrue, isAdded, isStart] at hsT hsA hsS
        try dsimp only
        omega
      · rw [if_neg hc]
        have hsT := countP_set isTrue st.2 i (ThreadSt.added old) (ThreadSt.done false) hg
        have hsA := countP_set isAdded st.2 i (ThreadSt.added old) (ThreadSt.done false) hg
        have hsS := countP_set isStart st.2 i (ThreadSt.added old) (ThreadSt.done false) hg
        simp [isTrue, isAdded, isStart] at hsT hsA hsS
        try dsimp only
        omega
    | done res => exact hI

theorem freeRun_inv {nb : Nat} :
    ∀ (sched : List Nat) (st : Int × List ThreadSt), FreeInv nb st →
      FreeInv nb (freeRun nb st sched) := by
  intro sched
  induction sched with
  | nil => intro st h; exact h
  | cons i rest ih =>
    intro st h
    exact ih (freeStep nb st i) (freeStep_inv h i)

/-- C7: exactly one hand-back per fill cycle.  `t ≥ 1` threads concurrently
finish freeing one block each of a segment with `num_blocks = nb`, so the
shared counter starts at `nb - 1 - t` and each thread runs
`finish_freeing_block`: atomically add 1 keeping the fetched value, and
attempt `atomicCAS(nb-1 → -1)` only when the fetch equalled `nb - 2`.  Under
every schedule that runs all threads to completion, exactly one thread
returns true — that thread alone detaches the segment and hands it back to
the global tree. -/
theorem finish_freeing_exactly_one (nb t : Nat) (sched : List Nat)
    (h1 : 1 ≤ t)
    (hdone :
      (freeRun nb ((nb : Int) - 1 - t, List.replicate t ThreadSt.start) sched).2.countP
        isStart = 0 ∧
      (freeRun nb ((nb : Int) - 1 - t, List.replicate t ThreadSt.start) sched).2.countP
        isAdded = 0) :
    (freeRun nb ((nb : Int) - 1 - t, List.replicate t ThreadSt.start) sched).2.countP
      isTrue = 1 := by
  have hinit : FreeInv nb ((nb : Int) - 1 - t, List.replicate t ThreadSt.start) := by
    refine Or.inl ⟨?_, ?_, ?_, ?_⟩
    · simp [countP_replicate, isTrue]
    · simp [countP_replicate, isAdded]
    · rw [countP_replicate]
      simpa [isStart] using h1
    · rw [countP_replicate]
      simp [isStart]
  have hI := freeRun_inv sched ((nb : Int) - 1 - t, List.replicate t ThreadSt.start) hinit
  unfold FreeInv at hI
  omega

/-- Witness for `finish_freeing_exactly_one`: a segment with 4 blocks, 3
returning threads and the schedule that runs them in order; the third thread's
add fetches 2 = nb - 2 and its CAS succeeds. -/
theorem finish_freeing_exactly_one_witness :
    (1 ≤ 3 ∧
      (freeRun 4 ((4 : Int) - 1 - ((3 : Nat) : Int), List.replicate 3 ThreadSt.start)
        [0, 1, 2, 2]).2.countP isStart = 0 ∧
      (freeRun 4 ((4 : Int) - 1 - ((3 : Nat) : Int), List.replicate 3 ThreadSt.start)
        [0, 1, 2, 2]).2.countP isAdded = 0) ∧
    (freeRun 4 ((4 : Int) - 1 - ((3 : Nat) : Int), List.replicate 3 ThreadSt.start)
      [0, 1, 2, 2]).2.countP isTrue = 1 :=
  ⟨⟨by decide, by decide, by decide⟩,
    finish_freeing_exactly_one 4 3 [0, 1, 2, 2] (by decide) ⟨by decide, by decide⟩⟩

/-- Attempt bounds from `global_allocator.cuh`. -/
def REQUEST_BLOCK_MAX_ATTEMPTS : Nat := 1000

def GALLATIN_MALLOC_LOOP_ATTEMPTS : Nat := 10

def GALLATIN_MALLOC_BLOCK_ATTEMPTS : Nat := 500

def GALLATIN_MALLOC_SEGMENT_ATTEMPTS : Nat := 500

/-- The environment a single thread observes across iterations of
`request_new_block_from_tree`, indexed by iteration: the segment produced by
`find_random_valid_index` (`none` = fail sentinel), whether
`acquire_tree_lock` succeeds, the result of `gather_new_segment`
(`none` = -1), and the result of `table->get_block` (`none` = `nullptr`,
otherwise the block and the `last_block` flag). -/
structure ReqEnv where
  findSegment : Nat → Option Nat
  lockFree : Nat → Bool
  gather : Nat → Option Nat
  getBlock : Nat → Option (Nat × Bool)

/-- Outcome of the request loop at a given fuel. -/
inductive ReqRes where
  | ok (block : Nat)
  | fail
  | outOfFuel
deriving DecidableEq

/-- The `while (attempts < REQUEST_BLOCK_MAX_ATTEMPTS)` loop of
`request_new_block_from_tree`, fuelled over loop entries.  `attempts` is
incremented only when the tree lock was won and `gather_new_segment`
returned -1; the lock-acquisition-failure path (`//attempts++;` is commented
out in the source) and the `get_block == nullptr` path re-enter the loop with
`attempts` unchanged. -/
def reqLoop (env : ReqEnv) : Nat → Nat → Nat → ReqRes
  | 0, _, _ => .outOfFuel
  | fuel + 1, it, attempts =>
      if attempts < REQUEST_BLOCK_MAX_ATTEMPTS then
        match env.findSegment it with
        | none =>
            if env.lockFree it then
              match env.gather it with
              | none => reqLoop env fuel (it + 1) (attempts + 1)
              | some _ =>
                  match env.getBlock it with
                  | some blk => .ok blk.1
                  | none => reqLoop env fuel (it + 1) attempts
            else reqLoop env fuel (it + 1) attempts
        | some _ =>
            match env.getBlock it with
            | some blk => .ok blk.1
            | none => reqLoop env fuel (it + 1) attempts
      else .fail

/-- Adversarial environment: the sub-tree is empty and the tree lock is held
permanently by another thread. -/
def advEnv : ReqEnv := ⟨fun _ => none, fun _ => false, fun _ => none, fun _ => none⟩

theorem reqLoop_adv_spins : ∀ fuel it, reqLoop advEnv fuel it 0 = .outOfFuel := by
  intro fuel
  induction fuel with
  | zero => intro it; rfl
  | succ fuel ih =>
    intro it
    show (if 0 < REQUEST_BLOCK_MAX_ATTEMPTS then reqLoop advEnv fuel (it + 1) 0
      else .fail) = .outOfFuel
    rw [if_pos (by decide)]
    exact ih (it + 1)

/-- C8 (counterexample): under a permanently held tree lock and an empty
sub-tree, `request_new_block_from_tree` does not execute a bounded number of
loop iterations before returning: the lock-failure path never increments
`attempts`, so after 1001 loop entries — more than the nominal
`REQUEST_BLOCK_MAX_ATTEMPTS = 1000` bound — the loop has neither returned a
block nor failed, and it spins this way forever. -/
theorem request_block_unbounded :
    REQUEST_BLOCK_MAX_ATTEMPTS = 1000 ∧
    reqLoop advEnv 1001 0 0 = .outOfFuel :=
  ⟨rfl, reqLoop_adv_spins 1001 0⟩

/-- The `while (offset == ~0ULL && attempt_counter < bound)` retry loops of
`Gallatin::malloc`, structurally recursing on the remaining attempt budget
(`bound - attempt_counter`); `att i` is the offset produced by the i-th
allocation attempt. -/
def mallocLoopGo (att : Nat → Nat) : Nat → Nat → Nat → Nat
  | 0, _, offset => offset
  | rem + 1, counter, offset =>
      if offset = vebFail then mallocLoopGo att rem (counter + 1) (att counter)
      else offset

/-- A `malloc` retry loop entered with `offset = ~0ULL` and
`attempt_counter = 0`. -/
def malloc_retry_loop (att : Nat → Nat) (bound : Nat) : Nat :=
  mallocLoopGo att bound 0 vebFail

theorem mallocLoopGo_spec (att : Nat → Nat) :
    ∀ rem counter offset,
      (offset = vebFail ∨ ∃ i, i < counter ∧ offset = att i ∧ att i ≠ vebFail) →
      (mallocLoopGo att rem counter offset = vebFail ∨
        ∃ i, i < counter + rem ∧ mallocLoopGo att rem counter offset = att i ∧
          att i ≠ vebFail) := by
  intro rem
  induction rem with
  | zero =>
    intro counter offset h
    rcases h with h | ⟨i, hi, he, hne⟩
    · left
      exact h
    · right
      exact ⟨i, by omega, he, hne⟩
  | succ rem ih =>
    intro counter offset h
    have hunf : mallocLoopGo att (rem + 1) counter offset =
        if offset = vebFail then mallocLoopGo att rem (counter + 1) (att counter)
        else offset := rfl
    rw [hunf]
    by_cases ho : offset = vebFail
    · rw [if_pos ho]
      have hrec := ih (counter + 1) (att counter) (by
        by_cases ha : att counter = vebFail
        · left
          exact ha
        · right
          exact ⟨counter, by omega, rfl, ha⟩)
      rcases hrec with h1 | ⟨i, hi, he, hne⟩
      · left
        exact h1
      · right
        exact ⟨i, by omega, he, hne⟩
    · rw [if_neg ho]
      rcases h with h1 | ⟨i, hi, he, hne⟩
      · exact absurd h1 ho
      · right
        exact ⟨i, by omega, he, hne⟩

/-- C8 (amended): the retry loops of `malloc` are genuinely attempt-bounded —
each iteration increments `attempt_counter`, so the loop ends within its
bound either with a successful attempt's offset or with the fail sentinel
(`malloc` then returns `nullptr`).  `request_new_block_from_tree`, by
contrast, bounds only iterations that win the tree lock and fail to gather a
segment: when the allocator is full and the lock is always available, it does
return failure within `REQUEST_BLOCK_MAX_ATTEMPTS` loop entries — but the
lock-failure and `get_block == nullptr` paths leave `attempts` unchanged, so
the loop is not bounded under contention (see the counterexample). -/
theorem bounded_retry_loops (att : Nat → Nat) (bound : Nat) (env : ReqEnv)
    (hful : ∀ it, env.findSegment it = none ∧ env.lockFree it = true ∧
      env.gather it = none) :
    (malloc_retry_loop att bound = vebFail ∨
      ∃ i, i < bound ∧ malloc_retry_loop att bound = att i ∧ att i ≠ vebFail) ∧
    (∀ it a fuel, REQUEST_BLOCK_MAX_ATTEMPTS - a < fuel →
      reqLoop env fuel it a = .fail) := by
  constructor
  · have h := mallocLoopGo_spec att bound 0 vebFail (Or.inl rfl)
    rcases h with h1 | ⟨i, hi, he, hne⟩
    · left
      exact h1
    · right
      exact ⟨i, by omega, he, hne⟩
  · intro it a fuel
    induction fuel generalizing it a with
    | zero => intro h; omega
    | succ fuel ih =>
      intro h
      show (if a < REQUEST_BLOCK_MAX_ATTEMPTS then
        match env.findSegment it with
        | none =>
            if env.lockFree it then
              match env.gather it with
              | none => reqLoop env fuel (it + 1) (a + 1)
              | some _ =>
                  match env.getBlock it with
                  | some blk => .ok blk.1
                  | none => reqLoop env fuel (it + 1) a
            else reqLoop env fuel (it + 1) a
        | some _ =>
            match env.getBlock it with
            | some blk => .ok blk.1
            | none => reqLoop env fuel (it + 1) a
        else .fail) = ReqRes.fail
      by_cases ha : a < REQUEST_BLOCK_MAX_ATTEMPTS
      · rw [if_pos ha]
        obtain ⟨hf, hl, hg⟩ := hful it
        rw [hf]
        dsimp only
        rw [if_pos hl, hg]
        exact ih (it + 1) (a + 1) (by omega)
      · rw [if_neg ha]

/-- Full-allocator environment with a permanently free lock. -/
def fullEnv : ReqEnv := ⟨fun _ => none, fun _ => true, fun _ => none, fun _ => none⟩

/-- Witness for `bounded_retry_loops`: with every attempt failing, the malloc
loop at bound 10 ends in the fail sentinel; on the full allocator with a free
lock, the request loop fails within 1001 loop entries. -/
theorem bounded_retry_loops_witness :
    (∀ it, fullEnv.findSegment it = none ∧ fullEnv.lockFree it = true ∧
      fullEnv.gather it = none) ∧
    (malloc_retry_loop (fun _ => vebFail) 10 = vebFail ∨
      ∃ i, i < 10 ∧ malloc_retry_loop (fun _ => vebFail) 10 = vebFail ∧
        vebFail ≠ vebFail) ∧
    reqLoop fullEnv 1001 0 0 = ReqRes.fail :=
  ⟨fun it => ⟨rfl, rfl, rfl⟩,
    (bounded_retry_loops (fun _ => vebFail) 10 fullEnv (fun it => ⟨rfl, rfl, rfl⟩)).1,
    (bounded_retry_loops (fun _ => vebFail) 10 fullEnv (fun it => ⟨rfl, rfl, rfl⟩)).2 0 0
      1001 (by decide)⟩

/-- A well-formed two-layer tree of universe 100 with no bits set; its leaf
layer has 2 words, so bit positions 100..127 exist in storage but lie outside
the universe. -/
def emptyTree100 : veb_tree := ⟨100, [⟨2, 1, [0]⟩, ⟨100, 2, [0, 0]⟩]⟩

/-- C9 (counterexample): `veb_tree::insert` performs no range check — inserting
the out-of-range index 110 into the universe-100 tree is not rejected: it
returns true and sets bit 46 of leaf word 1, mutating storage beyond the
universe (and breaking the masked-excess-bits invariant). -/
theorem insert_out_of_range_mutates :
    emptyTree100.WF ∧ emptyTree100.total_universe ≤ 110 ∧
    emptyTree100.insert 110 =
      some (true, ⟨100, [⟨2, 1, [0]⟩, ⟨100, 2, [0, 2 ^ 46]⟩]⟩) ∧
    (⟨100, [⟨2, 1, [0]⟩, ⟨100, 2, [0, 2 ^ 46]⟩]⟩ : veb_tree).member 110 = true := by
  decide

/-- C9 (amended): of the free-index-tree operations, only `layer::find_next`
rejects out-of-range requests: when `high ≥ universe_size` it returns -1
without consulting the word array — the result is the same for every layer of
that universe, whatever its stored bits.  `insert`, `remove` and `query` have
no range check at all (see the counterexample). -/
theorem find_next_out_of_range (L : layer) (high : Nat) (low : Int)
    (h : L.universe_size ≤ high) :
    L.find_next high low = some (-1) ∧
    (∀ L2 : layer, L2.universe_size = L.universe_size →
      L2.find_next high low = some (-1)) := by
  constructor
  · rw [layer.find_next, if_pos h]
  · intro L2 hu
    rw [layer.find_next, if_pos (by rw [hu]; exact h)]

/-- Witness for `find_next_out_of_range`: the universe-256 scenario layer with
the out-of-range word index 300. -/
theorem find_next_out_of_range_witness :
    scenarioBottom.universe_size ≤ 300 ∧
    (scenarioBottom.find_next 300 (-1) = some (-1) ∧
      (∀ L2 : layer, L2.universe_size = scenarioBottom.universe_size →
        L2.find_next 300 (-1) = some (-1))) :=
  ⟨by decide, find_next_out_of_range scenarioBottom 300 (-1) (by decide)⟩

/-- Source `alloc_table::offset_to_allocation(allocation, tree_id)`, with
pointers represented as byte offsets from the `memory` base: the segment
start `bytes_per_segment * segment_id` plus the in-segment slot times the
tree's allocation size. -/
def alloc_table.offset_to_allocation (tbl : alloc_table) (allocation tree_id : Nat) : Nat :=
  tbl.bytes_per_segment * (allocation / tbl.get_max_allocations_per_segment) +
    (allocation % tbl.get_max_allocations_per_segment) * tbl.get_tree_alloc_size tree_id

/-- Source `alloc_table::allocation_to_offset(alloc, tree_id)`: recover the
segment from the byte offset, subtract the segment start, divide the
in-segment byte offset by the allocation size and rebase by
`segment_id * get_max_allocations_per_segment()`. -/
def alloc_table.allocation_to_offset (tbl : alloc_table) (alloc tree_id : Nat) : Nat :=
  (alloc - tbl.bytes_per_segment * (alloc / tbl.bytes_per_segment)) /
      tbl.get_tree_alloc_size tree_id +
    (alloc / tbl.bytes_per_segment) * tbl.get_max_allocations_per_segment

/-- C10: the offset-to-pointer and pointer-to-offset maps are mutually
inverse: for every allocation offset whose segment index is below
`num_segments` and whose in-segment slot is below
`bytes_per_segment / (min_size * 2^tree)`, mapping to a pointer and back
returns the original offset. -/
theorem offset_allocation_round_trip (tbl : alloc_table) (offset tree : Nat)
    (hmin : 0 < tbl.min_size)
    (hseg : offset / tbl.get_max_allocations_per_segment < tbl.num_segments)
    (hslot : offset % tbl.get_max_allocations_per_segment <
      tbl.bytes_per_segment / tbl.get_tree_alloc_size tree) :
    tbl.allocation_to_offset (tbl.offset_to_allocation offset tree) tree = offset := by
  have hA : 0 < tbl.get_tree_alloc_size tree := by
    unfold alloc_table.get_tree_alloc_size get_p2_from_index
    exact Nat.mul_pos hmin (by
      rw [Nat.shiftLeft_eq, Nat.one_mul]
      exact Nat.pos_pow_of_pos tree (by decide))
  have hmul : (offset % tbl.get_max_allocations_per_segment + 1) *
      tbl.get_tree_alloc_size tree ≤
      (tbl.bytes_per_segment / tbl.get_tree_alloc_size tree) *
        tbl.get_tree_alloc_size tree :=
    Nat.mul_le_mul_right _ (by omega)
  have hdivmul : (tbl.bytes_per_segment / tbl.get_tree_alloc_size tree) *
      tbl.get_tree_alloc_size tree ≤ tbl.bytes_per_segment :=
    Nat.div_mul_le_self _ _
  have hsucc : (offset % tbl.get_max_allocations_per_segment + 1) *
      tbl.get_tree_alloc_size tree =
      offset % tbl.get_max_allocations_per_segment * tbl.get_tree_alloc_size tree +
        tbl.get_tree_alloc_size tree := by
    rw [Nat.succ_mul]
  have hrelA : offset % tbl.get_max_allocations_per_segment *
      tbl.get_tree_alloc_size tree < tbl.bytes_per_segment := by omega
  have hB : 0 < tbl.bytes_per_segment := by omega
  unfold alloc_table.allocation_to_offset alloc_table.offset_to_allocation
  have hdiv : (tbl.bytes_per_segment * (offset / tbl.get_max_allocations_per_segment) +
      offset % tbl.get_max_allocations_per_segment * tbl.get_tree_alloc_size tree) /
      tbl.bytes_per_segment = offset / tbl.get_max_allocations_per_segment := by
    rw [Nat.mul_comm tbl.bytes_per_segment (offset / tbl.get_max_allocations_per_segment),
      Nat.add_comm, Nat.add_mul_div_right _ _ hB, Nat.div_eq_of_lt hrelA, Nat.zero_add]
  rw [hdiv]
  have hsub : tbl.bytes_per_segment * (offset / tbl.get_max_allocations_per_segment) +
      offset % tbl.get_max_allocations_per_segment * tbl.get_tree_alloc_size tree -
      tbl.bytes_per_segment * (offset / tbl.get_max_allocations_per_segment) =
      offset % tbl.get_max_allocations_per_segment * tbl.get_tree_alloc_size tree := by
    omega
  rw [hsub, Nat.mul_div_cancel _ hA]
  have hdm := Nat.div_add_mod offset tbl.get_max_allocations_per_segment
  rw [Nat.mul_comm] at hdm
  omega

/-- Witness for `offset_allocation_round_trip`: the sample table
(`bytes_per_segment = 65536`, `min_size = 16`, so 4096 slots per segment),
tree 0 and offset 4101 = segment 1, slot 5. -/
theorem offset_allocation_round_trip_witness :
    0 < sampleTable.min_size ∧
    4101 / sampleTable.get_max_allocations_per_segment < sampleTable.num_segments ∧
    4101 % sampleTable.get_max_allocations_per_segment <
      sampleTable.bytes_per_segment / sampleTable.get_tree_alloc_size 0 ∧
    sampleTable.allocation_to_offset (sampleTable.offset_to_allocation 4101 0) 0 = 4101 :=
  ⟨by decide, by decide, by decide,
    offset_allocation_round_trip sampleTable 4101 0 (by decide) (by decide) (by decide)⟩

end Gallatin
